import Mathlib

/-!
# Device query planner of wb-mqtt-serial: `GetMaxHoleSize`, `MergeSets`, `GenerateQueries`

A shallow embedding of `src/ir_device_query_factory.cpp`, and of
`TMercury230Device::ReadFromMemory` and `TMercury230Device::CheckForException` of
`src/mercury230_device.cpp`.

* A register set (`TPSet<PProtocolRegister>`) is the ascending, duplicate-free list of the
  addresses of its registers.
* `uint32_t` values are natural numbers below `2^32`; every subtraction and every `+ 1` of
  the source is written with its reduction modulo `2^32`.
* The `std::list` of register sets together with the iterator `itRegisterSet` is a list cut
  at the iterator: the sets before it, the set it points to, the sets after it.
* An exception is an `Except.error`.
-/

namespace WbMqttSerial

/-! ## Machine integers -/

/-- Number of values of a `uint32_t`. -/
def u32 : Nat := 4294967296

/-- Subtraction of two `uint32_t` values, with wrap-around. -/
def subU32 (a b : Nat) : Nat := (a + u32 - b % u32) % u32

/-- Conversion of a `uint32_t` to `int` (two's complement), as in `prev = reg->Address`. -/
def toInt32 (a : Nat) : Int :=
  if a % u32 < 2147483648 then ((a % u32 : Nat) : Int) else ((a % u32 : Nat) : Int) - 4294967296

/-- Conversion of an `int` to `uint32_t`, as in `reg->Address - prev` and in
`static_cast<uint32_t>(maxHole)`. -/
def ofInt32 (i : Int) : Nat := (i % 4294967296).toNat

/-! ## Register sets -/

/-- Modelled from the spec: the ordering of `TPSet<PProtocolRegister>` (its declaration is not
part of the sources at hand) is "ordered by ascending address, with address uniqueness within
the group", so a register set is the ascending list of its addresses. -/
abbrev RegisterSet := List Nat

/-- Insertion of one register into a `std::set`: kept in ascending order, and a register
already present is not inserted again. -/
def insertReg (r : Nat) : RegisterSet → RegisterSet
  | [] => [r]
  | x :: xs => if r < x then r :: x :: xs else if r = x then x :: xs else x :: insertReg r xs

/-- The range insertion `registerSet.insert(setForMerge->begin(), setForMerge->end())`. -/
def insertRange (setForMerge registerSet : RegisterSet) : RegisterSet :=
  setForMerge.foldl (fun acc r => insertReg r acc) registerSet

/-- The address of the first register, `(*registerSet.begin())->Address`. -/
def startOf (registerSet : RegisterSet) : Nat := registerSet.headD 0

/-- The address of the last register, `(*registerSet.rbegin())->Address`. -/
def lastOf (registerSet : RegisterSet) : Nat := registerSet.getLastD 0

/-- The exclusive end as the source computes it: `(*registerSet.rbegin())->Address + 1` in
`uint32_t`. -/
def endOf (registerSet : RegisterSet) : Nat := (lastOf registerSet + 1) % u32

/-- One step of the loop of `GetMaxHoleSize`; the state is `(hole, prev)`. -/
def holeStep (st : Nat × Int) (address : Nat) : Nat × Int :=
  (if 0 ≤ st.2 then max st.1 (subU32 address (ofInt32 st.2)) else st.1, toInt32 address)

/-- `GetMaxHoleSize` of the source: `hole = 0`, `prev = -1`, and for each register in
ascending order `if (prev >= 0) hole = max(hole, reg->Address - prev); prev = reg->Address`. -/
def GetMaxHoleSize (registerSet : RegisterSet) : Nat :=
  (registerSet.foldl holeStep (0, -1)).1

/-! ## MergeSets -/

/-- The stages of `MergeSets` that do work (`Done` only ends the outer loop). -/
inductive EStage where
  | HoleEliminate
  | Merge
  deriving DecidableEq, Repr

/-- The two exceptions `MergeSets` throws, and the exhaustion of the iteration bound that the
loops of the embedding carry (`MergeSets` never produces the latter, see
`MergeSets_ne_fuelExhausted`). -/
inductive MergeError where
  | maxRegCountExceeded
  | maxHoleCountExceeded
  | fuelExhausted
  deriving DecidableEq, Repr

/-- What the body of the loop over `itOtherRegisterSet` does with one other set. -/
inductive ScanResult where
  | skip
  | throwMaxRegs
  | candidate (sortingFactor otherSize : Nat)
  deriving DecidableEq, Repr

/-- The body of the loop over the other sets (source lines 148 to 183), for the current set
`registerSet` and one other set. -/
def scanOther (stage : EStage) (maxHole maxRegs : Nat)
    (registerSet otherRegisterSet : RegisterSet) : ScanResult :=
  let start := startOf registerSet
  let end_ := endOf registerSet
  let startOther := startOf otherRegisterSet
  let endOther := endOf otherRegisterSet
  let overlap : Bool := decide (startOther < end_) && decide (start < endOther)
  if overlap || stage == EStage.Merge then
    if !overlap && decide (subU32 (max start startOther) (min end_ endOther) > maxHole) then
      ScanResult.skip
    else
      let size := subU32 end_ start
      let otherSize := subU32 endOther startOther
      let minMergedSize := max size otherSize
      let mergedSize := subU32 (max end_ endOther) (min start startOther)
      if size > maxRegs then ScanResult.throwMaxRegs
      else if mergedSize > maxRegs then ScanResult.skip
      else ScanResult.candidate (subU32 mergedSize minMergedSize) otherSize
  else ScanResult.skip

/-- An entry of `setsForMerge`: sorting factor, size of the other set, and the position of the
other set among the sets other than the current one. -/
abbrev Candidate := Nat × Nat × Nat

/-- `setsForMerge[sortingFactor][otherSize].push_back(it)`: the nested maps are walked in
ascending order of sorting factor, then of size, and a vector in insertion order, so the new
entry goes behind every entry whose key is not greater. -/
def insertCandidate (c : Candidate) : List Candidate → List Candidate
  | [] => [c]
  | d :: ds =>
    if c.1 < d.1 ∨ (c.1 = d.1 ∧ c.2.1 < d.2.1) then c :: d :: ds
    else d :: insertCandidate c ds

/-- The loop over `itOtherRegisterSet`: `others` are the sets other than the current one in
list order, `k` is the position of the first of them. -/
def collectCandidates (stage : EStage) (maxHole maxRegs : Nat) (registerSet : RegisterSet) :
    List RegisterSet → Nat → List Candidate → Except MergeError (List Candidate)
  | [], _, acc => Except.ok acc
  | other :: rest, k, acc =>
    match scanOther stage maxHole maxRegs registerSet other with
    | ScanResult.skip => collectCandidates stage maxHole maxRegs registerSet rest (k + 1) acc
    | ScanResult.throwMaxRegs => Except.error MergeError.maxRegCountExceeded
    | ScanResult.candidate sortingFactor otherSize =>
      collectCandidates stage maxHole maxRegs registerSet rest (k + 1)
        (insertCandidate (sortingFactor, otherSize, k) acc)

/-- The walk over `setsForMerge` in stage `HoleEliminate` when `holeSize > maxHole`: the first
candidate whose merge makes the hole smaller, with the merged set and its hole size. -/
def findHoleDecrease (others : List RegisterSet) (registerSet : RegisterSet) (holeSize : Nat) :
    List Candidate → Option (Nat × RegisterSet × Nat)
  | [] => none
  | c :: cs =>
    let mergedSet := insertRange (others.getD c.2.2 []) registerSet
    let newHoleSize := GetMaxHoleSize mergedSet
    if newHoleSize < holeSize then some (c.2.2, mergedSet, newHoleSize)
    else findHoleDecrease others registerSet holeSize cs

/-- The list after `registerSets.erase(setForMerge)`: the set at position `k` among the others
(those before the current set, then those after it) is removed. -/
def eraseOther (pre post : List RegisterSet) (k : Nat) : List RegisterSet × List RegisterSet :=
  if k < pre.length then (pre.eraseIdx k, post) else (pre, post.eraseIdx (k - pre.length))

/-- The loop `while (!done)` for the current set: `pre` are the sets before the iterator,
`registerSet` the set at the iterator, `post` the sets after it. The result is the list again
cut at the iterator. Every further pass follows a merge, which removes a set from the list;
`fuel` bounds the number of passes. -/
def processSet (stage : EStage) (maxHole maxRegs : Nat) :
    Nat → List RegisterSet → RegisterSet → List RegisterSet → Nat →
      Except MergeError (List RegisterSet × RegisterSet × List RegisterSet)
  | 0, _, _, _, _ => Except.error MergeError.fuelExhausted
  | fuel + 1, pre, registerSet, post, holeSize =>
    match collectCandidates stage maxHole maxRegs registerSet (pre ++ post) 0 [] with
    | Except.error e => Except.error e
    | Except.ok setsForMerge =>
      match stage with
      | EStage.HoleEliminate =>
        if holeSize > maxHole then
          match findHoleDecrease (pre ++ post) registerSet holeSize setsForMerge with
          | some (k, mergedSet, newHoleSize) =>
            if newHoleSize ≤ maxHole then
              Except.ok ((eraseOther pre post k).1, mergedSet, (eraseOther pre post k).2)
            else
              processSet stage maxHole maxRegs fuel (eraseOther pre post k).1 mergedSet
                (eraseOther pre post k).2 newHoleSize
          | none => Except.error MergeError.maxHoleCountExceeded
        else Except.ok (pre, registerSet, post)
      | EStage.Merge =>
        match setsForMerge with
        | [] => Except.ok (pre, registerSet, post)
        | c :: _ =>
          processSet stage maxHole maxRegs fuel (eraseOther pre post c.2.2).1
            (insertRange ((pre ++ post).getD c.2.2 []) registerSet)
            (eraseOther pre post c.2.2).2 holeSize

/-- The loop `for (itRegisterSet = begin(); itRegisterSet != end(); ++itRegisterSet)` of one
stage: `pre` are the sets the iterator has passed, `post` the sets from the iterator on. -/
def runStage (stage : EStage) (maxHole maxRegs : Nat) :
    Nat → List RegisterSet → List RegisterSet → Except MergeError (List RegisterSet)
  | _, pre, [] => Except.ok pre
  | 0, _, _ :: _ => Except.error MergeError.fuelExhausted
  | fuel + 1, pre, registerSet :: post =>
    match processSet stage maxHole maxRegs (pre.length + post.length + 1) pre registerSet post
        (GetMaxHoleSize registerSet) with
    | Except.error e => Except.error e
    | Except.ok r => runStage stage maxHole maxRegs fuel (r.1 ++ [r.2.1]) r.2.2

/-- `TIRDeviceQueryFactory::MergeSets`: stage `HoleEliminate` over the whole list, then stage
`Merge` over the whole list; the result is the list the source leaves in `registerSets`. -/
def MergeSets (registerSets : List RegisterSet) (maxHole maxRegs : Nat) :
    Except MergeError (List RegisterSet) :=
  match runStage EStage.HoleEliminate maxHole maxRegs registerSets.length [] registerSets with
  | Except.error e => Except.error e
  | Except.ok afterHoles => runStage EStage.Merge maxHole maxRegs afterHoles.length [] afterHoles

/-! ## GenerateQueries -/

/-- `EQueryOperation`, with its two enumerators. The `default:` branch of `IsReadOperation`,
which throws for a value that is neither, has no counterpart for this type. -/
inductive EQueryOperation where
  | Read
  | Write
  deriving DecidableEq, Repr

/-- `IsReadOperation`. -/
def IsReadOperation : EQueryOperation → Bool
  | EQueryOperation.Read => true
  | EQueryOperation.Write => false

/-- Modelled from the spec: the declaration of the device config is not part of the sources at
hand; these are the "per-device optional overrides for read span and for read/write hole
tolerance (bits and registers, separately)" that `GenerateQueries` reads, as the `int` values
the source stores them in. -/
structure TDeviceConfig where
  MaxBitHole : Int
  MaxRegHole : Int
  MaxReadRegisters : Int
  deriving DecidableEq, Repr

/-- Modelled from the spec: the declaration of the protocol info is not part of the sources at
hand; these are the "per-protocol maximum read/write span (bits and registers, separately)"
that `GenerateQueries` reads, as the `int` values the source stores them in. -/
structure TProtocolInfo where
  GetMaxReadBits : Int
  GetMaxReadRegisters : Int
  GetMaxWriteBits : Int
  GetMaxWriteRegisters : Int
  deriving DecidableEq, Repr

/-- The query classes `AddQuery` is instantiated with. -/
inductive QueryVariant where
  | TIRDeviceQuery
  | TIRDeviceSingleBitQuery
  | TIRDevice64BitQuery
  deriving DecidableEq, Repr

/-- A query made by `AddQuery`: its class and the register set it was made from. -/
structure Query where
  variant : QueryVariant
  registerSet : RegisterSet
  deriving DecidableEq, Repr

/-- The choice of `addQuery`:
`isRead ? AddQuery<TIRDeviceQuery> : singleBitType ? AddQuery<TIRDeviceSingleBitQuery>
: AddQuery<TIRDevice64BitQuery>`. -/
def addQuery (isRead singleBitType : Bool) : QueryVariant :=
  if isRead then QueryVariant.TIRDeviceQuery
  else if singleBitType then QueryVariant.TIRDeviceSingleBitQuery
  else QueryVariant.TIRDevice64BitQuery

/-- The `int maxHole` of `GenerateQueries`. -/
def maxHoleOf (enableHoles singleBitType : Bool) (deviceConfig : TDeviceConfig) : Int :=
  if enableHoles then
    (if singleBitType then deviceConfig.MaxBitHole else deviceConfig.MaxRegHole)
  else 0

/-- The `int maxRegs` of `GenerateQueries`. -/
def maxRegsOf (isRead singleBitType : Bool) (deviceConfig : TDeviceConfig)
    (protocolInfo : TProtocolInfo) : Int :=
  if isRead then
    if singleBitType then protocolInfo.GetMaxReadBits
    else
      if deviceConfig.MaxReadRegisters > 0 ∧
          deviceConfig.MaxReadRegisters ≤ protocolInfo.GetMaxReadRegisters then
        deviceConfig.MaxReadRegisters
      else protocolInfo.GetMaxReadRegisters
  else
    if singleBitType then protocolInfo.GetMaxWriteBits else protocolInfo.GetMaxWriteRegisters

/-- `TIRDeviceQueryFactory::GenerateQueries`. `singleBitType` is what
`protocolInfo.IsSingleBitType` answers for the type of the first register of the first set;
`deviceConfig` and `protocolInfo` are those of the device of that register. The result lists
the queries in the order of the merged sets. The three `assert`s of the source (the list is not
empty, its first set is not empty, the result is not empty) compute nothing and are left
out. -/
def GenerateQueries (registerSets : List RegisterSet) (singleBitType : Bool)
    (deviceConfig : TDeviceConfig) (protocolInfo : TProtocolInfo) (enableHoles : Bool)
    (operation : EQueryOperation) : Except MergeError (List Query) :=
  let isRead := IsReadOperation operation
  let maxHole := maxHoleOf enableHoles singleBitType deviceConfig
  let maxRegs := maxRegsOf isRead singleBitType deviceConfig protocolInfo
  match MergeSets registerSets (ofInt32 maxHole) (ofInt32 maxRegs) with
  | Except.error e => Except.error e
  | Except.ok merged =>
    Except.ok (merged.map fun registerSet => Query.mk (addQuery isRead singleBitType) registerSet)

/-! ## The caps as the specification words them -/

/-- The protocol's own maximum for an operation and a register class. -/
def protocolCap (operation : EQueryOperation) (singleBitType : Bool)
    (protocolInfo : TProtocolInfo) : Int :=
  match operation, singleBitType with
  | EQueryOperation.Read, true => protocolInfo.GetMaxReadBits
  | EQueryOperation.Read, false => protocolInfo.GetMaxReadRegisters
  | EQueryOperation.Write, true => protocolInfo.GetMaxWriteBits
  | EQueryOperation.Write, false => protocolInfo.GetMaxWriteRegisters

/-- The hole cap in the words of the specification: zero unless holes are enabled, in which
case the device's bit-hole or register-hole limit matching the register class. -/
def specMaxHole (enableHoles singleBitType : Bool) (deviceConfig : TDeviceConfig) : Int :=
  match enableHoles, singleBitType with
  | false, _ => 0
  | true, true => deviceConfig.MaxBitHole
  | true, false => deviceConfig.MaxRegHole

/-- The span cap in the words of the specification: for a word read the device's
`MaxReadRegisters` when it is positive and not greater than the protocol's maximum, otherwise
the protocol's maximum; for single-bit reads and all writes the protocol's maximum. -/
def specMaxSpan (operation : EQueryOperation) (singleBitType : Bool)
    (deviceConfig : TDeviceConfig) (protocolInfo : TProtocolInfo) : Int :=
  match operation, singleBitType with
  | EQueryOperation.Read, false =>
    if 0 < deviceConfig.MaxReadRegisters ∧
        deviceConfig.MaxReadRegisters ≤ protocolInfo.GetMaxReadRegisters then
      deviceConfig.MaxReadRegisters
    else protocolInfo.GetMaxReadRegisters
  | op, sb => protocolCap op sb protocolInfo

/-- The query variant in the words of the specification. -/
def specVariant (operation : EQueryOperation) (singleBitType : Bool) : QueryVariant :=
  match operation, singleBitType with
  | EQueryOperation.Read, _ => QueryVariant.TIRDeviceQuery
  | EQueryOperation.Write, true => QueryVariant.TIRDeviceSingleBitQuery
  | EQueryOperation.Write, false => QueryVariant.TIRDevice64BitQuery

/-! ## Vocabulary of the properties -/

/-- A value of `TPSet<PProtocolRegister>` as `MergeSets` expects it: not empty, in strictly
ascending order of address, every address a `uint32_t`. -/
def IsRegisterSet (g : RegisterSet) : Prop :=
  g ≠ [] ∧ g.Pairwise (· < ·) ∧ ∀ a ∈ g, a < u32

/-- Span of a set: highest address + 1 − lowest address. -/
def Span (g : RegisterSet) : Nat := lastOf g + 1 - startOf g

/-- The address spans of two sets overlap. -/
def SpansOverlap (g h : RegisterSet) : Prop := startOf h ≤ lastOf g ∧ startOf g ≤ lastOf h

/-- Address distance between two sets: start of the later one − end of the earlier one, the
end being one past the last address (0 when the spans overlap). -/
def Gap (g h : RegisterSet) : Nat :=
  max (startOf g) (startOf h) - min (lastOf g + 1) (lastOf h + 1)

/-- Span of the union of two sets. -/
def CombinedSpan (g h : RegisterSet) : Nat :=
  max (lastOf g + 1) (lastOf h + 1) - min (startOf g) (startOf h)

/-- `MaxInternalHole` in the words of the specification: the largest gap between neighbouring
registers of a group, counted as the addresses skipped between them (next address − previous
address − 1, as in "hole 10−2−1=7"); 0 for a group of one register. -/
def MaxInternalHole : RegisterSet → Nat
  | [] => 0
  | [_] => 0
  | a :: b :: rest => max (b - a - 1) (MaxInternalHole (b :: rest))

/-- One merge of `MergeSets` seen on the whole list: the current set `x` absorbs another whole
set `y`, which is erased from the list; every other set keeps its place. -/
inductive MergeStep : List RegisterSet → List RegisterSet → Prop where
  | absorbLater (l₁ : List RegisterSet) (x : RegisterSet) (l₂ : List RegisterSet)
      (y : RegisterSet) (l₃ : List RegisterSet) :
      MergeStep (l₁ ++ x :: (l₂ ++ y :: l₃)) (l₁ ++ insertRange y x :: (l₂ ++ l₃))
  | absorbEarlier (l₁ : List RegisterSet) (y : RegisterSet) (l₂ : List RegisterSet)
      (x : RegisterSet) (l₃ : List RegisterSet) :
      MergeStep (l₁ ++ y :: (l₂ ++ x :: l₃)) (l₁ ++ (l₂ ++ insertRange y x :: l₃))

/-- Any number of merges. -/
abbrev Merges : List RegisterSet → List RegisterSet → Prop := Relation.ReflTransGen MergeStep

/-- The output set `g` is made of the whole input sets whose positions are in `block`: `block`
is not empty, the registers of `g` are those of the input sets of the block, and when the
block is a single input set, `g` is that set, unmodified. -/
def BlockOf (registerSets : List RegisterSet) (block : List Nat) (g : RegisterSet) : Prop :=
  block ≠ [] ∧ (∀ r, r ∈ g ↔ ∃ j ∈ block, r ∈ registerSets.getD j []) ∧
    ∀ j, block = [j] → g = registerSets.getD j []

/-- The sets of `out` are, one by one and in order, the unions of the blocks of a partition of
the positions of `registerSets`. -/
def PartitionedInto (registerSets out : List RegisterSet) : Prop :=
  ∃ blocks : List (List Nat),
    blocks.flatten.Perm (List.range registerSets.length) ∧
      List.Forall₂ (BlockOf registerSets) blocks out


instance (g : RegisterSet) : Decidable (IsRegisterSet g) := by
  unfold IsRegisterSet
  infer_instance

instance (g h : RegisterSet) : Decidable (SpansOverlap g h) := by
  unfold SpansOverlap
  infer_instance

/-! ## Vocabulary of the order of the candidates -/

/-- Another set qualifies as a candidate of a pass: it overlaps the current set, or in stage
`Merge` lies within `maxHole` of it, and the span of the union is within `maxRegs`. -/
def Qualifies (stage : EStage) (maxHole maxRegs : Nat) (cur other : RegisterSet) : Prop :=
  (SpansOverlap cur other ∨ (stage = EStage.Merge ∧ Gap cur other ≤ maxHole)) ∧
    CombinedSpan cur other ≤ maxRegs

/-- The key by which the candidates are ordered: sorting factor (span of the union minus the
larger of the two spans), then the span of the candidate, then its position among the other
sets of the list. -/
def candidateKey (cur : RegisterSet) (others : List RegisterSet) (k : Nat) : Candidate :=
  (CombinedSpan cur (others.getD k []) - max (Span cur) (Span (others.getD k [])),
    Span (others.getD k []), k)

/-- Candidate `c` comes before candidate `d`: smaller sorting factor, or the same and smaller
size, or both the same and earlier in the list. -/
def CandidateBefore (c d : Candidate) : Prop :=
  c.1 < d.1 ∨ (c.1 = d.1 ∧ (c.2.1 < d.2.1 ∨ (c.2.1 = d.2.1 ∧ c.2.2 < d.2.2)))

instance (stage : EStage) (maxHole maxRegs : Nat) (cur other : RegisterSet) :
    Decidable (Qualifies stage maxHole maxRegs cur other) := by
  unfold Qualifies
  infer_instance

instance (c d : Candidate) : Decidable (CandidateBefore c d) := by
  unfold CandidateBefore
  infer_instance

/-! ## TMercury230Device::ReadFromMemory -/

/-- The value of `memoryBlock->Type.Index` as the `switch` of `ReadFromMemory` tells it
apart: the seven register types of the device, and any other index. -/
inductive Mercury230RegType where
  | REG_VALUE_ARRAY
  | REG_VALUE_ARRAY12
  | REG_PARAM
  | REG_PARAM_SIGN_ACT
  | REG_PARAM_SIGN_REACT
  | REG_PARAM_SIGN_IGNORE
  | REG_PARAM_BE
  | unknown (index : Nat)
  deriving DecidableEq, Repr

/-- What a call of `ReadFromMemory` leaves behind: the content of `value`, which is passed by
reference, and the message of the exception when one was thrown. -/
structure ReadOutcome where
  value : Nat
  thrown : Option String
  deriving DecidableEq, Repr

/-- The message of the exception of the `default:` label. -/
def invalidRegisterType : String := "mercury230 ReadFromMemory: invalid register type"

/-- The `uint32_t paramValue` that `ReadFromMemory` decodes from the raw memory `buf` (bytes)
of a block of `size` bytes, source lines 115 to 151. -/
def decodeParam (typeIndex : Mercury230RegType) (size : Nat) (buf : Nat → Nat) : Nat :=
  let b0 := buf 0 % 256
  let b1 := buf 1 % 256
  let b2 := buf 2 % 256
  if size = 3 then
    if typeIndex = Mercury230RegType.REG_PARAM_SIGN_ACT ∨
        typeIndex = Mercury230RegType.REG_PARAM_SIGN_REACT ∨
        typeIndex = Mercury230RegType.REG_PARAM_SIGN_IGNORE then
      let magnitude := (((b0 &&& 0x3f) <<< 16) + (b2 <<< 8) + b1) % u32
      let active_power_sign : Int := if b0 &&& 0x80 ≠ 0 then -1 else 1
      let reactive_power_sign : Int := if b0 &&& 0x40 ≠ 0 then -1 else 1
      let sign : Int :=
        if typeIndex = Mercury230RegType.REG_PARAM_SIGN_ACT then active_power_sign
        else if typeIndex = Mercury230RegType.REG_PARAM_SIGN_REACT then reactive_power_sign
        else 1
      ofInt32 (toInt32 magnitude * sign)
    else ((b0 <<< 16) + (b2 <<< 8) + b1) % u32
  else
    if typeIndex = Mercury230RegType.REG_PARAM_BE then ((b0 <<< 8) + b1) % u32
    else ((b1 <<< 8) + b0) % u32

/-- The statement of the `default:` label: throw, leaving `value` as it is at that point. -/
def throwInvalidRegisterType (value : Nat) : ReadOutcome :=
  { value := value, thrown := some invalidRegisterType }

/-- `TMercury230Device::ReadFromMemory`. `base` is what the call of
`TSerialDevice::ReadFromMemory` with the same arguments leaves behind (that function is not
part of the sources at hand); `mask` and `bitStart` are `bindInfo.GetMask()` and
`bindInfo.BitStart`; `value` is a `uint64_t`, and the shifted word is reduced to 64 bits. The
block of the five parameter types has no `break` and no `return`, so control runs on into the
`default:` label. -/
def ReadFromMemory (base : ReadOutcome) (typeIndex : Mercury230RegType) (size : Nat)
    (buf : Nat → Nat) (mask bitStart offset value : Nat) : ReadOutcome :=
  match typeIndex with
  | Mercury230RegType.REG_VALUE_ARRAY => base
  | Mercury230RegType.REG_VALUE_ARRAY12 => base
  | Mercury230RegType.REG_PARAM_SIGN_ACT
  | Mercury230RegType.REG_PARAM_SIGN_REACT
  | Mercury230RegType.REG_PARAM_SIGN_IGNORE
  | Mercury230RegType.REG_PARAM
  | Mercury230RegType.REG_PARAM_BE =>
    let paramValue := decodeParam typeIndex size buf
    throwInvalidRegisterType
      ((value ||| (((mask &&& paramValue) >>> bitStart) <<< offset)) % 18446744073709551616)
  | Mercury230RegType.unknown _ => throwInvalidRegisterType value


/-! ## TMercury230Device::CheckForException -/

/-- The values of `TEMDevice<TMercury230Protocol>::ErrorType` that `CheckForException`
returns. -/
inductive ErrorType where
  | NO_ERROR
  | PERMANENT_ERROR
  | NO_OPEN_SESSION
  | OTHER_ERROR
  deriving DecidableEq, Repr

/-- The end of `CheckForException` behind the `switch`, reached by `break` and from the
`default:` label: `return OTHER_ERROR`, with `*message` as the `switch` has set it. -/
def returnOtherError (message : Option String) : ErrorType × Option String :=
  (ErrorType.OTHER_ERROR, message)

/-- `TMercury230Device::CheckForException`: the value returned and what is left in
`*message` (`none` for the null pointer). `frame` gives the bytes of the frame, `len` is an
`int`. -/
def CheckForException (frame : Nat → Nat) (len : Int) : ErrorType × Option String :=
  if len ≠ 4 ∨ (frame 1 % 256) &&& 0x0f = 0 then (ErrorType.NO_ERROR, none)
  else
    match (frame 1 % 256) &&& 0x0f with
    | 1 => (ErrorType.PERMANENT_ERROR, some "Invalid command or parameter")
    | 2 => returnOtherError (some "Internal meter error")
    | 3 => returnOtherError (some "Insufficient access level")
    | 4 => returnOtherError (some "Can't correct the clock more than once per day")
    | 5 => (ErrorType.NO_OPEN_SESSION, some "Connection closed")
    | _ => returnOtherError (some "Unknown error")


/-! ## Register sets: membership -/

theorem mem_insertReg (a r : Nat) (l : RegisterSet) : a ∈ insertReg r l ↔ a = r ∨ a ∈ l := by
  induction l with
  | nil => simp [insertReg]
  | cons x xs ih =>
    unfold insertReg
    split_ifs with h1 h2
    · simp
    · subst h2; simp
    · simp [ih]; tauto

theorem mem_insertRange (a : Nat) (src dst : RegisterSet) :
    a ∈ insertRange src dst ↔ a ∈ src ∨ a ∈ dst := by
  unfold insertRange
  induction src generalizing dst with
  | nil => simp
  | cons x xs ih => simp [List.foldl_cons, ih, mem_insertReg]; tauto

theorem insertRange_nil (dst : RegisterSet) : insertRange [] dst = dst := rfl

/-! ## The list of sets: one merge as a rewriting step -/

theorem eraseIdx_split {α : Type} (d : α) :
    ∀ (l : List α) (k : Nat), k < l.length →
      ∃ l₁ y l₂, l = l₁ ++ y :: l₂ ∧ l.eraseIdx k = l₁ ++ l₂ ∧ l.getD k d = y ∧ l₁.length = k
  | [], k, h => by simp at h
  | x :: xs, 0, _ => ⟨[], x, xs, by simp, by simp, by simp, by simp⟩
  | x :: xs, k + 1, h => by
    obtain ⟨l₁, y, l₂, h1, h2, h3, h4⟩ := eraseIdx_split d xs k (by simpa using h)
    refine ⟨x :: l₁, y, l₂, by simp [h1], by simp [h2], ?_, by simp [h4]⟩
    simpa using h3

/-- The list before and after `eraseOther`, cut at the set that is erased. -/
theorem eraseOther_cases (pre post : List RegisterSet) (k : Nat) :
    (∃ l₁ y l₂, pre = l₁ ++ y :: l₂ ∧ eraseOther pre post k = (l₁ ++ l₂, post) ∧
        (pre ++ post).getD k [] = y ∧ k < pre.length) ∨
    (∃ l₁ y l₂, post = l₁ ++ y :: l₂ ∧ eraseOther pre post k = (pre, l₁ ++ l₂) ∧
        (pre ++ post).getD k [] = y ∧ pre.length ≤ k ∧ k < pre.length + post.length) ∨
    (eraseOther pre post k = (pre, post) ∧ (pre ++ post).getD k [] = [] ∧
        pre.length + post.length ≤ k) := by
  by_cases h : k < pre.length
  · left
    obtain ⟨l₁, y, l₂, h1, h2, h3, _⟩ := eraseIdx_split ([] : RegisterSet) pre k h
    refine ⟨l₁, y, l₂, h1, by simp [eraseOther, h, h2], ?_, h⟩
    rw [List.getD_append _ _ _ _ h]; exact h3
  · right
    have h' : pre.length ≤ k := Nat.le_of_not_lt h
    by_cases h2 : k - pre.length < post.length
    · left
      obtain ⟨l₁, y, l₂, h1, h3, h4, _⟩ :=
        eraseIdx_split ([] : RegisterSet) post (k - pre.length) h2
      refine ⟨l₁, y, l₂, h1, by simp [eraseOther, h, h3], ?_, h', by omega⟩
      rw [List.getD_append_right _ _ _ _ h']; exact h4
    · right
      have h3 : post.length ≤ k - pre.length := Nat.le_of_not_lt h2
      refine ⟨?_, ?_, by omega⟩
      · simp [eraseOther, h, List.eraseIdx_eq_self.2 h3]
      · rw [List.getD_append_right _ _ _ _ h']
        simp [List.getElem?_eq_none h3]

/-- Replacing the current set by its union with the other set at position `k` and erasing that
set is at most one merge step on the whole list. -/
theorem merges_eraseOther (pre : List RegisterSet) (cur : RegisterSet) (post : List RegisterSet)
    (k : Nat) :
    Merges (pre ++ cur :: post)
      ((eraseOther pre post k).1 ++ insertRange ((pre ++ post).getD k []) cur ::
        (eraseOther pre post k).2) := by
  rcases eraseOther_cases pre post k with ⟨l₁, y, l₂, h1, h2, h3, _⟩ | ⟨l₁, y, l₂, h1, h2, h3, _⟩ |
    ⟨h2, h3, _⟩
  · rw [h2, h3, h1]
    have := MergeStep.absorbEarlier l₁ y l₂ cur post
    simp only [List.append_assoc, List.cons_append] at this ⊢
    exact Relation.ReflTransGen.single this
  · rw [h2, h3, h1]
    exact Relation.ReflTransGen.single (MergeStep.absorbLater pre cur l₁ y l₂)
  · rw [h2, h3, insertRange_nil]

theorem findHoleDecrease_some (others : List RegisterSet) (cur : RegisterSet) (holeSize : Nat) :
    ∀ (cs : List Candidate) (k : Nat) (m : RegisterSet) (h : Nat),
      findHoleDecrease others cur holeSize cs = some (k, m, h) →
        m = insertRange (others.getD k []) cur ∧ h = GetMaxHoleSize m ∧ h < holeSize ∧
          ∃ c ∈ cs, c.2.2 = k
  | [], k, m, h, hf => by simp [findHoleDecrease] at hf
  | c :: cs, k, m, h, hf => by
    unfold findHoleDecrease at hf
    simp only at hf
    split_ifs at hf with hlt
    · simp only [Option.some.injEq, Prod.mk.injEq] at hf
      obtain ⟨rfl, rfl, rfl⟩ := hf
      exact ⟨rfl, rfl, hlt, c, by simp, rfl⟩
    · obtain ⟨h1, h2, h3, c', hc', h4⟩ := findHoleDecrease_some others cur holeSize cs k m h hf
      exact ⟨h1, h2, h3, c', by simp [hc'], h4⟩

/-- What `processSet` returns is the list it was given after some merges. -/
theorem processSet_merges (stage : EStage) (maxHole maxRegs : Nat) :
    ∀ (fuel : Nat) (pre : List RegisterSet) (cur : RegisterSet) (post : List RegisterSet)
      (holeSize : Nat) (r : List RegisterSet × RegisterSet × List RegisterSet),
      processSet stage maxHole maxRegs fuel pre cur post holeSize = Except.ok r →
        Merges (pre ++ cur :: post) (r.1 ++ r.2.1 :: r.2.2)
  | 0, _, _, _, _, _, h => by simp [processSet] at h
  | fuel + 1, pre, cur, post, holeSize, r, h => by
    unfold processSet at h
    split at h
    · simp at h
    · rename_i setsForMerge _
      cases stage with
      | HoleEliminate =>
        simp only at h
        split_ifs at h with hgt
        · split at h
          · rename_i k m nh hfind
            obtain ⟨hm, _, _, _⟩ := findHoleDecrease_some _ _ _ _ _ _ _ hfind
            have step := merges_eraseOther pre cur post k
            rw [← hm] at step
            split_ifs at h with hle
            · simp only [Except.ok.injEq] at h
              subst h
              exact step
            · exact step.trans (processSet_merges _ _ _ fuel _ _ _ _ r h)
          · simp at h
        · simp only [Except.ok.injEq] at h
          subst h
          exact Relation.ReflTransGen.refl
      | Merge =>
        simp only at h
        split at h
        · simp only [Except.ok.injEq] at h
          subst h
          exact Relation.ReflTransGen.refl
        · rename_i c _ _
          exact (merges_eraseOther pre cur post c.2.2).trans
            (processSet_merges _ _ _ fuel _ _ _ _ r h)

/-- What `runStage` returns is the list it was given after some merges. -/
theorem runStage_merges (stage : EStage) (maxHole maxRegs : Nat) :
    ∀ (fuel : Nat) (pre post out : List RegisterSet),
      runStage stage maxHole maxRegs fuel pre post = Except.ok out → Merges (pre ++ post) out
  | fuel, pre, [], out, h => by
    cases fuel <;> simp only [runStage, Except.ok.injEq] at h <;> subst h <;> simp <;>
      exact Relation.ReflTransGen.refl
  | 0, pre, x :: post, out, h => by simp [runStage] at h
  | fuel + 1, pre, x :: post, out, h => by
    unfold runStage at h
    split at h
    · simp at h
    · rename_i r hp
      have h1 := processSet_merges _ _ _ _ _ _ _ _ r hp
      have h2 := runStage_merges stage maxHole maxRegs fuel _ _ out h
      simp only [List.append_assoc, List.singleton_append] at h2
      exact h1.trans h2

/-- What `MergeSets` returns is its input after some merges. -/
theorem MergeSets_merges (registerSets out : List RegisterSet) (maxHole maxRegs : Nat)
    (h : MergeSets registerSets maxHole maxRegs = Except.ok out) : Merges registerSets out := by
  unfold MergeSets at h
  split at h
  · simp at h
  · rename_i afterHoles h1
    have a := runStage_merges _ _ _ _ _ _ _ h1
    have b := runStage_merges _ _ _ _ _ _ _ h
    simp only [List.nil_append] at a b
    exact a.trans b



/-! ## Registers are neither dropped nor added; original sets are not split -/

theorem mergeStep_registers {l l' : List RegisterSet} (h : MergeStep l l') (r : Nat) :
    (∃ g ∈ l', r ∈ g) ↔ (∃ g ∈ l, r ∈ g) := by
  cases h with
  | absorbLater l₁ x l₂ y l₃ =>
    simp only [List.mem_append, List.mem_cons]
    constructor
    · rintro ⟨g, hg | rfl | hg | hg, hr⟩
      · exact ⟨g, Or.inl hg, hr⟩
      · rcases (mem_insertRange _ _ _).1 hr with hr | hr
        · exact ⟨y, Or.inr (Or.inr (Or.inr (Or.inl rfl))), hr⟩
        · exact ⟨x, Or.inr (Or.inl rfl), hr⟩
      · exact ⟨g, Or.inr (Or.inr (Or.inl hg)), hr⟩
      · exact ⟨g, Or.inr (Or.inr (Or.inr (Or.inr hg))), hr⟩
    · rintro ⟨g, hg | rfl | hg | rfl | hg, hr⟩
      · exact ⟨g, Or.inl hg, hr⟩
      · exact ⟨_, Or.inr (Or.inl rfl), (mem_insertRange _ _ _).2 (Or.inr hr)⟩
      · exact ⟨g, Or.inr (Or.inr (Or.inl hg)), hr⟩
      · exact ⟨_, Or.inr (Or.inl rfl), (mem_insertRange _ _ _).2 (Or.inl hr)⟩
      · exact ⟨g, Or.inr (Or.inr (Or.inr hg)), hr⟩
  | absorbEarlier l₁ y l₂ x l₃ =>
    simp only [List.mem_append, List.mem_cons]
    constructor
    · rintro ⟨g, hg | hg | rfl | hg, hr⟩
      · exact ⟨g, Or.inl hg, hr⟩
      · exact ⟨g, Or.inr (Or.inr (Or.inl hg)), hr⟩
      · rcases (mem_insertRange _ _ _).1 hr with hr | hr
        · exact ⟨y, Or.inr (Or.inl rfl), hr⟩
        · exact ⟨x, Or.inr (Or.inr (Or.inr (Or.inl rfl))), hr⟩
      · exact ⟨g, Or.inr (Or.inr (Or.inr (Or.inr hg))), hr⟩
    · rintro ⟨g, hg | rfl | hg | rfl | hg, hr⟩
      · exact ⟨g, Or.inl hg, hr⟩
      · exact ⟨_, Or.inr (Or.inr (Or.inl rfl)), (mem_insertRange _ _ _).2 (Or.inl hr)⟩
      · exact ⟨g, Or.inr (Or.inl hg), hr⟩
      · exact ⟨_, Or.inr (Or.inr (Or.inl rfl)), (mem_insertRange _ _ _).2 (Or.inr hr)⟩
      · exact ⟨g, Or.inr (Or.inr (Or.inr hg)), hr⟩

theorem merges_registers {l l' : List RegisterSet} (h : Merges l l') (r : Nat) :
    (∃ g ∈ l', r ∈ g) ↔ (∃ g ∈ l, r ∈ g) := by
  induction h with
  | refl => exact Iff.rfl
  | tail _ hstep ih => exact (mergeStep_registers hstep r).trans ih

theorem forall₂_split {α β : Type} {R : α → β → Prop} (bs : List α) (l₁ l₂ : List β)
    (h : List.Forall₂ R bs (l₁ ++ l₂)) :
    ∃ b₁ b₂, bs = b₁ ++ b₂ ∧ List.Forall₂ R b₁ l₁ ∧ List.Forall₂ R b₂ l₂ :=
  ⟨bs.take l₁.length, bs.drop l₁.length, (List.take_append_drop _ _).symm,
    List.forall₂_take_append bs l₁ l₂ h, List.forall₂_drop_append bs l₁ l₂ h⟩

theorem forall₂_split_cons {α β : Type} {R : α → β → Prop} (bs : List α) (l₁ : List β) (x : β)
    (l₂ : List β) (h : List.Forall₂ R bs (l₁ ++ x :: l₂)) :
    ∃ b₁ b b₂, bs = b₁ ++ b :: b₂ ∧ List.Forall₂ R b₁ l₁ ∧ R b x ∧ List.Forall₂ R b₂ l₂ := by
  obtain ⟨b₁, b₂, rfl, h1, h2⟩ := forall₂_split bs l₁ (x :: l₂) h
  obtain ⟨b, b₂', hb, h3, rfl⟩ := List.forall₂_cons_right_iff.1 h2
  exact ⟨b₁, b, b₂', rfl, h1, hb, h3⟩

theorem blockOf_union {registerSets : List RegisterSet} {bx bY : List Nat} {x y : RegisterSet}
    (hx : BlockOf registerSets bx x) (hy : BlockOf registerSets bY y) :
    BlockOf registerSets (bx ++ bY) (insertRange y x) := by
  obtain ⟨hx1, hx2, _⟩ := hx
  obtain ⟨hy1, hy2, _⟩ := hy
  refine ⟨by simp [hx1], ?_, ?_⟩
  · intro r
    rw [mem_insertRange, hx2, hy2]
    simp only [List.mem_append]
    constructor
    · rintro (⟨j, hj, hr⟩ | ⟨j, hj, hr⟩)
      · exact ⟨j, Or.inr hj, hr⟩
      · exact ⟨j, Or.inl hj, hr⟩
    · rintro ⟨j, hj | hj, hr⟩
      · exact Or.inr ⟨j, hj, hr⟩
      · exact Or.inl ⟨j, hj, hr⟩
  · intro j hj
    exfalso
    have h1 : 0 < bx.length := List.length_pos.2 hx1
    have h2 : 0 < bY.length := List.length_pos.2 hy1
    have h3 := congrArg List.length hj
    simp only [List.length_append, List.length_singleton] at h3
    omega

theorem mergeStep_partitioned {registerSets l l' : List RegisterSet} (h : MergeStep l l')
    (hp : PartitionedInto registerSets l) : PartitionedInto registerSets l' := by
  obtain ⟨blocks, hperm, hall⟩ := hp
  cases h with
  | absorbLater l₁ x l₂ y l₃ =>
    obtain ⟨b₁, bx, brest, rfl, h1, hx, hrest⟩ := forall₂_split_cons blocks _ _ _ hall
    obtain ⟨b₂, bY, b₃, rfl, h2, hy, h3⟩ := forall₂_split_cons brest _ _ _ hrest
    refine ⟨b₁ ++ (bx ++ bY) :: (b₂ ++ b₃), ?_, ?_⟩
    · refine List.Perm.trans ?_ hperm
      rw [List.perm_iff_count]
      intro a
      simp only [List.flatten_append, List.flatten_cons, List.count_append]
      omega
    · exact List.rel_append h1 (List.Forall₂.cons (blockOf_union hx hy) (List.rel_append h2 h3))
  | absorbEarlier l₁ y l₂ x l₃ =>
    obtain ⟨b₁, bY, brest, rfl, h1, hy, hrest⟩ := forall₂_split_cons blocks _ _ _ hall
    obtain ⟨b₂, bx, b₃, rfl, h2, hx, h3⟩ := forall₂_split_cons brest _ _ _ hrest
    refine ⟨b₁ ++ (b₂ ++ (bx ++ bY) :: b₃), ?_, ?_⟩
    · refine List.Perm.trans ?_ hperm
      rw [List.perm_iff_count]
      intro a
      simp only [List.flatten_append, List.flatten_cons, List.count_append]
      omega
    · exact List.rel_append h1 (List.rel_append h2 (List.Forall₂.cons (blockOf_union hx hy) h3))

theorem getD_append_cons_length (pre : List RegisterSet) (x : RegisterSet)
    (xs : List RegisterSet) : (pre ++ x :: xs).getD pre.length [] = x := by
  rw [List.getD_append_right _ _ _ _ (Nat.le_refl _)]
  simp

theorem blockOf_singletons (pre : List RegisterSet) :
    ∀ l : List RegisterSet,
      List.Forall₂ (BlockOf (pre ++ l)) ((List.range' pre.length l.length).map fun j => [j]) l
  | [] => by simp
  | x :: xs => by
    have ih := blockOf_singletons (pre ++ [x]) xs
    simp only [List.append_assoc, List.singleton_append, List.length_append,
      List.length_singleton] at ih
    simp only [List.length_cons, List.range'_succ, List.map_cons]
    refine List.Forall₂.cons ⟨by simp, ?_, ?_⟩ ih
    · intro r
      simp only [List.mem_singleton, exists_eq_left, getD_append_cons_length]
    · intro j hj
      simp only [List.cons.injEq, and_true] at hj
      subst hj
      rw [getD_append_cons_length]

theorem partitionedInto_refl (registerSets : List RegisterSet) :
    PartitionedInto registerSets registerSets := by
  refine ⟨(List.range registerSets.length).map fun j => [j], ?_, ?_⟩
  · have : ∀ l : List Nat, (l.map fun j => [j]).flatten = l := by
      intro l
      induction l with
      | nil => rfl
      | cons a l ih => simp [ih]
    rw [this]
  · have := blockOf_singletons [] registerSets
    simpa [List.range_eq_range'] using this

theorem merges_partitioned {registerSets out : List RegisterSet} (h : Merges registerSets out) :
    PartitionedInto registerSets out := by
  induction h with
  | refl => exact partitionedInto_refl _
  | tail _ hstep ih => exact mergeStep_partitioned hstep ih

theorem partitionedInto_contained {registerSets out : List RegisterSet}
    (h : PartitionedInto registerSets out) :
    ∀ g ∈ registerSets, ∃ o ∈ out, ∀ r ∈ g, r ∈ o := by
  obtain ⟨blocks, hperm, hall⟩ := h
  intro g hg
  obtain ⟨j, hj, rfl⟩ := List.getElem_of_mem hg
  have hmem : j ∈ blocks.flatten := hperm.symm.subset (List.mem_range.2 hj)
  obtain ⟨block, hblock, hjb⟩ := List.mem_flatten.1 hmem
  obtain ⟨k, hk, rfl⟩ := List.getElem_of_mem hblock
  have hk' : k < out.length := hall.length_eq ▸ hk
  have hb : BlockOf registerSets blocks[k] out[k] := by
    have := List.forall₂_iff_get.1 hall
    exact this.2 k hk hk'
  refine ⟨out[k], List.getElem_mem _, ?_⟩
  intro r hr
  refine (hb.2.1 r).2 ⟨j, hjb, ?_⟩
  simpa [List.getD_eq_getElem?_getD, List.getElem?_eq_getElem hj] using hr



/-! ## Well-formed register sets, spans -/

theorem startOf_mem {g : RegisterSet} (h : g ≠ []) : startOf g ∈ g := by
  cases g with
  | nil => exact absurd rfl h
  | cons x xs => simp [startOf]

theorem lastOf_mem {g : RegisterSet} (h : g ≠ []) : lastOf g ∈ g := by
  cases g with
  | nil => exact absurd rfl h
  | cons x xs =>
    have : lastOf (x :: xs) = (x :: xs).getLast (by simp) := by
      simp [lastOf, List.getLast?_eq_getLast]
    rw [this]
    exact List.getLast_mem _

theorem startOf_le {g : RegisterSet} (hs : g.Pairwise (· < ·)) {a : Nat} (ha : a ∈ g) :
    startOf g ≤ a := by
  cases g with
  | nil => simp at ha
  | cons x xs =>
    simp only [startOf, List.headD_cons]
    rcases List.mem_cons.1 ha with rfl | h
    · exact Nat.le_refl _
    · exact Nat.le_of_lt ((List.pairwise_cons.1 hs).1 a h)

theorem le_lastOf : ∀ {g : RegisterSet}, g.Pairwise (· < ·) → ∀ {a : Nat}, a ∈ g → a ≤ lastOf g
  | [], _, a, ha => by simp at ha
  | [x], _, a, ha => by
    simp only [List.mem_singleton] at ha
    subst ha
    simp [lastOf]
  | x :: y :: ys, hs, a, ha => by
    have hl : lastOf (x :: y :: ys) = lastOf (y :: ys) := by
      simp [lastOf, List.getLast?_cons_cons]
    rw [hl]
    have hs' := (List.pairwise_cons.1 hs)
    rcases List.mem_cons.1 ha with rfl | h
    · have h1 : a < y := hs'.1 y (by simp)
      have h2 : y ≤ lastOf (y :: ys) := le_lastOf hs'.2 (by simp)
      omega
    · exact le_lastOf hs'.2 h

theorem pairwise_insertReg (r : Nat) :
    ∀ l : RegisterSet, l.Pairwise (· < ·) → (insertReg r l).Pairwise (· < ·)
  | [], _ => by simp [insertReg]
  | x :: xs, h => by
    unfold insertReg
    have h' := List.pairwise_cons.1 h
    split_ifs with h1 h2
    · refine List.pairwise_cons.2 ⟨?_, h⟩
      intro a ha
      rcases List.mem_cons.1 ha with rfl | ha
      · exact h1
      · exact Nat.lt_trans h1 (h'.1 a ha)
    · exact h
    · refine List.pairwise_cons.2 ⟨?_, pairwise_insertReg r xs h'.2⟩
      intro a ha
      rcases (mem_insertReg _ _ _).1 ha with rfl | ha
      · omega
      · exact h'.1 a ha

theorem pairwise_insertRange :
    ∀ (src dst : RegisterSet), dst.Pairwise (· < ·) → (insertRange src dst).Pairwise (· < ·)
  | [], _, h => h
  | x :: xs, dst, h => by
    have := pairwise_insertRange xs (insertReg x dst) (pairwise_insertReg x dst h)
    simpa [insertRange] using this

theorem insertReg_of_mem (r : Nat) :
    ∀ l : RegisterSet, l.Pairwise (· < ·) → r ∈ l → insertReg r l = l
  | [], _, h => by simp at h
  | x :: xs, hs, h => by
    unfold insertReg
    have h' := List.pairwise_cons.1 hs
    rcases List.mem_cons.1 h with rfl | hm
    · simp
    · have : x < r := h'.1 r hm
      have h1 : ¬ r < x := by omega
      have h2 : ¬ r = x := by omega
      simp only [h1, h2, if_false]
      rw [insertReg_of_mem r xs h'.2 hm]

theorem insertRange_of_subset :
    ∀ (src dst : RegisterSet), dst.Pairwise (· < ·) → (∀ a ∈ src, a ∈ dst) →
      insertRange src dst = dst
  | [], _, _, _ => rfl
  | x :: xs, dst, hs, h => by
    have hx : insertReg x dst = dst := insertReg_of_mem x dst hs (h x (by simp))
    have := insertRange_of_subset xs dst hs (fun a ha => h a (by simp [ha]))
    simpa [insertRange, hx] using this

theorem insertRange_self (g : RegisterSet) (hs : g.Pairwise (· < ·)) : insertRange g g = g :=
  insertRange_of_subset g g hs (fun _ h => h)

theorem isRegisterSet_insertRange {x y : RegisterSet} (hx : IsRegisterSet x)
    (hy : IsRegisterSet y) : IsRegisterSet (insertRange y x) := by
  obtain ⟨hx1, hx2, hx3⟩ := hx
  obtain ⟨_, _, hy3⟩ := hy
  refine ⟨?_, pairwise_insertRange y x hx2, ?_⟩
  · intro h
    have : startOf x ∈ insertRange y x :=
      (mem_insertRange _ _ _).2 (Or.inr (startOf_mem hx1))
    rw [h] at this
    simp at this
  · intro a ha
    rcases (mem_insertRange _ _ _).1 ha with h | h
    · exact hy3 a h
    · exact hx3 a h

theorem isRegisterSet_start_le_last {g : RegisterSet} (h : IsRegisterSet g) :
    startOf g ≤ lastOf g := startOf_le h.2.1 (lastOf_mem h.1)

theorem isRegisterSet_last_lt {g : RegisterSet} (h : IsRegisterSet g) : lastOf g < u32 :=
  h.2.2 _ (lastOf_mem h.1)

theorem startOf_insertRange {x y : RegisterSet} (hx : IsRegisterSet x) (hy : IsRegisterSet y) :
    startOf (insertRange y x) = min (startOf x) (startOf y) := by
  have hm := isRegisterSet_insertRange hx hy
  have h1 : startOf (insertRange y x) ≤ startOf x :=
    startOf_le hm.2.1 ((mem_insertRange _ _ _).2 (Or.inr (startOf_mem hx.1)))
  have h2 : startOf (insertRange y x) ≤ startOf y :=
    startOf_le hm.2.1 ((mem_insertRange _ _ _).2 (Or.inl (startOf_mem hy.1)))
  rcases (mem_insertRange _ _ _).1 (startOf_mem hm.1) with h | h
  · have := startOf_le hy.2.1 h
    omega
  · have := startOf_le hx.2.1 h
    omega

theorem lastOf_insertRange {x y : RegisterSet} (hx : IsRegisterSet x) (hy : IsRegisterSet y) :
    lastOf (insertRange y x) = max (lastOf x) (lastOf y) := by
  have hm := isRegisterSet_insertRange hx hy
  have h1 : lastOf x ≤ lastOf (insertRange y x) :=
    le_lastOf hm.2.1 ((mem_insertRange _ _ _).2 (Or.inr (lastOf_mem hx.1)))
  have h2 : lastOf y ≤ lastOf (insertRange y x) :=
    le_lastOf hm.2.1 ((mem_insertRange _ _ _).2 (Or.inl (lastOf_mem hy.1)))
  rcases (mem_insertRange _ _ _).1 (lastOf_mem hm.1) with h | h
  · have := le_lastOf hy.2.1 h
    omega
  · have := le_lastOf hx.2.1 h
    omega

/-! ## The scan of one other set -/

/-- In stage `HoleEliminate` only a set whose span overlaps the current one is scanned
further; whatever the stage, a set that the source finds overlapping does overlap. -/
theorem scanOther_holeEliminate_overlap {maxHole maxRegs : Nat} {g h : RegisterSet}
    (hne : scanOther EStage.HoleEliminate maxHole maxRegs g h ≠ ScanResult.skip) :
    SpansOverlap g h := by
  unfold scanOther at hne
  simp only [] at hne
  by_cases ho : (decide (startOf h < endOf g) && decide (startOf g < endOf h)) = true
  · simp only [Bool.and_eq_true, decide_eq_true_eq] at ho
    unfold endOf u32 at ho
    unfold SpansOverlap
    omega
  · exfalso
    apply hne
    simp only [Bool.not_eq_true] at ho
    simp [ho]

/-- Two sets farther than `maxHole` apart are skipped by the scan, in both stages. -/
theorem scanOther_far (stage : EStage) (maxHole maxRegs : Nat) {g h : RegisterSet}
    (hg : IsRegisterSet g) (hh : IsRegisterSet h) (hfar : maxHole < Gap g h) :
    scanOther stage maxHole maxRegs g h = ScanResult.skip := by
  have g1 := isRegisterSet_start_le_last hg
  have g2 := isRegisterSet_last_lt hg
  have h1 := isRegisterSet_start_le_last hh
  have h2 := isRegisterSet_last_lt hh
  unfold Gap at hfar
  unfold u32 at g2 h2
  have hov : (decide (startOf h < endOf g) && decide (startOf g < endOf h)) = false := by
    rw [Bool.and_eq_false_iff]
    simp only [decide_eq_false_iff_not]
    unfold endOf u32
    omega
  have hdist : maxHole < subU32 (max (startOf g) (startOf h)) (min (endOf g) (endOf h)) := by
    unfold subU32 endOf u32
    omega
  unfold scanOther
  simp only [hov, Bool.false_or, Bool.not_false, Bool.true_and]
  split_ifs <;> first | rfl | (exfalso; simp only [decide_eq_true_eq, gt_iff_lt] at *; omega)



/-! ## The candidates of one pass -/

theorem mem_insertCandidate (d c : Candidate) :
    ∀ l : List Candidate, d ∈ insertCandidate c l ↔ d = c ∨ d ∈ l
  | [] => by simp [insertCandidate]
  | e :: es => by
    unfold insertCandidate
    split_ifs
    · simp
    · simp only [List.mem_cons, mem_insertCandidate d c es]
      tauto

/-- Every entry of `setsForMerge` stands for another set of the list that the scan accepted,
with the sorting factor and the size the scan computed for it. -/
theorem collectCandidates_spec (stage : EStage) (maxHole maxRegs : Nat) (cur : RegisterSet) :
    ∀ (others : List RegisterSet) (k : Nat) (acc cs : List Candidate),
      collectCandidates stage maxHole maxRegs cur others k acc = Except.ok cs →
        ∀ c ∈ cs, c ∈ acc ∨ (k ≤ c.2.2 ∧ c.2.2 < k + others.length ∧
          scanOther stage maxHole maxRegs cur (others.getD (c.2.2 - k) []) =
            ScanResult.candidate c.1 c.2.1)
  | [], k, acc, cs, h, c, hc => by
    simp only [collectCandidates, Except.ok.injEq] at h
    subst h
    exact Or.inl hc
  | other :: rest, k, acc, cs, h, c, hc => by
    unfold collectCandidates at h
    split at h
    · rcases collectCandidates_spec stage maxHole maxRegs cur rest (k + 1) acc cs h c hc with
        h1 | ⟨h1, h2, h3⟩
      · exact Or.inl h1
      · refine Or.inr ⟨by omega, by simp only [List.length_cons]; omega, ?_⟩
        have : c.2.2 - k = (c.2.2 - (k + 1)) + 1 := by omega
        rw [this]
        simpa using h3
    · simp at h
    · rename_i sf sz hscan
      rcases collectCandidates_spec stage maxHole maxRegs cur rest (k + 1) _ cs h c hc with
        h1 | ⟨h1, h2, h3⟩
      · rcases (mem_insertCandidate _ _ _).1 h1 with rfl | h1
        · refine Or.inr ⟨Nat.le_refl _, by simp, ?_⟩
          simpa using hscan
        · exact Or.inl h1
      · refine Or.inr ⟨by omega, by simp only [List.length_cons]; omega, ?_⟩
        have : c.2.2 - k = (c.2.2 - (k + 1)) + 1 := by omega
        rw [this]
        simpa using h3

/-- The scan throws nothing but "max reg count exceeded". -/
theorem collectCandidates_error (stage : EStage) (maxHole maxRegs : Nat) (cur : RegisterSet) :
    ∀ (others : List RegisterSet) (k : Nat) (acc : List Candidate) (e : MergeError),
      collectCandidates stage maxHole maxRegs cur others k acc = Except.error e →
        e = MergeError.maxRegCountExceeded
  | [], k, acc, e, h => by simp [collectCandidates] at h
  | other :: rest, k, acc, e, h => by
    unfold collectCandidates at h
    split at h
    · exact collectCandidates_error stage maxHole maxRegs cur rest _ _ e h
    · simp only [Except.error.injEq] at h
      exact h.symm
    · exact collectCandidates_error stage maxHole maxRegs cur rest _ _ e h

/-- When the scan skips every other set, `setsForMerge` stays as it was. -/
theorem collectCandidates_skip (stage : EStage) (maxHole maxRegs : Nat) (cur : RegisterSet) :
    ∀ (others : List RegisterSet) (k : Nat) (acc : List Candidate),
      (∀ o ∈ others, scanOther stage maxHole maxRegs cur o = ScanResult.skip) →
        collectCandidates stage maxHole maxRegs cur others k acc = Except.ok acc
  | [], k, acc, _ => rfl
  | other :: rest, k, acc, h => by
    unfold collectCandidates
    rw [h other (by simp)]
    exact collectCandidates_skip stage maxHole maxRegs cur rest _ acc
      (fun o ho => h o (by simp [ho]))

theorem findHoleDecrease_none (others : List RegisterSet) (cur : RegisterSet) (holeSize : Nat) :
    ∀ cs : List Candidate,
      (∀ c ∈ cs, ¬ GetMaxHoleSize (insertRange (others.getD c.2.2 []) cur) < holeSize) →
        findHoleDecrease others cur holeSize cs = none
  | [], _ => rfl
  | c :: cs, h => by
    unfold findHoleDecrease
    simp only [h c (by simp), if_false]
    exact findHoleDecrease_none others cur holeSize cs (fun d hd => h d (by simp [hd]))

theorem eraseOther_length (pre post : List RegisterSet) (k : Nat)
    (hk : k < pre.length + post.length) :
    (eraseOther pre post k).1.length + (eraseOther pre post k).2.length + 1 =
      pre.length + post.length := by
  rcases eraseOther_cases pre post k with ⟨l₁, y, l₂, h1, h2, _, _⟩ | ⟨l₁, y, l₂, h1, h2, _, _⟩ |
    ⟨_, _, h3⟩
  · rw [h2, h1]; simp; omega
  · rw [h2, h1]; simp; omega
  · omega

theorem eraseOther_length_le (pre post : List RegisterSet) (k : Nat) :
    (eraseOther pre post k).1.length ≤ pre.length ∧
      (eraseOther pre post k).2.length ≤ post.length := by
  rcases eraseOther_cases pre post k with ⟨l₁, y, l₂, h1, h2, _, _⟩ | ⟨l₁, y, l₂, h1, h2, _, _⟩ |
    ⟨h2, _, _⟩
  · rw [h2, h1]; simp
  · rw [h2, h1]; simp
  · rw [h2]; simp

/-! ## Induction over the passes for one set -/

/-- Induction principle for the loop `while (!done)`. A property `P` of the list cut at the
iterator and of the tracked hole size that every merge of the loop preserves holds when the
loop ends; the loop ends within `fuel` passes when `fuel` exceeds the number of other sets;
it ends either with one of the two exceptions, or in stage `HoleEliminate` with the tracked
hole size within `maxHole`, or in stage `Merge` with no candidate left. -/
theorem processSet_induct (stage : EStage) (maxHole maxRegs : Nat)
    (P : List RegisterSet → RegisterSet → List RegisterSet → Nat → Prop)
    (hstep : ∀ pre cur post hs k sf sz, P pre cur post hs → k < pre.length + post.length →
      scanOther stage maxHole maxRegs cur ((pre ++ post).getD k []) =
        ScanResult.candidate sf sz →
      (stage = EStage.HoleEliminate →
        maxHole < hs ∧ GetMaxHoleSize (insertRange ((pre ++ post).getD k []) cur) < hs) →
      P (eraseOther pre post k).1 (insertRange ((pre ++ post).getD k []) cur)
        (eraseOther pre post k).2
        (if stage = EStage.HoleEliminate then
          GetMaxHoleSize (insertRange ((pre ++ post).getD k []) cur) else hs)) :
    ∀ (fuel : Nat) (pre : List RegisterSet) (cur : RegisterSet) (post : List RegisterSet)
      (hs : Nat), pre.length + post.length < fuel → P pre cur post hs →
      (∃ e, processSet stage maxHole maxRegs fuel pre cur post hs = Except.error e ∧
        e ≠ MergeError.fuelExhausted) ∨
      (∃ r hs', processSet stage maxHole maxRegs fuel pre cur post hs = Except.ok r ∧
        P r.1 r.2.1 r.2.2 hs' ∧ (stage = EStage.HoleEliminate → hs' ≤ maxHole) ∧
        (stage = EStage.Merge →
          collectCandidates stage maxHole maxRegs r.2.1 (r.1 ++ r.2.2) 0 [] = Except.ok []))
  | 0, _, _, _, _, hf, _ => by omega
  | fuel + 1, pre, cur, post, hs, hf, hP => by
    unfold processSet
    split
    · rename_i e he
      left
      refine ⟨e, rfl, ?_⟩
      rw [collectCandidates_error _ _ _ _ _ _ _ _ he]
      simp
    · rename_i setsForMerge hcs
      have hspec := collectCandidates_spec _ _ _ _ _ _ _ _ hcs
      cases stage with
      | HoleEliminate =>
        simp only
        split_ifs with hgt
        · split
          · rename_i k m nh hfind
            obtain ⟨hm, hnh, hlt, c, hc, hck⟩ := findHoleDecrease_some _ _ _ _ _ _ _ hfind
            rcases hspec c hc with h0 | ⟨_, hk, hscan⟩
            · simp at h0
            simp only [Nat.zero_add, Nat.sub_zero, List.length_append, hck] at hk hscan
            have hP' := hstep pre cur post hs k c.1 c.2.1 hP hk hscan
              (fun _ => ⟨hgt, by rw [← hm, ← hnh]; exact hlt⟩)
            simp only [if_true] at hP'
            rw [← hm, ← hnh] at hP'
            split_ifs with hle
            · right
              exact ⟨_, nh, rfl, hP', fun _ => hle, fun h => by simp at h⟩
            · have hlen := eraseOther_length pre post k hk
              have ih := processSet_induct EStage.HoleEliminate maxHole maxRegs P hstep fuel _ _ _
                _ (by omega) hP'
              simpa using ih
          · left
            exact ⟨_, rfl, by simp⟩
        · right
          exact ⟨_, hs, rfl, hP, fun _ => Nat.le_of_not_lt hgt, fun h => by simp at h⟩
      | Merge =>
        simp only
        split
        · right
          exact ⟨_, hs, rfl, hP, fun h => by simp at h, fun _ => hcs⟩
        · rename_i c cs'
          rcases hspec c (by simp) with h0 | ⟨_, hk, hscan⟩
          · simp at h0
          simp only [Nat.zero_add, Nat.sub_zero, List.length_append] at hk hscan
          have hP' := hstep pre cur post hs c.2.2 c.1 c.2.1 hP hk hscan (fun h => by simp at h)
          simp only [reduceCtorEq, if_false] at hP'
          have hlen := eraseOther_length pre post c.2.2 hk
          have ih := processSet_induct EStage.Merge maxHole maxRegs P hstep fuel _ _ _ _
            (by omega) hP'
          simpa using ih



/-! ## Induction over the sets of one stage -/

/-- Induction principle for the loop over `itRegisterSet`: a property `Q` of the list cut at
the iterator that the processing of each set carries over to the next position holds of the
whole list when the stage ends without exception; the stage ends within `fuel` sets when
`fuel` is at least the number of sets still to visit. -/
theorem runStage_induct (stage : EStage) (maxHole maxRegs : Nat)
    (Q : List RegisterSet → List RegisterSet → Prop)
    (hproc : ∀ pre x post, Q pre (x :: post) →
      (∃ e, processSet stage maxHole maxRegs (pre.length + post.length + 1) pre x post
          (GetMaxHoleSize x) = Except.error e ∧ e ≠ MergeError.fuelExhausted) ∨
      (∃ r, processSet stage maxHole maxRegs (pre.length + post.length + 1) pre x post
          (GetMaxHoleSize x) = Except.ok r ∧ Q (r.1 ++ [r.2.1]) r.2.2 ∧
          r.2.2.length ≤ post.length)) :
    ∀ (fuel : Nat) (pre post : List RegisterSet), post.length ≤ fuel → Q pre post →
      (∃ e, runStage stage maxHole maxRegs fuel pre post = Except.error e ∧
        e ≠ MergeError.fuelExhausted) ∨
      (∃ out, runStage stage maxHole maxRegs fuel pre post = Except.ok out ∧ Q out [])
  | fuel, pre, [], _, hQ => by
    right
    refine ⟨pre, ?_, hQ⟩
    cases fuel <;> rfl
  | 0, pre, x :: post, hf, _ => by simp at hf
  | fuel + 1, pre, x :: post, hf, hQ => by
    unfold runStage
    rcases hproc pre x post hQ with ⟨e, he, hne⟩ | ⟨r, hr, hQ', hlen⟩
    · left
      rw [he]
      exact ⟨e, rfl, hne⟩
    · rw [hr]
      simp only [List.length_cons] at hf
      exact runStage_induct stage maxHole maxRegs Q hproc fuel _ _ (by omega) hQ'

/-- The processing of one set never lengthens the part of the list behind the iterator. -/
theorem processSet_total (stage : EStage) (maxHole maxRegs : Nat) (pre : List RegisterSet)
    (x : RegisterSet) (post : List RegisterSet) (hs : Nat) :
    (∃ e, processSet stage maxHole maxRegs (pre.length + post.length + 1) pre x post hs =
        Except.error e ∧ e ≠ MergeError.fuelExhausted) ∨
    (∃ r, processSet stage maxHole maxRegs (pre.length + post.length + 1) pre x post hs =
        Except.ok r ∧ r.2.2.length ≤ post.length) := by
  have h := processSet_induct stage maxHole maxRegs
    (fun _ _ post' _ => post'.length ≤ post.length)
    (fun pre' cur' post' hs' k sf sz hP _ _ _ =>
      Nat.le_trans (eraseOther_length_le pre' post' k).2 hP)
    (pre.length + post.length + 1) pre x post hs (by omega) (Nat.le_refl _)
  rcases h with h | ⟨r, _, hr, hP, _, _⟩
  · exact Or.inl h
  · exact Or.inr ⟨r, hr, hP⟩

/-- A stage started with enough fuel for the sets to visit does not run out of it. -/
theorem runStage_ne_fuelExhausted (stage : EStage) (maxHole maxRegs : Nat) (fuel : Nat)
    (pre post : List RegisterSet) (hf : post.length ≤ fuel) :
    runStage stage maxHole maxRegs fuel pre post ≠ Except.error MergeError.fuelExhausted := by
  have h := runStage_induct stage maxHole maxRegs (fun _ _ => True)
    (fun pre x post _ => by
      rcases processSet_total stage maxHole maxRegs pre x post (GetMaxHoleSize x) with h | h
      · exact Or.inl h
      · obtain ⟨r, hr, hlen⟩ := h
        exact Or.inr ⟨r, hr, trivial, hlen⟩)
    fuel pre post hf trivial
  rcases h with ⟨e, he, hne⟩ | ⟨out, ho, _⟩
  · rw [he]
    intro h
    exact hne (by simpa using h)
  · rw [ho]
    simp

/-- The iteration bound of the embedding is never reached: `MergeSets` either returns a list
or throws one of the two exceptions of the source. -/
theorem MergeSets_ne_fuelExhausted (registerSets : List RegisterSet) (maxHole maxRegs : Nat) :
    MergeSets registerSets maxHole maxRegs ≠ Except.error MergeError.fuelExhausted := by
  unfold MergeSets
  split
  · rename_i e he
    intro h
    simp only [Except.error.injEq] at h
    subst h
    exact runStage_ne_fuelExhausted _ _ _ _ _ _ (Nat.le_refl _) he
  · exact runStage_ne_fuelExhausted _ _ _ _ _ _ (Nat.le_refl _)

/-! ## Sets that are far apart are left alone -/

theorem Gap_comm (g h : RegisterSet) : Gap g h = Gap h g := by
  unfold Gap
  rw [Nat.max_comm, Nat.min_comm]

/-- A pass in which the scan skips every other set, for a set whose hole is within the cap
in stage `HoleEliminate`, ends the loop with the list unchanged. -/
theorem processSet_noop (stage : EStage) (maxHole maxRegs fuel : Nat) (pre : List RegisterSet)
    (cur : RegisterSet) (post : List RegisterSet) (hs : Nat)
    (hskip : ∀ o ∈ pre ++ post, scanOther stage maxHole maxRegs cur o = ScanResult.skip)
    (hhole : stage = EStage.HoleEliminate → hs ≤ maxHole) :
    processSet stage maxHole maxRegs (fuel + 1) pre cur post hs = Except.ok (pre, cur, post) := by
  unfold processSet
  rw [collectCandidates_skip stage maxHole maxRegs cur (pre ++ post) 0 [] hskip]
  cases stage with
  | HoleEliminate =>
    have : ¬ hs > maxHole := Nat.not_lt.2 (hhole rfl)
    simp [this]
  | Merge => rfl

theorem runStage_noop (stage : EStage) (maxHole maxRegs : Nat) :
    ∀ (fuel : Nat) (pre post : List RegisterSet), post.length ≤ fuel →
      (∀ g ∈ pre ++ post, IsRegisterSet g) →
      (pre ++ post).Pairwise (fun g h => ¬ SpansOverlap g h ∧ maxHole < Gap g h) →
      (stage = EStage.HoleEliminate → ∀ g ∈ post, GetMaxHoleSize g ≤ maxHole) →
      runStage stage maxHole maxRegs fuel pre post = Except.ok (pre ++ post)
  | fuel, pre, [], _, _, _, _ => by cases fuel <;> simp [runStage]
  | 0, pre, x :: post, hf, _, _, _ => by simp at hf
  | fuel + 1, pre, x :: post, hf, hwf, hfar, hhole => by
    unfold runStage
    have hfar' := List.pairwise_append.1 hfar
    have hx := List.pairwise_cons.1 hfar'.2.1
    have hskip : ∀ o ∈ pre ++ post, scanOther stage maxHole maxRegs x o = ScanResult.skip := by
      intro o ho
      have hxw : IsRegisterSet x := hwf x (by simp)
      rcases List.mem_append.1 ho with ho | ho
      · have := hfar'.2.2 o ho x (by simp)
        exact scanOther_far stage maxHole maxRegs hxw (hwf o (by simp [ho]))
          (by rw [Gap_comm]; exact this.2)
      · exact scanOther_far stage maxHole maxRegs hxw (hwf o (by simp [ho])) (hx.1 o ho).2
    rw [processSet_noop stage maxHole maxRegs _ pre x post _ hskip
      (fun h => hhole h x (by simp))]
    simp only
    have ih := runStage_noop stage maxHole maxRegs fuel (pre ++ [x]) post
      (by simpa using hf) (by simpa using hwf) (by simpa using hfar)
      (fun h g hg => hhole h g (by simp [hg]))
    simpa using ih



/-! ## Two sets that are near each other -/

theorem spansOverlap_symm {g h : RegisterSet} (hgh : SpansOverlap g h) : SpansOverlap h g :=
  ⟨hgh.2, hgh.1⟩

theorem CombinedSpan_comm (g h : RegisterSet) : CombinedSpan g h = CombinedSpan h g := by
  unfold CombinedSpan
  rw [Nat.max_comm, Nat.min_comm]

/-- A set whose own span is within `maxRegs` never makes the scan throw. -/
theorem scanOther_ne_throw (stage : EStage) (maxHole maxRegs : Nat) {g : RegisterSet}
    (h : RegisterSet) (hg : IsRegisterSet g) (hend : lastOf g + 1 < u32)
    (hspan : Span g ≤ maxRegs) :
    scanOther stage maxHole maxRegs g h ≠ ScanResult.throwMaxRegs := by
  have g1 := isRegisterSet_start_le_last hg
  unfold Span at hspan
  unfold u32 at hend
  have hsize : subU32 (endOf g) (startOf g) ≤ maxRegs := by
    unfold subU32 endOf u32
    omega
  unfold scanOther
  simp only
  split_ifs <;> first | (exfalso; omega) | simp

/-- In stage `Merge` the scan accepts a set that overlaps the current one or lies within
`maxHole` of it, when the span of the union is within `maxRegs` and no exclusive end wraps. -/
theorem scanOther_merge_candidate (maxHole maxRegs : Nat) {g h : RegisterSet}
    (hg : IsRegisterSet g) (hh : IsRegisterSet h) (hgend : lastOf g + 1 < u32)
    (hhend : lastOf h + 1 < u32) (hnear : SpansOverlap g h ∨ Gap g h ≤ maxHole)
    (hspan : CombinedSpan g h ≤ maxRegs) :
    ∃ sf sz, scanOther EStage.Merge maxHole maxRegs g h = ScanResult.candidate sf sz := by
  have g1 := isRegisterSet_start_le_last hg
  have h1 := isRegisterSet_start_le_last hh
  unfold SpansOverlap Gap at hnear
  unfold CombinedSpan at hspan
  unfold u32 at hgend hhend
  have eg : endOf g = lastOf g + 1 := by unfold endOf u32; omega
  have eh : endOf h = lastOf h + 1 := by unfold endOf u32; omega
  unfold scanOther
  simp only [eg, eh, beq_self_eq_true, Bool.or_true, if_true]
  split_ifs with c1 c2 c3
  · exfalso
    simp only [Bool.and_eq_true, Bool.not_eq_true', Bool.and_eq_false_iff,
      decide_eq_false_iff_not, decide_eq_true_eq] at c1
    unfold subU32 u32 at c1
    omega
  · exfalso
    unfold subU32 u32 at c2
    omega
  · exfalso
    unfold subU32 u32 at c3
    omega
  · exact ⟨_, _, rfl⟩

theorem collectCandidates_ne_throw (stage : EStage) (maxHole maxRegs : Nat) (cur : RegisterSet) :
    ∀ (others : List RegisterSet) (k : Nat) (acc : List Candidate),
      (∀ o ∈ others, scanOther stage maxHole maxRegs cur o ≠ ScanResult.throwMaxRegs) →
        ∃ cs, collectCandidates stage maxHole maxRegs cur others k acc = Except.ok cs
  | [], k, acc, _ => ⟨acc, rfl⟩
  | other :: rest, k, acc, h => by
    unfold collectCandidates
    have ho := h other (by simp)
    split
    · exact collectCandidates_ne_throw stage maxHole maxRegs cur rest _ _
        (fun o hm => h o (by simp [hm]))
    · rename_i heq
      exact absurd heq ho
    · exact collectCandidates_ne_throw stage maxHole maxRegs cur rest _ _
        (fun o hm => h o (by simp [hm]))

/-- In stage `HoleEliminate` a set whose hole is within the cap is left as it is, provided the
scan does not throw. -/
theorem processSet_holeEliminate_done (maxHole maxRegs fuel : Nat) (pre : List RegisterSet)
    (cur : RegisterSet) (post : List RegisterSet) (hs : Nat) (hhole : hs ≤ maxHole)
    (hscan : ∀ o ∈ pre ++ post,
      scanOther EStage.HoleEliminate maxHole maxRegs cur o ≠ ScanResult.throwMaxRegs) :
    processSet EStage.HoleEliminate maxHole maxRegs (fuel + 1) pre cur post hs =
      Except.ok (pre, cur, post) := by
  obtain ⟨cs, hcs⟩ := collectCandidates_ne_throw EStage.HoleEliminate maxHole maxRegs cur
    (pre ++ post) 0 [] hscan
  unfold processSet
  rw [hcs]
  have : ¬ hs > maxHole := Nat.not_lt.2 hhole
  simp [this]

/-- `MergeSets` on two sets that are near each other, both within the hole cap, with the span
of their union within `maxRegs` and no exclusive end wrapping: the first absorbs the
second. -/
theorem MergeSets_pair (A B : RegisterSet) (maxHole maxRegs : Nat)
    (hA : IsRegisterSet A) (hB : IsRegisterSet B)
    (hAend : lastOf A + 1 < u32) (hBend : lastOf B + 1 < u32)
    (hAhole : GetMaxHoleSize A ≤ maxHole) (hBhole : GetMaxHoleSize B ≤ maxHole)
    (hnear : SpansOverlap A B ∨ Gap A B ≤ maxHole) (hspan : CombinedSpan A B ≤ maxRegs) :
    MergeSets [A, B] maxHole maxRegs = Except.ok [insertRange B A] := by
  have a1 := isRegisterSet_start_le_last hA
  have b1 := isRegisterSet_start_le_last hB
  have hAspan : Span A ≤ maxRegs := by
    unfold CombinedSpan at hspan
    unfold Span
    omega
  have hBspan : Span B ≤ maxRegs := by
    unfold CombinedSpan at hspan
    unfold Span
    omega
  have s1 : processSet EStage.HoleEliminate maxHole maxRegs 2 [] A [B] (GetMaxHoleSize A) =
      Except.ok ([], A, [B]) :=
    processSet_holeEliminate_done maxHole maxRegs 1 [] A [B] _ hAhole
      (fun o _ => scanOther_ne_throw _ _ _ o hA hAend hAspan)
  have s2 : processSet EStage.HoleEliminate maxHole maxRegs 2 [A] B [] (GetMaxHoleSize B) =
      Except.ok ([A], B, []) :=
    processSet_holeEliminate_done maxHole maxRegs 1 [A] B [] _ hBhole
      (fun o _ => scanOther_ne_throw _ _ _ o hB hBend hBspan)
  obtain ⟨sf, sz, hc⟩ := scanOther_merge_candidate maxHole maxRegs hA hB hAend hBend hnear hspan
  have s3 : ∀ hs, processSet EStage.Merge maxHole maxRegs 2 [] A [B] hs =
      Except.ok ([], insertRange B A, []) := by
    intro hs
    simp [processSet, collectCandidates, hc, insertCandidate, eraseOther]
  simp [MergeSets, runStage, s1, s2, s3]



/-! ## A set with too large a hole that nothing overlaps -/

theorem getD_mem_of_lt (l : List RegisterSet) (k : Nat) (hk : k < l.length) :
    l.getD k [] ∈ l := by
  obtain ⟨l₁, y, l₂, h1, _, h3, _⟩ := eraseIdx_split ([] : RegisterSet) l k hk
  rw [h3, h1]
  simp

theorem mem_of_mem_eraseOther (pre post : List RegisterSet) (k : Nat) (h : RegisterSet)
    (hm : h ∈ (eraseOther pre post k).1 ++ (eraseOther pre post k).2) : h ∈ pre ++ post := by
  rcases eraseOther_cases pre post k with ⟨l₁, y, l₂, h1, h2, _, _⟩ | ⟨l₁, y, l₂, h1, h2, _, _⟩ |
    ⟨h2, _, _⟩
  · rw [h2] at hm
    rw [h1]
    simp only [List.mem_append, List.mem_cons] at hm ⊢
    tauto
  · rw [h2] at hm
    rw [h1]
    simp only [List.mem_append, List.mem_cons] at hm ⊢
    tauto
  · rw [h2] at hm
    exact hm

theorem mem_eraseOther_post (pre post : List RegisterSet) (k : Nat) (G : RegisterSet)
    (hG : G ∈ post) (hne : (pre ++ post).getD k [] ≠ G) : G ∈ (eraseOther pre post k).2 := by
  rcases eraseOther_cases pre post k with ⟨l₁, y, l₂, h1, h2, _, _⟩ | ⟨l₁, y, l₂, h1, h2, h3, _⟩ |
    ⟨h2, _, _⟩
  · rw [h2]
    exact hG
  · rw [h2]
    rw [h1] at hG
    rw [h3] at hne
    simp only [List.mem_append, List.mem_cons] at hG ⊢
    rcases hG with hG | hG | hG
    · exact Or.inl hG
    · exact absurd hG.symm hne
    · exact Or.inr hG
  · rw [h2]
    exact hG

/-- Two overlapping sets that both lie clear of `G` have a union that lies clear of `G`. -/
theorem not_overlap_insertRange {x y G : RegisterSet} (hx : IsRegisterSet x)
    (hy : IsRegisterSet y) (hG : IsRegisterSet G) (hxy : SpansOverlap x y)
    (hxG : ¬ SpansOverlap x G) (hyG : ¬ SpansOverlap y G) :
    ¬ SpansOverlap (insertRange y x) G := by
  have x1 := isRegisterSet_start_le_last hx
  have y1 := isRegisterSet_start_le_last hy
  have g1 := isRegisterSet_start_le_last hG
  unfold SpansOverlap at *
  rw [startOf_insertRange hx hy, lastOf_insertRange hx hy]
  omega

/-- Stage `HoleEliminate` throws on a set whose hole exceeds the cap when every other set is a
copy of it or lies clear of it. -/
theorem processSet_unmergeable (maxHole maxRegs fuel : Nat) (pre : List RegisterSet)
    (G : RegisterSet) (post : List RegisterSet) (hG : IsRegisterSet G)
    (hhole : maxHole < GetMaxHoleSize G)
    (hclear : ∀ h ∈ pre ++ post, h = G ∨ ¬ SpansOverlap h G) :
    ∃ e, processSet EStage.HoleEliminate maxHole maxRegs (fuel + 1) pre G post
        (GetMaxHoleSize G) = Except.error e ∧ e ≠ MergeError.fuelExhausted := by
  unfold processSet
  split
  · rename_i e he
    refine ⟨e, rfl, ?_⟩
    rw [collectCandidates_error _ _ _ _ _ _ _ _ he]
    simp
  · rename_i cs hcs
    have hspec := collectCandidates_spec _ _ _ _ _ _ _ _ hcs
    have hnone : findHoleDecrease (pre ++ post) G (GetMaxHoleSize G) cs = none := by
      apply findHoleDecrease_none
      intro c hc
      rcases hspec c hc with h0 | ⟨_, hk, hscan⟩
      · simp at h0
      simp only [Nat.zero_add, Nat.sub_zero] at hk hscan
      have hov : SpansOverlap G ((pre ++ post).getD c.2.2 []) :=
        scanOther_holeEliminate_overlap (by rw [hscan]; simp)
      rcases hclear _ (getD_mem_of_lt _ _ hk) with heq | hno
      · rw [heq, insertRange_self G hG.2.1]
        exact Nat.lt_irrefl _
      · exact absurd (spansOverlap_symm hov) hno
    simp only [gt_iff_lt, hhole, if_true, hnone]
    exact ⟨_, rfl, by simp⟩

/-- Stage `HoleEliminate` on a set that lies clear of `G`: the pass throws one of the two
exceptions, or it leaves `G` behind the iterator and every set a copy of `G` or clear of it. -/
theorem processSet_keeps_clear (maxHole maxRegs : Nat) (G : RegisterSet) (hG : IsRegisterSet G)
    (pre : List RegisterSet) (x : RegisterSet) (post : List RegisterSet) (hs : Nat)
    (hwf : ∀ h ∈ pre ++ x :: post, IsRegisterSet h)
    (hclear : ∀ h ∈ pre ++ post, h = G ∨ ¬ SpansOverlap h G)
    (hx : ¬ SpansOverlap x G) (hmem : G ∈ post) :
    (∃ e, processSet EStage.HoleEliminate maxHole maxRegs (pre.length + post.length + 1) pre x
        post hs = Except.error e ∧ e ≠ MergeError.fuelExhausted) ∨
    (∃ r, processSet EStage.HoleEliminate maxHole maxRegs (pre.length + post.length + 1) pre x
        post hs = Except.ok r ∧
      ((∀ h ∈ r.1 ++ r.2.1 :: r.2.2, IsRegisterSet h) ∧
        (∀ h ∈ r.1 ++ r.2.1 :: r.2.2, h = G ∨ ¬ SpansOverlap h G) ∧ G ∈ r.2.2) ∧
      r.2.2.length ≤ post.length) := by
  have h := processSet_induct EStage.HoleEliminate maxHole maxRegs
    (fun pre' cur' post' _ =>
      (∀ h ∈ pre' ++ post', IsRegisterSet h ∧ (h = G ∨ ¬ SpansOverlap h G)) ∧
        IsRegisterSet cur' ∧ ¬ SpansOverlap cur' G ∧ G ∈ post' ∧ post'.length ≤ post.length)
    (by
      intro pre' cur' post' hs' k sf sz hP hk hscan _
      obtain ⟨hall, hcur, hcurG, hGm, hlen⟩ := hP
      have hy := hall _ (getD_mem_of_lt (pre' ++ post') k (by simpa using hk))
      have hov : SpansOverlap cur' ((pre' ++ post').getD k []) :=
        scanOther_holeEliminate_overlap (by rw [hscan]; simp)
      have hyG : ¬ SpansOverlap ((pre' ++ post').getD k []) G := by
        rcases hy.2 with heq | hno
        · rw [heq] at hov
          exact absurd hov hcurG
        · exact hno
      have hne : (pre' ++ post').getD k [] ≠ G := by
        intro heq
        rw [heq] at hyG
        exact hyG ⟨(isRegisterSet_start_le_last hG), (isRegisterSet_start_le_last hG)⟩
      refine ⟨fun h hm => hall h (mem_of_mem_eraseOther _ _ _ _ hm), isRegisterSet_insertRange hcur hy.1,
        not_overlap_insertRange hcur hy.1 hG hov hcurG hyG,
        mem_eraseOther_post _ _ _ _ hGm hne,
        Nat.le_trans (eraseOther_length_le pre' post' k).2 hlen⟩)
    (pre.length + post.length + 1) pre x post hs (by omega)
    ⟨fun h hm => ⟨hwf h (by
        simp only [List.mem_append, List.mem_cons] at hm ⊢
        tauto), hclear h hm⟩,
      hwf x (by simp), hx, hmem, Nat.le_refl _⟩
  rcases h with h | ⟨r, _, hr, ⟨hall, hcur, hcurG, hGm, hlen⟩, _, _⟩
  · exact Or.inl h
  · refine Or.inr ⟨r, hr, ⟨?_, ?_, hGm⟩, hlen⟩
    · intro h hm
      simp only [List.mem_append, List.mem_cons] at hm
      rcases hm with hm | rfl | hm
      · exact (hall h (by simp [hm])).1
      · exact hcur
      · exact (hall h (by simp [hm])).1
    · intro h hm
      simp only [List.mem_append, List.mem_cons] at hm
      rcases hm with hm | rfl | hm
      · exact (hall h (by simp [hm])).2
      · exact Or.inr hcurG
      · exact (hall h (by simp [hm])).2

/-- Stage `HoleEliminate` throws when a set whose hole exceeds the cap is still to be visited
and every set of the list is a copy of it or lies clear of it. -/
theorem runStage_unmergeable (maxHole maxRegs : Nat) (G : RegisterSet) (hG : IsRegisterSet G)
    (hhole : maxHole < GetMaxHoleSize G) (fuel : Nat) (pre post : List RegisterSet)
    (hf : post.length ≤ fuel) (hwf : ∀ h ∈ pre ++ post, IsRegisterSet h)
    (hclear : ∀ h ∈ pre ++ post, h = G ∨ ¬ SpansOverlap h G) (hmem : G ∈ post) :
    ∃ e, runStage EStage.HoleEliminate maxHole maxRegs fuel pre post = Except.error e ∧
      e ≠ MergeError.fuelExhausted := by
  have h := runStage_induct EStage.HoleEliminate maxHole maxRegs
    (fun pre' post' => (∀ h ∈ pre' ++ post', IsRegisterSet h) ∧
      (∀ h ∈ pre' ++ post', h = G ∨ ¬ SpansOverlap h G) ∧ G ∈ post')
    (by
      intro pre' x post' hQ
      obtain ⟨hwf', hclear', hmem'⟩ := hQ
      have hothers : ∀ h ∈ pre' ++ post', h = G ∨ ¬ SpansOverlap h G := by
        intro h hm
        apply hclear'
        simp only [List.mem_append, List.mem_cons] at hm ⊢
        tauto
      by_cases hxG : x = G
      · left
        subst hxG
        exact processSet_unmergeable maxHole maxRegs _ pre' x post' hG hhole hothers
      · have hxc : ¬ SpansOverlap x G := by
          rcases hclear' x (by simp) with h | h
          · exact absurd h hxG
          · exact h
        have hGpost : G ∈ post' := by
          rcases List.mem_cons.1 hmem' with h | h
          · exact absurd h.symm hxG
          · exact h
        rcases processSet_keeps_clear maxHole maxRegs G hG pre' x post' (GetMaxHoleSize x) hwf'
          hothers hxc hGpost with h | ⟨r, hr, ⟨h1, h2, h3⟩, hlen⟩
        · exact Or.inl h
        · refine Or.inr ⟨r, hr, ⟨?_, ?_, h3⟩, hlen⟩
          · simpa using h1
          · simpa using h2)
    fuel pre post hf ⟨hwf, hclear, hmem⟩
  rcases h with h | ⟨out, _, _, _, hfalse⟩
  · exact h
  · simp at hfalse


/-! ## The scan below the top address -/

/-- When no exclusive end wraps, the scan of the source is this: a set that overlaps the
current one, or in stage `Merge` lies within `maxHole` of it, makes the scan throw if the
current set alone is wider than `maxRegs`, is skipped if the union would be wider than
`maxRegs`, and is otherwise entered with sorting factor "span of the union minus the larger of
the two spans" and with its own span; any other set is skipped. -/
theorem scanOther_eq (stage : EStage) (maxHole maxRegs : Nat) {g h : RegisterSet}
    (hg : IsRegisterSet g) (hh : IsRegisterSet h) (hgend : lastOf g + 1 < u32)
    (hhend : lastOf h + 1 < u32) :
    scanOther stage maxHole maxRegs g h =
      if SpansOverlap g h ∨ (stage = EStage.Merge ∧ Gap g h ≤ maxHole) then
        if maxRegs < Span g then ScanResult.throwMaxRegs
        else if maxRegs < CombinedSpan g h then ScanResult.skip
        else ScanResult.candidate (CombinedSpan g h - max (Span g) (Span h)) (Span h)
      else ScanResult.skip := by
  have g1 := isRegisterSet_start_le_last hg
  have h1 := isRegisterSet_start_le_last hh
  unfold u32 at hgend hhend
  have eg : endOf g = lastOf g + 1 := by unfold endOf u32; omega
  have eh : endOf h = lastOf h + 1 := by unfold endOf u32; omega
  have hsize : subU32 (lastOf g + 1) (startOf g) = Span g := by
    unfold subU32 u32 Span; omega
  have hosize : subU32 (lastOf h + 1) (startOf h) = Span h := by
    unfold subU32 u32 Span; omega
  have hmerged : subU32 (max (lastOf g + 1) (lastOf h + 1)) (min (startOf g) (startOf h)) =
      CombinedSpan g h := by
    unfold subU32 u32 CombinedSpan; omega
  have hsf : subU32 (CombinedSpan g h) (max (Span g) (Span h)) =
      CombinedSpan g h - max (Span g) (Span h) := by
    unfold subU32 u32 CombinedSpan Span; omega
  have hdist : ¬ SpansOverlap g h →
      subU32 (max (startOf g) (startOf h)) (min (lastOf g + 1) (lastOf h + 1)) = Gap g h := by
    intro hno
    unfold SpansOverlap at hno
    unfold subU32 u32 Gap; omega
  unfold scanOther
  simp only [eg, eh, hsize, hosize, hmerged, hsf]
  by_cases hO : SpansOverlap g h
  · have hb : (decide (startOf h < lastOf g + 1) && decide (startOf g < lastOf h + 1)) = true := by
      unfold SpansOverlap at hO
      simp only [Bool.and_eq_true, decide_eq_true_eq]
      omega
    simp only [hb, Bool.true_or, if_true, Bool.not_true, Bool.false_and, hO, true_or,
      gt_iff_lt, Bool.false_eq_true, if_false]
  · have hb : (decide (startOf h < lastOf g + 1) && decide (startOf g < lastOf h + 1)) = false := by
      unfold SpansOverlap at hO
      rw [Bool.and_eq_false_iff]
      simp only [decide_eq_false_iff_not]
      omega
    simp only [hb, Bool.false_or, Bool.not_false, Bool.true_and, hdist hO, hO, false_or,
      gt_iff_lt]
    cases stage with
    | HoleEliminate => simp
    | Merge =>
      by_cases hG : Gap g h ≤ maxHole
      · have : ¬ maxHole < Gap g h := Nat.not_lt.2 hG
        simp [hG, this]
      · have : maxHole < Gap g h := Nat.lt_of_not_le hG
        simp [hG, this]

/-! ## Invariants of a stage -/

theorem eraseOther_fst_sublist (pre post : List RegisterSet) (k : Nat) :
    (eraseOther pre post k).1.Sublist pre := by
  unfold eraseOther
  split_ifs
  · exact List.eraseIdx_sublist pre k
  · exact List.Sublist.refl pre

/-- Invariants of one stage. `Q` speaks of the list cut at the iterator between two sets, `P`
of the list during the passes for one set, with the tracked hole size. If `Q` gives `P` when a
set is taken up, every merge keeps `P`, and `P` at the end of the passes gives `Q` one
position further, then the stage throws one of the two exceptions or ends with `Q` on the
whole list. -/
theorem runStage_invariant (stage : EStage) (maxHole maxRegs : Nat)
    (Q : List RegisterSet → List RegisterSet → Prop)
    (P : List RegisterSet → RegisterSet → List RegisterSet → Nat → Prop)
    (hstart : ∀ pre x post, Q pre (x :: post) → P pre x post (GetMaxHoleSize x))
    (hstep : ∀ pre cur post hs k sf sz, P pre cur post hs → k < pre.length + post.length →
      scanOther stage maxHole maxRegs cur ((pre ++ post).getD k []) =
        ScanResult.candidate sf sz →
      (stage = EStage.HoleEliminate →
        maxHole < hs ∧ GetMaxHoleSize (insertRange ((pre ++ post).getD k []) cur) < hs) →
      P (eraseOther pre post k).1 (insertRange ((pre ++ post).getD k []) cur)
        (eraseOther pre post k).2
        (if stage = EStage.HoleEliminate then
          GetMaxHoleSize (insertRange ((pre ++ post).getD k []) cur) else hs))
    (hend : ∀ pre cur post hs, P pre cur post hs →
      (stage = EStage.HoleEliminate → hs ≤ maxHole) →
      (stage = EStage.Merge →
        collectCandidates stage maxHole maxRegs cur (pre ++ post) 0 [] = Except.ok []) →
      Q (pre ++ [cur]) post)
    (fuel : Nat) (pre post : List RegisterSet) (hf : post.length ≤ fuel) (hQ : Q pre post) :
    (∃ e, runStage stage maxHole maxRegs fuel pre post = Except.error e ∧
      e ≠ MergeError.fuelExhausted) ∨
    (∃ out, runStage stage maxHole maxRegs fuel pre post = Except.ok out ∧ Q out []) := by
  refine runStage_induct stage maxHole maxRegs Q ?_ fuel pre post hf hQ
  intro pre' x post' hQ'
  have h := processSet_induct stage maxHole maxRegs
    (fun p c q hs => P p c q hs ∧ q.length ≤ post'.length)
    (fun p c q hs k sf sz hP hk hscan hlow =>
      ⟨hstep p c q hs k sf sz hP.1 hk hscan hlow,
        Nat.le_trans (eraseOther_length_le p q k).2 hP.2⟩)
    (pre'.length + post'.length + 1) pre' x post' (GetMaxHoleSize x) (by omega)
    ⟨hstart pre' x post' hQ', Nat.le_refl _⟩
  rcases h with h | ⟨r, hs', hr, ⟨hP, hlen⟩, he1, he2⟩
  · exact Or.inl h
  · exact Or.inr ⟨r, hr, hend _ _ _ _ hP he1 he2, hlen⟩

/-- The successful case of `runStage_invariant`. -/
theorem runStage_invariant_ok (stage : EStage) (maxHole maxRegs : Nat)
    (Q : List RegisterSet → List RegisterSet → Prop)
    (P : List RegisterSet → RegisterSet → List RegisterSet → Nat → Prop)
    (hstart : ∀ pre x post, Q pre (x :: post) → P pre x post (GetMaxHoleSize x))
    (hstep : ∀ pre cur post hs k sf sz, P pre cur post hs → k < pre.length + post.length →
      scanOther stage maxHole maxRegs cur ((pre ++ post).getD k []) =
        ScanResult.candidate sf sz →
      (stage = EStage.HoleEliminate →
        maxHole < hs ∧ GetMaxHoleSize (insertRange ((pre ++ post).getD k []) cur) < hs) →
      P (eraseOther pre post k).1 (insertRange ((pre ++ post).getD k []) cur)
        (eraseOther pre post k).2
        (if stage = EStage.HoleEliminate then
          GetMaxHoleSize (insertRange ((pre ++ post).getD k []) cur) else hs))
    (hend : ∀ pre cur post hs, P pre cur post hs →
      (stage = EStage.HoleEliminate → hs ≤ maxHole) →
      (stage = EStage.Merge →
        collectCandidates stage maxHole maxRegs cur (pre ++ post) 0 [] = Except.ok []) →
      Q (pre ++ [cur]) post)
    (fuel : Nat) (pre post out : List RegisterSet) (hf : post.length ≤ fuel) (hQ : Q pre post)
    (hout : runStage stage maxHole maxRegs fuel pre post = Except.ok out) : Q out [] := by
  rcases runStage_invariant stage maxHole maxRegs Q P hstart hstep hend fuel pre post hf hQ with
    ⟨e, he, _⟩ | ⟨out', ho, hQ'⟩
  · rw [he] at hout
    simp at hout
  · rw [ho] at hout
    simp only [Except.ok.injEq] at hout
    subst hout
    exact hQ'

/-- A property of single sets that every accepted merge carries from the two sets to their
union holds of every set a stage returns, if it holds of every set the stage starts from. -/
theorem runStage_forall (stage : EStage) (maxHole maxRegs : Nat) (S : RegisterSet → Prop)
    (hS : ∀ cur y sf sz, S cur → S y →
      scanOther stage maxHole maxRegs cur y = ScanResult.candidate sf sz →
      S (insertRange y cur))
    (fuel : Nat) (pre post out : List RegisterSet) (hf : post.length ≤ fuel)
    (hall : ∀ g ∈ pre ++ post, S g)
    (hout : runStage stage maxHole maxRegs fuel pre post = Except.ok out) :
    ∀ g ∈ out, S g := by
  have h := runStage_invariant_ok stage maxHole maxRegs
    (fun p q => ∀ g ∈ p ++ q, S g)
    (fun p c q _ => (∀ g ∈ p ++ q, S g) ∧ S c)
    (fun p x q hQ => ⟨fun g hg => hQ g (by
        simp only [List.mem_append, List.mem_cons] at hg ⊢
        tauto), hQ x (by simp)⟩)
    (fun p c q hs k sf sz hP hk hscan _ =>
      ⟨fun g hg => hP.1 g (mem_of_mem_eraseOther p q k g hg),
        hS c _ sf sz hP.2 (hP.1 _ (getD_mem_of_lt (p ++ q) k (by simpa using hk))) hscan⟩)
    (fun p c q hs hP _ _ g hg => by
      simp only [List.mem_append, List.mem_cons, List.mem_singleton, List.not_mem_nil,
        or_false] at hg
      rcases hg with (hg | rfl) | hg
      · exact hP.1 g (by simp [hg])
      · exact hP.2
      · exact hP.1 g (by simp [hg]))
    fuel pre post out hf hall hout
  simpa using h

/-- The same for `MergeSets`, when the merges of both stages carry the property. -/
theorem MergeSets_forall (maxHole maxRegs : Nat) (S : RegisterSet → Prop)
    (hS : ∀ stage cur y sf sz, S cur → S y →
      scanOther stage maxHole maxRegs cur y = ScanResult.candidate sf sz →
      S (insertRange y cur))
    (registerSets out : List RegisterSet) (hall : ∀ g ∈ registerSets, S g)
    (hout : MergeSets registerSets maxHole maxRegs = Except.ok out) : ∀ g ∈ out, S g := by
  unfold MergeSets at hout
  split at hout
  · simp at hout
  · rename_i afterHoles h1
    have a := runStage_forall EStage.HoleEliminate maxHole maxRegs S (hS _) _ [] registerSets
      afterHoles (Nat.le_refl _) (by simpa using hall) h1
    exact runStage_forall EStage.Merge maxHole maxRegs S (hS _) _ [] afterHoles out
      (Nat.le_refl _) (by simpa using a) hout

/-- Below the top address, a well-formed set stays well-formed and below the top address when
it absorbs another such set. -/
theorem belowTop_insertRange {x y : RegisterSet}
    (hx : IsRegisterSet x ∧ lastOf x + 1 < u32) (hy : IsRegisterSet y ∧ lastOf y + 1 < u32) :
    IsRegisterSet (insertRange y x) ∧ lastOf (insertRange y x) + 1 < u32 := by
  refine ⟨isRegisterSet_insertRange hx.1 hy.1, ?_⟩
  rw [lastOf_insertRange hx.1 hy.1]
  have h1 := hx.2
  have h2 := hy.2
  omega

theorem Span_insertRange {x y : RegisterSet} (hx : IsRegisterSet x) (hy : IsRegisterSet y) :
    Span (insertRange y x) = CombinedSpan x y := by
  unfold Span CombinedSpan
  rw [startOf_insertRange hx hy, lastOf_insertRange hx hy]
  omega

/-- What an accepted candidate satisfies below the top address. -/
theorem scanOther_candidate_spec {stage : EStage} {maxHole maxRegs : Nat} {g h : RegisterSet}
    {sf sz : Nat} (hg : IsRegisterSet g) (hh : IsRegisterSet h) (hgend : lastOf g + 1 < u32)
    (hhend : lastOf h + 1 < u32)
    (hc : scanOther stage maxHole maxRegs g h = ScanResult.candidate sf sz) :
    (SpansOverlap g h ∨ (stage = EStage.Merge ∧ Gap g h ≤ maxHole)) ∧
      CombinedSpan g h ≤ maxRegs ∧ sf = CombinedSpan g h - max (Span g) (Span h) ∧
      sz = Span h := by
  rw [scanOther_eq stage maxHole maxRegs hg hh hgend hhend] at hc
  split_ifs at hc with h1 h2 h3
  · simp only [ScanResult.candidate.injEq] at hc
    exact ⟨h1, Nat.le_of_not_lt h3, hc.1.symm, hc.2.symm⟩

/-! ## Stage `HoleEliminate` leaves every hole within the cap -/

theorem runStage_holeEliminate_holes (maxHole maxRegs fuel : Nat)
    (pre post out : List RegisterSet) (hf : post.length ≤ fuel)
    (hpre : ∀ g ∈ pre, GetMaxHoleSize g ≤ maxHole)
    (hout : runStage EStage.HoleEliminate maxHole maxRegs fuel pre post = Except.ok out) :
    ∀ g ∈ out, GetMaxHoleSize g ≤ maxHole :=
  runStage_invariant_ok EStage.HoleEliminate maxHole maxRegs
    (fun p _ => ∀ g ∈ p, GetMaxHoleSize g ≤ maxHole)
    (fun p c _ hs => (∀ g ∈ p, GetMaxHoleSize g ≤ maxHole) ∧ hs = GetMaxHoleSize c)
    (fun _ _ _ hQ => ⟨hQ, rfl⟩)
    (fun p c q hs k _ _ hP _ _ _ =>
      ⟨fun g hg => hP.1 g ((eraseOther_fst_sublist p q k).subset hg), by simp⟩)
    (fun p c q hs hP hle _ g hg => by
      rcases List.mem_append.1 hg with hg | hg
      · exact hP.1 g hg
      · simp only [List.mem_singleton] at hg
        subst hg
        rw [← hP.2]
        exact hle rfl)
    fuel pre post out hf hpre hout

/-! ## `MergeSets` never empties the list -/

theorem MergeSets_ne_nil (registerSets out : List RegisterSet) (maxHole maxRegs : Nat)
    (h : MergeSets registerSets maxHole maxRegs = Except.ok out) (hne : registerSets ≠ []) :
    out ≠ [] := by
  obtain ⟨g, hg⟩ := List.exists_mem_of_ne_nil registerSets hne
  obtain ⟨o, ho, _⟩ := partitionedInto_contained
    (merges_partitioned (MergeSets_merges registerSets out maxHole maxRegs h)) g hg
  exact List.ne_nil_of_mem ho

/-! ## Stages in which the scan cannot throw -/

/-- The passes for one set when no scan can throw: in stage `Merge` they end without
exception, in stage `HoleEliminate` the only exception left is "max hole count exceeded". -/
theorem processSet_noThrow (stage : EStage) (maxHole maxRegs : Nat)
    (P : List RegisterSet → RegisterSet → List RegisterSet → Nat → Prop)
    (hstep : ∀ pre cur post hs k sf sz, P pre cur post hs → k < pre.length + post.length →
      scanOther stage maxHole maxRegs cur ((pre ++ post).getD k []) =
        ScanResult.candidate sf sz →
      (stage = EStage.HoleEliminate →
        maxHole < hs ∧ GetMaxHoleSize (insertRange ((pre ++ post).getD k []) cur) < hs) →
      P (eraseOther pre post k).1 (insertRange ((pre ++ post).getD k []) cur)
        (eraseOther pre post k).2
        (if stage = EStage.HoleEliminate then
          GetMaxHoleSize (insertRange ((pre ++ post).getD k []) cur) else hs))
    (hno : ∀ pre cur post hs, P pre cur post hs → ∀ o ∈ pre ++ post,
      scanOther stage maxHole maxRegs cur o ≠ ScanResult.throwMaxRegs) :
    ∀ (fuel : Nat) (pre : List RegisterSet) (cur : RegisterSet) (post : List RegisterSet)
      (hs : Nat), pre.length + post.length < fuel → P pre cur post hs →
      (stage = EStage.HoleEliminate ∧
        processSet stage maxHole maxRegs fuel pre cur post hs =
          Except.error MergeError.maxHoleCountExceeded) ∨
      (∃ r hs', processSet stage maxHole maxRegs fuel pre cur post hs = Except.ok r ∧
        P r.1 r.2.1 r.2.2 hs' ∧ r.2.2.length ≤ post.length)
  | 0, _, _, _, _, hf, _ => by omega
  | fuel + 1, pre, cur, post, hs, hf, hP => by
    obtain ⟨cs, hcs⟩ := collectCandidates_ne_throw stage maxHole maxRegs cur (pre ++ post) 0 []
      (hno pre cur post hs hP)
    have hspec := collectCandidates_spec _ _ _ _ _ _ _ _ hcs
    unfold processSet
    rw [hcs]
    cases stage with
    | HoleEliminate =>
      simp only
      split_ifs with hgt
      · split
        · rename_i k m nh hfind
          obtain ⟨hm, hnh, hlt, c, hc, hck⟩ := findHoleDecrease_some _ _ _ _ _ _ _ hfind
          rcases hspec c hc with h0 | ⟨_, hk, hscan⟩
          · simp at h0
          simp only [Nat.zero_add, Nat.sub_zero, List.length_append, hck] at hk hscan
          have hP' := hstep pre cur post hs k c.1 c.2.1 hP hk hscan
            (fun _ => ⟨hgt, by rw [← hm, ← hnh]; exact hlt⟩)
          simp only [if_true] at hP'
          rw [← hm, ← hnh] at hP'
          have hle := (eraseOther_length_le pre post k).2
          split_ifs with hle'
          · right
            exact ⟨_, nh, rfl, hP', hle⟩
          · have hlen := eraseOther_length pre post k hk
            rcases processSet_noThrow EStage.HoleEliminate maxHole maxRegs P hstep hno fuel _ _ _
              _ (by omega) hP' with h | ⟨r, hs', hr, hPr, hl⟩
            · exact Or.inl ⟨trivial, h.2⟩
            · exact Or.inr ⟨r, hs', hr, hPr, Nat.le_trans hl hle⟩
        · left
          exact ⟨trivial, rfl⟩
      · right
        exact ⟨_, hs, rfl, hP, Nat.le_refl _⟩
    | Merge =>
      simp only
      split
      · right
        exact ⟨_, hs, rfl, hP, Nat.le_refl _⟩
      · rename_i c cs'
        rcases hspec c (by simp) with h0 | ⟨_, hk, hscan⟩
        · simp at h0
        simp only [Nat.zero_add, Nat.sub_zero, List.length_append] at hk hscan
        have hP' := hstep pre cur post hs c.2.2 c.1 c.2.1 hP hk hscan (fun h => by simp at h)
        simp only [reduceCtorEq, if_false] at hP'
        have hlen := eraseOther_length pre post c.2.2 hk
        have hle := (eraseOther_length_le pre post c.2.2).2
        rcases processSet_noThrow EStage.Merge maxHole maxRegs P hstep hno fuel _ _ _ _
          (by omega) hP' with h | ⟨r, hs', hr, hPr, hl⟩
        · exact absurd h.1 (by simp)
        · exact Or.inr ⟨r, hs', hr, hPr, Nat.le_trans hl hle⟩

/-- Stage `Merge` on a list of well-formed sets below the top address, each of span within
`maxRegs`: no scan throws, every merge keeps the three properties, and the stage returns. -/
theorem runStage_merge_ok (maxHole maxRegs : Nat) :
    ∀ (fuel : Nat) (pre post : List RegisterSet), post.length ≤ fuel →
      (∀ g ∈ pre ++ post, IsRegisterSet g ∧ lastOf g + 1 < u32 ∧ Span g ≤ maxRegs) →
      ∃ out, runStage EStage.Merge maxHole maxRegs fuel pre post = Except.ok out
  | fuel, pre, [], _, _ => ⟨pre, by cases fuel <;> rfl⟩
  | 0, pre, x :: post, hf, _ => by simp at hf
  | fuel + 1, pre, x :: post, hf, hall => by
    have h := processSet_noThrow EStage.Merge maxHole maxRegs
      (fun p c q _ => (∀ g ∈ p ++ q, IsRegisterSet g ∧ lastOf g + 1 < u32 ∧ Span g ≤ maxRegs) ∧
        IsRegisterSet c ∧ lastOf c + 1 < u32 ∧ Span c ≤ maxRegs)
      (by
        intro p c q hs k sf sz hP hk hscan _
        have hy := hP.1 _ (getD_mem_of_lt (p ++ q) k (by simpa using hk))
        have hspec := scanOther_candidate_spec hP.2.1 hy.1 hP.2.2.1 hy.2.1 hscan
        have hb := belowTop_insertRange ⟨hP.2.1, hP.2.2.1⟩ ⟨hy.1, hy.2.1⟩
        refine ⟨fun g hg => hP.1 g (mem_of_mem_eraseOther p q k g hg), hb.1, hb.2, ?_⟩
        rw [Span_insertRange hP.2.1 hy.1]
        exact hspec.2.1)
      (fun p c q hs hP o _ => scanOther_ne_throw _ _ _ o hP.2.1 hP.2.2.1 hP.2.2.2)
      (pre.length + post.length + 1) pre x post (GetMaxHoleSize x) (by omega)
      ⟨fun g hg => hall g (by
          simp only [List.mem_append, List.mem_cons] at hg ⊢
          tauto), hall x (by simp)⟩
    rcases h with h | ⟨r, hs', hr, hP, hlen⟩
    · exact absurd h.1 (by simp)
    · unfold runStage
      rw [hr]
      simp only [List.length_cons] at hf
      refine runStage_merge_ok maxHole maxRegs fuel (r.1 ++ [r.2.1]) r.2.2 (by omega) ?_
      intro g hg
      simp only [List.mem_append, List.mem_singleton] at hg
      rcases hg with (hg | rfl) | hg
      · exact hP.1 g (by simp [hg])
      · exact hP.2
      · exact hP.1 g (by simp [hg])

/-- The passes of stage `Merge` throw nothing but "max reg count exceeded". -/
theorem processSet_merge_error (maxHole maxRegs : Nat) :
    ∀ (fuel : Nat) (pre : List RegisterSet) (cur : RegisterSet) (post : List RegisterSet)
      (hs : Nat) (e : MergeError),
      processSet EStage.Merge maxHole maxRegs fuel pre cur post hs = Except.error e →
        e ≠ MergeError.maxHoleCountExceeded
  | 0, _, _, _, _, e, h => by
    simp only [processSet, Except.error.injEq] at h
    subst h
    simp
  | fuel + 1, pre, cur, post, hs, e, h => by
    unfold processSet at h
    split at h
    · rename_i e' he'
      simp only [Except.error.injEq] at h
      subst h
      rw [collectCandidates_error _ _ _ _ _ _ _ _ he']
      simp
    · simp only at h
      split at h
      · simp at h
      · exact processSet_merge_error maxHole maxRegs fuel _ _ _ _ e h

theorem runStage_merge_error (maxHole maxRegs : Nat) :
    ∀ (fuel : Nat) (pre post : List RegisterSet) (e : MergeError),
      runStage EStage.Merge maxHole maxRegs fuel pre post = Except.error e →
        e ≠ MergeError.maxHoleCountExceeded
  | fuel, pre, [], e, h => by cases fuel <;> simp [runStage] at h
  | 0, pre, x :: post, e, h => by
    simp only [runStage, Except.error.injEq] at h
    subst h
    simp
  | fuel + 1, pre, x :: post, e, h => by
    unfold runStage at h
    split at h
    · rename_i e' he'
      simp only [Except.error.injEq] at h
      subst h
      exact processSet_merge_error maxHole maxRegs _ _ _ _ _ _ he'
    · exact runStage_merge_error maxHole maxRegs fuel _ _ e h

/-! ## The list `MergeSets` returns is saturated -/

theorem length_insertCandidate (c : Candidate) :
    ∀ l : List Candidate, (insertCandidate c l).length = l.length + 1
  | [] => rfl
  | d :: ds => by
    unfold insertCandidate
    split_ifs
    · simp
    · simp [length_insertCandidate c ds]

theorem collectCandidates_length (stage : EStage) (maxHole maxRegs : Nat) (cur : RegisterSet) :
    ∀ (others : List RegisterSet) (k : Nat) (acc cs : List Candidate),
      collectCandidates stage maxHole maxRegs cur others k acc = Except.ok cs →
        acc.length ≤ cs.length ∧
          (cs.length = acc.length →
            ∀ o ∈ others, scanOther stage maxHole maxRegs cur o = ScanResult.skip)
  | [], k, acc, cs, h => by
    simp only [collectCandidates, Except.ok.injEq] at h
    subst h
    exact ⟨Nat.le_refl _, fun _ o ho => by simp at ho⟩
  | other :: rest, k, acc, cs, h => by
    unfold collectCandidates at h
    split at h
    · rename_i hscan
      obtain ⟨h1, h2⟩ := collectCandidates_length stage maxHole maxRegs cur rest _ acc cs h
      refine ⟨h1, fun heq o ho => ?_⟩
      rcases List.mem_cons.1 ho with rfl | ho
      · exact hscan
      · exact h2 heq o ho
    · simp at h
    · obtain ⟨h1, _⟩ := collectCandidates_length stage maxHole maxRegs cur rest _ _ cs h
      rw [length_insertCandidate] at h1
      exact ⟨by omega, fun heq => by omega⟩

/-- A pass that finds no candidate has skipped every other set. -/
theorem collectCandidates_nil (stage : EStage) (maxHole maxRegs : Nat) (cur : RegisterSet)
    (others : List RegisterSet)
    (h : collectCandidates stage maxHole maxRegs cur others 0 [] = Except.ok []) :
    ∀ o ∈ others, scanOther stage maxHole maxRegs cur o = ScanResult.skip :=
  (collectCandidates_length stage maxHole maxRegs cur others 0 [] [] h).2 rfl

/-- Stage `Merge` leaves every set such that its scan skips every set before it in the
list. -/
theorem runStage_merge_saturated (maxHole maxRegs fuel : Nat) (pre post out : List RegisterSet)
    (hf : post.length ≤ fuel)
    (hpre : pre.Pairwise fun a b =>
      scanOther EStage.Merge maxHole maxRegs b a = ScanResult.skip)
    (hout : runStage EStage.Merge maxHole maxRegs fuel pre post = Except.ok out) :
    out.Pairwise fun a b => scanOther EStage.Merge maxHole maxRegs b a = ScanResult.skip :=
  runStage_invariant_ok EStage.Merge maxHole maxRegs
    (fun p _ => p.Pairwise fun a b =>
      scanOther EStage.Merge maxHole maxRegs b a = ScanResult.skip)
    (fun p _ _ _ => p.Pairwise fun a b =>
      scanOther EStage.Merge maxHole maxRegs b a = ScanResult.skip)
    (fun _ _ _ hQ => hQ)
    (fun p c q hs k _ _ hP _ _ _ => hP.sublist (eraseOther_fst_sublist p q k))
    (fun p c q hs hP _ hnil => by
      have hskip := collectCandidates_nil _ _ _ _ _ (hnil rfl)
      refine List.pairwise_append.2 ⟨hP, List.pairwise_singleton _ _, ?_⟩
      intro a ha b hb
      simp only [List.mem_singleton] at hb
      subst hb
      exact hskip a (by simp [ha]))
    fuel pre post out hf hpre hout

/-- Below the top address a skipped set lies clear of the current one and farther than
`maxHole`, or the union of the two is wider than `maxRegs`. -/
theorem scanOther_skip_spec {maxHole maxRegs : Nat} {g h : RegisterSet}
    (hg : IsRegisterSet g) (hh : IsRegisterSet h) (hgend : lastOf g + 1 < u32)
    (hhend : lastOf h + 1 < u32)
    (hs : scanOther EStage.Merge maxHole maxRegs g h = ScanResult.skip) :
    (¬ SpansOverlap g h ∧ maxHole < Gap g h) ∨ maxRegs < CombinedSpan g h := by
  rw [scanOther_eq EStage.Merge maxHole maxRegs hg hh hgend hhend] at hs
  split_ifs at hs with h1 h2 h3
  · exact Or.inr h3
  · left
    simp only [true_and, not_or, not_le] at h1
    exact h1

theorem MergeSets_saturated (registerSets out : List RegisterSet) (maxHole maxRegs : Nat)
    (hwf : ∀ g ∈ registerSets, IsRegisterSet g ∧ lastOf g + 1 < u32)
    (h : MergeSets registerSets maxHole maxRegs = Except.ok out) :
    out.Pairwise fun a b =>
      (¬ SpansOverlap a b ∧ maxHole < Gap a b) ∨ maxRegs < CombinedSpan a b := by
  have hwf' := MergeSets_forall maxHole maxRegs
    (fun g => IsRegisterSet g ∧ lastOf g + 1 < u32)
    (fun _ _ _ _ _ hc hy _ => belowTop_insertRange hc hy) registerSets out hwf h
  unfold MergeSets at h
  split at h
  · simp at h
  · rename_i afterHoles _
    have hp := runStage_merge_saturated maxHole maxRegs _ [] afterHoles out (Nat.le_refl _)
      List.Pairwise.nil h
    refine hp.imp_of_mem ?_
    intro a b ha hb hscan
    have ha' := hwf' a ha
    have hb' := hwf' b hb
    rcases scanOther_skip_spec hb'.1 ha'.1 hb'.2 ha'.2 hscan with ⟨h1, h2⟩ | h3
    · exact Or.inl ⟨fun hab => h1 (spansOverlap_symm hab), by rw [Gap_comm]; exact h2⟩
    · exact Or.inr (by rw [CombinedSpan_comm]; exact h3)

/-- Two sorted sets with a common register overlap in span. -/
theorem spansOverlap_of_common {a b : RegisterSet} (ha : IsRegisterSet a)
    (hb : IsRegisterSet b) {r : Nat} (hra : r ∈ a) (hrb : r ∈ b) : SpansOverlap a b := by
  have h1 := startOf_le ha.2.1 hra
  have h2 := le_lastOf ha.2.1 hra
  have h3 := startOf_le hb.2.1 hrb
  have h4 := le_lastOf hb.2.1 hrb
  exact ⟨by omega, by omega⟩

/-! ## The order in which the candidates are taken -/

theorem candidateBefore_asymm {c d : Candidate} (h : CandidateBefore c d) :
    ¬ CandidateBefore d c := by
  unfold CandidateBefore at *
  omega

/-- `setsForMerge` stays in order when a candidate later in the list than all its entries is
entered. -/
theorem pairwise_insertCandidate (c : Candidate) :
    ∀ l : List Candidate, l.Pairwise CandidateBefore → (∀ d ∈ l, d.2.2 < c.2.2) →
      (insertCandidate c l).Pairwise CandidateBefore
  | [], _, _ => by simp [insertCandidate]
  | d :: ds, hl, hidx => by
    have hl' := List.pairwise_cons.1 hl
    have hd : d.2.2 < c.2.2 := hidx d (by simp)
    unfold insertCandidate
    split_ifs with hlt
    · refine List.pairwise_cons.2 ⟨?_, hl⟩
      intro x hx
      rcases List.mem_cons.1 hx with rfl | hx
      · unfold CandidateBefore
        omega
      · have := hl'.1 x hx
        unfold CandidateBefore at this ⊢
        omega
    · refine List.pairwise_cons.2 ⟨?_, pairwise_insertCandidate c ds hl'.2
        (fun x hx => hidx x (by simp [hx]))⟩
      intro x hx
      rcases (mem_insertCandidate _ _ _).1 hx with rfl | hx
      · unfold CandidateBefore
        omega
      · exact hl'.1 x hx

/-- The entries of `setsForMerge` are in the order of `CandidateBefore`. -/
theorem collectCandidates_sorted (stage : EStage) (maxHole maxRegs : Nat) (cur : RegisterSet) :
    ∀ (others : List RegisterSet) (k : Nat) (acc cs : List Candidate),
      collectCandidates stage maxHole maxRegs cur others k acc = Except.ok cs →
        acc.Pairwise CandidateBefore → (∀ d ∈ acc, d.2.2 < k) → cs.Pairwise CandidateBefore
  | [], k, acc, cs, h, hacc, _ => by
    simp only [collectCandidates, Except.ok.injEq] at h
    subst h
    exact hacc
  | other :: rest, k, acc, cs, h, hacc, hidx => by
    unfold collectCandidates at h
    split at h
    · exact collectCandidates_sorted stage maxHole maxRegs cur rest (k + 1) acc cs h hacc
        (fun d hd => Nat.lt_succ_of_lt (hidx d hd))
    · simp at h
    · rename_i sf sz _
      refine collectCandidates_sorted stage maxHole maxRegs cur rest (k + 1) _ cs h
        (pairwise_insertCandidate (sf, sz, k) acc hacc hidx) ?_
      intro d hd
      rcases (mem_insertCandidate _ _ _).1 hd with rfl | hd
      · exact Nat.lt_succ_self _
      · exact Nat.lt_succ_of_lt (hidx d hd)

/-- Every other set that the scan accepts is entered in `setsForMerge`. -/
theorem collectCandidates_complete (stage : EStage) (maxHole maxRegs : Nat)
    (cur : RegisterSet) :
    ∀ (others : List RegisterSet) (k : Nat) (acc cs : List Candidate),
      collectCandidates stage maxHole maxRegs cur others k acc = Except.ok cs →
        (∀ d ∈ acc, d ∈ cs) ∧
          ∀ j sf sz, j < others.length →
            scanOther stage maxHole maxRegs cur (others.getD j []) =
              ScanResult.candidate sf sz → (sf, sz, k + j) ∈ cs
  | [], k, acc, cs, h => by
    simp only [collectCandidates, Except.ok.injEq] at h
    subst h
    exact ⟨fun _ hd => hd, fun j _ _ hj => by simp at hj⟩
  | other :: rest, k, acc, cs, h => by
    unfold collectCandidates at h
    split at h
    · rename_i hscan
      obtain ⟨h1, h2⟩ := collectCandidates_complete stage maxHole maxRegs cur rest _ acc cs h
      refine ⟨h1, ?_⟩
      intro j sf sz hj hc
      cases j with
      | zero =>
        simp only [List.getD_cons_zero] at hc
        rw [hscan] at hc
        simp at hc
      | succ j =>
        have := h2 j sf sz (by simpa using hj) (by simpa using hc)
        have e : k + (j + 1) = k + 1 + j := by omega
        rw [e]
        exact this
    · simp at h
    · rename_i sf' sz' hscan
      obtain ⟨h1, h2⟩ := collectCandidates_complete stage maxHole maxRegs cur rest _ _ cs h
      refine ⟨fun d hd => h1 d ((mem_insertCandidate _ _ _).2 (Or.inr hd)), ?_⟩
      intro j sf sz hj hc
      cases j with
      | zero =>
        simp only [List.getD_cons_zero] at hc
        rw [hscan] at hc
        simp only [ScanResult.candidate.injEq] at hc
        obtain ⟨rfl, rfl⟩ := hc
        exact h1 _ ((mem_insertCandidate _ _ _).2 (Or.inl rfl))
      | succ j =>
        have := h2 j sf sz (by simpa using hj) (by simpa using hc)
        have e : k + (j + 1) = k + 1 + j := by omega
        rw [e]
        exact this

/-- The walk of stage `HoleEliminate` takes the first candidate, in the order of the list,
whose merge makes the hole smaller. -/
theorem findHoleDecrease_first (others : List RegisterSet) (cur : RegisterSet) (holeSize : Nat)
    (c : Candidate) :
    ∀ cs : List Candidate, cs.Pairwise CandidateBefore → c ∈ cs →
      GetMaxHoleSize (insertRange (others.getD c.2.2 []) cur) < holeSize →
      (∀ d ∈ cs, GetMaxHoleSize (insertRange (others.getD d.2.2 []) cur) < holeSize →
        ¬ CandidateBefore d c) →
      findHoleDecrease others cur holeSize cs =
        some (c.2.2, insertRange (others.getD c.2.2 []) cur,
          GetMaxHoleSize (insertRange (others.getD c.2.2 []) cur))
  | [], _, hc, _, _ => by simp at hc
  | d :: ds, hp, hc, hlow, hmin => by
    have hp' := List.pairwise_cons.1 hp
    unfold findHoleDecrease
    simp only
    rcases List.mem_cons.1 hc with rfl | hc'
    · rw [if_pos hlow]
    · have hdc : CandidateBefore d c := hp'.1 c hc'
      have hnl : ¬ GetMaxHoleSize (insertRange (others.getD d.2.2 []) cur) < holeSize :=
        fun h => hmin d (by simp) h hdc
      simp only [hnl, if_false]
      exact findHoleDecrease_first others cur holeSize c ds hp'.2 hc' hlow
        (fun x hx => hmin x (by simp [hx]))

/-- Below the top address the scan accepts a set that qualifies, with the key of the
specification. -/
theorem scanOther_of_qualifies {stage : EStage} {maxHole maxRegs : Nat} {g h : RegisterSet}
    (hg : IsRegisterSet g) (hh : IsRegisterSet h) (hgend : lastOf g + 1 < u32)
    (hhend : lastOf h + 1 < u32) (hq : Qualifies stage maxHole maxRegs g h) :
    scanOther stage maxHole maxRegs g h =
      ScanResult.candidate (CombinedSpan g h - max (Span g) (Span h)) (Span h) := by
  rw [scanOther_eq stage maxHole maxRegs hg hh hgend hhend]
  have g1 := isRegisterSet_start_le_last hg
  have h1 := isRegisterSet_start_le_last hh
  have hspan : ¬ maxRegs < Span g := by
    have := hq.2
    unfold CombinedSpan at this
    unfold Span
    omega
  have hcomb : ¬ maxRegs < CombinedSpan g h := Nat.not_lt.2 hq.2
  simp only [hq.1, if_true, hspan, hcomb, if_false]

/-- The scan of a pass for a current set that has a qualifying neighbour, all sets well-formed
and below the top address: it does not throw, and its result is in order, holds the key of
every qualifying set, and holds nothing else. -/
theorem collectCandidates_qualifying (stage : EStage) (maxHole maxRegs : Nat)
    (cur : RegisterSet) (others : List RegisterSet)
    (hcur : IsRegisterSet cur ∧ lastOf cur + 1 < u32)
    (hothers : ∀ g ∈ others, IsRegisterSet g ∧ lastOf g + 1 < u32)
    (hspan : Span cur ≤ maxRegs) :
    ∃ cs, collectCandidates stage maxHole maxRegs cur others 0 [] = Except.ok cs ∧
      cs.Pairwise CandidateBefore ∧
      (∀ j, j < others.length → Qualifies stage maxHole maxRegs cur (others.getD j []) →
        candidateKey cur others j ∈ cs) ∧
      (∀ c ∈ cs, c.2.2 < others.length ∧
        Qualifies stage maxHole maxRegs cur (others.getD c.2.2 []) ∧
        c = candidateKey cur others c.2.2) := by
  obtain ⟨cs, hcs⟩ := collectCandidates_ne_throw stage maxHole maxRegs cur others 0 []
    (fun o _ => scanOther_ne_throw _ _ _ o hcur.1 hcur.2 hspan)
  refine ⟨cs, hcs, ?_, ?_, ?_⟩
  · exact collectCandidates_sorted _ _ _ _ _ _ _ _ hcs List.Pairwise.nil
      (fun d hd => by simp at hd)
  · intro j hj hq
    have ho := hothers _ (getD_mem_of_lt others j hj)
    have := (collectCandidates_complete _ _ _ _ _ _ _ _ hcs).2 j _ _ hj
      (scanOther_of_qualifies hcur.1 ho.1 hcur.2 ho.2 hq)
    simpa [candidateKey] using this
  · intro c hc
    rcases collectCandidates_spec _ _ _ _ _ _ _ _ hcs c hc with h0 | ⟨_, hk, hscan⟩
    · simp at h0
    simp only [Nat.zero_add, Nat.sub_zero] at hk hscan
    have ho := hothers _ (getD_mem_of_lt others c.2.2 hk)
    obtain ⟨h1, h2, h3, h4⟩ := scanOther_candidate_spec hcur.1 ho.1 hcur.2 ho.2 hscan
    refine ⟨hk, ⟨h1, h2⟩, ?_⟩
    unfold candidateKey
    rw [← h3, ← h4]

/-- The head of the ordered candidates is the qualifying set with the least key. -/
theorem head_eq_least (cur : RegisterSet) (others : List RegisterSet) (k : Nat)
    (c : Candidate) (cs' : List Candidate)
    (hsorted : (c :: cs').Pairwise CandidateBefore)
    (hk : candidateKey cur others k ∈ c :: cs')
    (hc : c = candidateKey cur others c.2.2)
    (hleast : c.2.2 = k ∨ CandidateBefore (candidateKey cur others k)
      (candidateKey cur others c.2.2)) : c.2.2 = k := by
  rcases hleast with h | h
  · exact h
  · rw [← hc] at h
    rcases List.mem_cons.1 hk with heq | hmem
    · rw [← heq]
      rfl
    · exact absurd ((List.pairwise_cons.1 hsorted).1 _ hmem) (candidateBefore_asymm h)

/-! ## `GetMaxHoleSize` of a set of two or more registers -/

theorem foldl_holeStep_mono :
    ∀ (l : RegisterSet) (st : Nat × Int), st.1 ≤ (l.foldl holeStep st).1
  | [], _ => Nat.le_refl _
  | a :: l, st => by
    have h1 : st.1 ≤ (holeStep st a).1 := by
      unfold holeStep
      split_ifs
      · exact Nat.le_max_left _ _
      · exact Nat.le_refl _
    exact Nat.le_trans h1 (foldl_holeStep_mono l (holeStep st a))

theorem toInt32_of_lt {a : Nat} (h : a < 2147483648) : toInt32 a = (a : Int) := by
  unfold toInt32 u32
  have h1 : a % 4294967296 = a := Nat.mod_eq_of_lt (by omega)
  rw [h1]
  simp [h]

theorem ofInt32_natCast {a : Nat} (h : a < 4294967296) : ofInt32 (a : Int) = a := by
  unfold ofInt32
  omega

/-- The hole that `GetMaxHoleSize` finds is at least the difference of the first two
addresses, when the first is below `2^31`. -/
theorem GetMaxHoleSize_ge_first_gap (a b : Nat) (rest : RegisterSet) (ha : a < 2147483648)
    (hab : a < b) (hb : b < u32) : b - a ≤ GetMaxHoleSize (a :: b :: rest) := by
  unfold GetMaxHoleSize
  simp only [List.foldl_cons]
  refine Nat.le_trans ?_ (foldl_holeStep_mono rest _)
  have h1 : holeStep (0, -1) a = (0, (a : Int)) := by
    unfold holeStep
    simp [toInt32_of_lt ha]
  rw [h1]
  unfold holeStep
  simp only [Int.natCast_nonneg, if_true]
  rw [ofInt32_natCast (by omega)]
  unfold u32 at hb
  unfold subU32 u32
  omega

theorem start_lt_last_of_two :
    ∀ g : RegisterSet, g.Pairwise (· < ·) → 2 ≤ g.length → startOf g < lastOf g
  | [], _, h => by simp at h
  | [_], _, h => by simp at h
  | a :: b :: rest, hs, _ => by
    have h1 : a < b := (List.pairwise_cons.1 hs).1 b (by simp)
    have h2 : b ≤ lastOf (a :: b :: rest) := le_lastOf hs (by simp)
    simp only [startOf, List.headD_cons]
    omega

/-- A well-formed set whose first address is below `2^31` and is not its last address has a
hole of at least 1 for `GetMaxHoleSize`. -/
theorem GetMaxHoleSize_pos (o : RegisterSet) (ho : IsRegisterSet o)
    (hstart : startOf o < 2147483648) (hlt : startOf o < lastOf o) :
    1 ≤ GetMaxHoleSize o := by
  match o, ho, hstart, hlt with
  | [], ho, _, _ => exact absurd rfl ho.1
  | [a], _, _, hlt => simp [startOf, lastOf] at hlt
  | a :: b :: rest, ho, hstart, _ =>
    have h1 : a < b := (List.pairwise_cons.1 ho.2.1).1 b (by simp)
    have h2 : b < u32 := ho.2.2 b (by simp)
    have h3 := GetMaxHoleSize_ge_first_gap a b rest (by simpa [startOf] using hstart) h1 h2
    omega

/-- With `maxHole = 0`, stage `HoleEliminate` throws on every list of well-formed sets that
holds a set of two or more registers whose lowest address is below `2^31`. -/
theorem runStage_holeEliminate_zero (registerSets : List RegisterSet) (maxRegs : Nat)
    (g : RegisterSet) (hwf : ∀ s ∈ registerSets, IsRegisterSet s) (hg : g ∈ registerSets)
    (hlen : 2 ≤ g.length) (hstart : startOf g < 2147483648) :
    ∃ e, runStage EStage.HoleEliminate 0 maxRegs registerSets.length [] registerSets =
        Except.error e ∧ e ≠ MergeError.fuelExhausted := by
  cases hrun : runStage EStage.HoleEliminate 0 maxRegs registerSets.length [] registerSets with
  | error e =>
    refine ⟨e, rfl, ?_⟩
    intro he
    subst he
    exact runStage_ne_fuelExhausted _ _ _ _ _ _ (Nat.le_refl _) hrun
  | ok out =>
    exfalso
    have hm := runStage_merges _ _ _ _ _ _ _ hrun
    simp only [List.nil_append] at hm
    obtain ⟨o, ho, hsub⟩ := partitionedInto_contained (merges_partitioned hm) g hg
    have hwf' := runStage_forall EStage.HoleEliminate 0 maxRegs IsRegisterSet
      (fun _ _ _ _ hc hy _ => isRegisterSet_insertRange hc hy) _ [] registerSets out
      (Nat.le_refl _) (by simpa using hwf) hrun
    have hgw := hwf g hg
    have how := hwf' o ho
    have h1 : startOf o ≤ startOf g := startOf_le how.2.1 (hsub _ (startOf_mem hgw.1))
    have h2 : lastOf g ≤ lastOf o := le_lastOf how.2.1 (hsub _ (lastOf_mem hgw.1))
    have h3 := start_lt_last_of_two g hgw.2.1 hlen
    have hpos := GetMaxHoleSize_pos o how (by omega) (by omega)
    have hzero := runStage_holeEliminate_holes 0 maxRegs _ [] registerSets out (Nat.le_refl _)
      (fun _ h => by simp at h) hrun o ho
    omega

/-! ## Each further pass follows a merge -/

/-- One pass of the loop `while (!done)`: either the loop ends in this pass, with a result
that does not depend on what would follow, or the pass has merged the current set with
another set of the list, which is erased, and the loop goes on from there; in stage
`HoleEliminate` the tracked hole size is then that of the merged set and is strictly smaller
than before. -/
theorem processSet_pass (stage : EStage) (maxHole maxRegs : Nat) (pre : List RegisterSet)
    (cur : RegisterSet) (post : List RegisterSet) (hs : Nat) :
    (∃ res, ∀ fuel, processSet stage maxHole maxRegs (fuel + 1) pre cur post hs = res) ∨
    (∃ k hs', k < pre.length + post.length ∧
      (eraseOther pre post k).1.length + (eraseOther pre post k).2.length + 1 =
        pre.length + post.length ∧
      (stage = EStage.HoleEliminate →
        hs' = GetMaxHoleSize (insertRange ((pre ++ post).getD k []) cur) ∧ hs' < hs) ∧
      (stage = EStage.Merge → hs' = hs) ∧
      ∀ fuel, processSet stage maxHole maxRegs (fuel + 1) pre cur post hs =
        processSet stage maxHole maxRegs fuel (eraseOther pre post k).1
          (insertRange ((pre ++ post).getD k []) cur) (eraseOther pre post k).2 hs') := by
  cases hcs : collectCandidates stage maxHole maxRegs cur (pre ++ post) 0 [] with
  | error e =>
    left
    refine ⟨Except.error e, fun fuel => ?_⟩
    unfold processSet
    rw [hcs]
  | ok cs =>
    have hspec := collectCandidates_spec _ _ _ _ _ _ _ _ hcs
    cases stage with
    | HoleEliminate =>
      by_cases hgt : hs > maxHole
      · cases hfind : findHoleDecrease (pre ++ post) cur hs cs with
        | none =>
          left
          refine ⟨Except.error MergeError.maxHoleCountExceeded, fun fuel => ?_⟩
          unfold processSet
          rw [hcs]
          simp only [hgt, if_true, hfind]
        | some r =>
          obtain ⟨k, m, nh⟩ := r
          obtain ⟨hm, hnh, hlt, c, hc, hck⟩ := findHoleDecrease_some _ _ _ _ _ _ _ hfind
          rcases hspec c hc with h0 | ⟨_, hk, _⟩
          · simp at h0
          simp only [Nat.zero_add, List.length_append, hck] at hk
          by_cases hle : nh ≤ maxHole
          · left
            refine ⟨Except.ok ((eraseOther pre post k).1, m, (eraseOther pre post k).2),
              fun fuel => ?_⟩
            unfold processSet
            rw [hcs]
            simp only [hgt, if_true, hfind, hle]
          · right
            refine ⟨k, nh, hk, eraseOther_length pre post k hk,
              fun _ => ⟨by rw [hnh, hm], hlt⟩, fun h => by simp at h, fun fuel => ?_⟩
            conv_lhs => unfold processSet
            rw [hcs]
            simp only [hgt, if_true, hfind, hle, if_false, hm]
      · left
        refine ⟨Except.ok (pre, cur, post), fun fuel => ?_⟩
        unfold processSet
        rw [hcs]
        simp only [hgt, if_false]
    | Merge =>
      cases cs with
      | nil =>
        left
        refine ⟨Except.ok (pre, cur, post), fun fuel => ?_⟩
        unfold processSet
        rw [hcs]
      | cons c cs' =>
        rcases hspec c (by simp) with h0 | ⟨_, hk, _⟩
        · simp at h0
        simp only [Nat.zero_add, List.length_append] at hk
        right
        refine ⟨c.2.2, hs, hk, eraseOther_length pre post c.2.2 hk, fun h => by simp at h,
          fun _ => rfl, fun fuel => ?_⟩
        conv_lhs => unfold processSet
        rw [hcs]

/-! ## The candidate a pass absorbs -/

/-- A pass of stage `Merge`, all sets well-formed and below the top address: when the other
set at position `k` qualifies and no qualifying set has a smaller key, the pass absorbs that
set and the loop goes on from there. -/
theorem processSet_merge_absorbs (maxHole maxRegs fuel : Nat) (pre : List RegisterSet)
    (cur : RegisterSet) (post : List RegisterSet) (hs k : Nat)
    (hwf : ∀ g ∈ pre ++ cur :: post, IsRegisterSet g ∧ lastOf g + 1 < u32)
    (hk : k < (pre ++ post).length)
    (hq : Qualifies EStage.Merge maxHole maxRegs cur ((pre ++ post).getD k []))
    (hleast : ∀ j, j < (pre ++ post).length →
      Qualifies EStage.Merge maxHole maxRegs cur ((pre ++ post).getD j []) →
      j = k ∨ CandidateBefore (candidateKey cur (pre ++ post) k)
        (candidateKey cur (pre ++ post) j)) :
    processSet EStage.Merge maxHole maxRegs (fuel + 1) pre cur post hs =
      processSet EStage.Merge maxHole maxRegs fuel (eraseOther pre post k).1
        (insertRange ((pre ++ post).getD k []) cur) (eraseOther pre post k).2 hs := by
  have hcur := hwf cur (by simp)
  have hothers : ∀ g ∈ pre ++ post, IsRegisterSet g ∧ lastOf g + 1 < u32 := by
    intro g hg
    apply hwf
    simp only [List.mem_append, List.mem_cons] at hg ⊢
    tauto
  have hspan : Span cur ≤ maxRegs := by
    have h1 := isRegisterSet_start_le_last hcur.1
    have h2 := isRegisterSet_start_le_last (hothers _ (getD_mem_of_lt _ k hk)).1
    have := hq.2
    unfold CombinedSpan at this
    unfold Span
    omega
  obtain ⟨cs, hcs, hsorted, hcomplete, hsound⟩ :=
    collectCandidates_qualifying EStage.Merge maxHole maxRegs cur (pre ++ post) hcur hothers
      hspan
  have hmem := hcomplete k hk hq
  cases cs with
  | nil => simp at hmem
  | cons c cs' =>
    obtain ⟨hc1, hc2, hc3⟩ := hsound c (by simp)
    have hck : c.2.2 = k := head_eq_least cur (pre ++ post) k c cs' hsorted hmem hc3
      (hleast c.2.2 hc1 hc2)
    conv_lhs => unfold processSet
    rw [hcs]
    simp only [hck]

/-- A pass of stage `HoleEliminate` for a set whose hole exceeds `maxHole`, all sets
well-formed and below the top address: when the other set at position `k` qualifies, its
merge makes the hole smaller, and no qualifying set whose merge makes the hole smaller has a
smaller key, the pass absorbs that set; the loop ends if the new hole is within `maxHole` and
goes on otherwise. -/
theorem processSet_holeEliminate_absorbs (maxHole maxRegs fuel : Nat)
    (pre : List RegisterSet) (cur : RegisterSet) (post : List RegisterSet) (hs k : Nat)
    (hwf : ∀ g ∈ pre ++ cur :: post, IsRegisterSet g ∧ lastOf g + 1 < u32)
    (hgt : maxHole < hs) (hk : k < (pre ++ post).length)
    (hq : Qualifies EStage.HoleEliminate maxHole maxRegs cur ((pre ++ post).getD k []))
    (hlow : GetMaxHoleSize (insertRange ((pre ++ post).getD k []) cur) < hs)
    (hleast : ∀ j, j < (pre ++ post).length →
      Qualifies EStage.HoleEliminate maxHole maxRegs cur ((pre ++ post).getD j []) →
      GetMaxHoleSize (insertRange ((pre ++ post).getD j []) cur) < hs →
      j = k ∨ CandidateBefore (candidateKey cur (pre ++ post) k)
        (candidateKey cur (pre ++ post) j)) :
    processSet EStage.HoleEliminate maxHole maxRegs (fuel + 1) pre cur post hs =
      if GetMaxHoleSize (insertRange ((pre ++ post).getD k []) cur) ≤ maxHole then
        Except.ok ((eraseOther pre post k).1, insertRange ((pre ++ post).getD k []) cur,
          (eraseOther pre post k).2)
      else
        processSet EStage.HoleEliminate maxHole maxRegs fuel (eraseOther pre post k).1
          (insertRange ((pre ++ post).getD k []) cur) (eraseOther pre post k).2
          (GetMaxHoleSize (insertRange ((pre ++ post).getD k []) cur)) := by
  have hcur := hwf cur (by simp)
  have hothers : ∀ g ∈ pre ++ post, IsRegisterSet g ∧ lastOf g + 1 < u32 := by
    intro g hg
    apply hwf
    simp only [List.mem_append, List.mem_cons] at hg ⊢
    tauto
  have hspan : Span cur ≤ maxRegs := by
    have h1 := isRegisterSet_start_le_last hcur.1
    have h2 := isRegisterSet_start_le_last (hothers _ (getD_mem_of_lt _ k hk)).1
    have := hq.2
    unfold CombinedSpan at this
    unfold Span
    omega
  obtain ⟨cs, hcs, hsorted, hcomplete, hsound⟩ :=
    collectCandidates_qualifying EStage.HoleEliminate maxHole maxRegs cur (pre ++ post) hcur
      hothers hspan
  have hfind := findHoleDecrease_first (pre ++ post) cur hs (candidateKey cur (pre ++ post) k)
    cs hsorted (hcomplete k hk hq) hlow (by
      intro d hd hdlow
      obtain ⟨hd1, hd2, hd3⟩ := hsound d hd
      rcases hleast d.2.2 hd1 hd2 hdlow with h | h
      · intro hb
        rw [hd3, h] at hb
        exact candidateBefore_asymm hb hb
      · rw [← hd3] at h
        exact candidateBefore_asymm h)
  have hkey : (candidateKey cur (pre ++ post) k).2.2 = k := rfl
  rw [hkey] at hfind
  conv_lhs => unfold processSet
  rw [hcs]
  simp only [gt_iff_lt, hgt, if_true, hfind]

/-! ## `GetMaxHoleSize` against the internal hole of the specification -/

theorem foldl_holeStep_le_internal :
    ∀ (l : RegisterSet) (hole : Nat) (prev : Int) (p : Nat),
      (prev < 0 ∨ prev = (p : Int)) → (p :: l).Pairwise (· < ·) → (∀ a ∈ l, a < u32) →
      (l.foldl holeStep (hole, prev)).1 ≤
        max hole (if l = [] then 0 else MaxInternalHole (p :: l) + 1)
  | [], hole, prev, p, _, _, _ => by simp
  | b :: rest, hole, prev, p, hprev, hs, hlt => by
    have hpb : p < b := (List.pairwise_cons.1 hs).1 b (by simp)
    have hb : b < u32 := hlt b (by simp)
    have hs' : (b :: rest).Pairwise (· < ·) := (List.pairwise_cons.1 hs).2
    have hprev' : (holeStep (hole, prev) b).2 < 0 ∨ (holeStep (hole, prev) b).2 = (b : Int) := by
      unfold u32 at hb
      simp only [holeStep, toInt32, u32]
      rw [Nat.mod_eq_of_lt hb]
      split_ifs
      · exact Or.inr rfl
      · left
        omega
    have hhole : (holeStep (hole, prev) b).1 ≤ max hole (b - p) := by
      simp only [holeStep]
      split_ifs with h0
      · rcases hprev with h | h
        · omega
        · subst h
          rw [ofInt32_natCast (by unfold u32 at hb; omega)]
          unfold u32 at hb
          unfold subU32 u32
          omega
      · exact Nat.le_max_left _ _
    have ih := foldl_holeStep_le_internal rest (holeStep (hole, prev) b).1
      (holeStep (hole, prev) b).2 b hprev' hs' (fun a ha => hlt a (by simp [ha]))
    simp only [List.foldl_cons, reduceCtorEq, if_false]
    refine Nat.le_trans ih ?_
    cases rest with
    | nil =>
      simp only [if_true, MaxInternalHole]
      omega
    | cons c rest' =>
      simp only [reduceCtorEq, if_false]
      have h1 : MaxInternalHole (p :: b :: c :: rest') =
          max (b - p - 1) (MaxInternalHole (b :: c :: rest')) := rfl
      rw [h1]
      omega

/-- For a well-formed set of two or more registers `GetMaxHoleSize` is at most the internal
hole of the specification plus one; for a set of one register it is 0. -/
theorem GetMaxHoleSize_le_internal (g : RegisterSet) (hg : IsRegisterSet g) :
    GetMaxHoleSize g ≤ if g.length = 1 then 0 else MaxInternalHole g + 1 := by
  match g, hg with
  | [], hg => exact absurd rfl hg.1
  | [a], _ => simp [GetMaxHoleSize, holeStep]
  | a :: b :: rest, hg =>
    have h := foldl_holeStep_le_internal (b :: rest) 0 (toInt32 a) a (by
      have ha : a < u32 := hg.2.2 a (by simp)
      unfold u32 at ha
      simp only [toInt32, u32]
      rw [Nat.mod_eq_of_lt ha]
      split_ifs
      · exact Or.inr rfl
      · left
        omega) hg.2.1 (fun x hx => hg.2.2 x (by simp [hx]))
    have h2 : GetMaxHoleSize (a :: b :: rest) =
        ((b :: rest).foldl holeStep (0, toInt32 a)).1 := by
      simp [GetMaxHoleSize, holeStep]
    rw [h2]
    simp only [reduceCtorEq, if_false] at h
    simp only [List.length_cons]
    rw [if_neg (by omega)]
    omega

/-- A well-formed set that is a single register, or whose internal hole is below `maxHole`,
has `GetMaxHoleSize` within `maxHole`. -/
theorem GetMaxHoleSize_le_of_internal (g : RegisterSet) (hg : IsRegisterSet g) (maxHole : Nat)
    (h : g.length = 1 ∨ MaxInternalHole g < maxHole) : GetMaxHoleSize g ≤ maxHole := by
  have h1 := GetMaxHoleSize_le_internal g hg
  split_ifs at h1 with hl
  · omega
  · rcases h with h | h
    · exact absurd h hl
    · omega

/-! ## A merge shortens the list -/

theorem mergeStep_length {l l' : List RegisterSet} (h : MergeStep l l') :
    l'.length + 1 = l.length := by
  cases h <;> simp only [List.length_append, List.length_cons] <;> omega

theorem merges_length {l l' : List RegisterSet} (h : Merges l l') :
    l' = l ∨ l'.length < l.length := by
  induction h with
  | refl => exact Or.inl rfl
  | tail _ hstep ih =>
    have h1 := mergeStep_length hstep
    right
    rcases ih with rfl | ih
    · omega
    · omega

/-- On two sets that are near each other, with the span of their union within `maxRegs` and no
exclusive end wrapping, a `MergeSets` that succeeds returns one set, made of the registers of
both. -/
theorem MergeSets_pair_ok (A B : RegisterSet) (maxHole maxRegs : Nat)
    (hA : IsRegisterSet A) (hB : IsRegisterSet B)
    (hAend : lastOf A + 1 < u32) (hBend : lastOf B + 1 < u32)
    (hnear : SpansOverlap A B ∨ Gap A B ≤ maxHole) (hspan : CombinedSpan A B ≤ maxRegs)
    (out : List RegisterSet) (h : MergeSets [A, B] maxHole maxRegs = Except.ok out) :
    ∃ U, out = [U] ∧ ∀ r, r ∈ U ↔ r ∈ A ∨ r ∈ B := by
  have hm := MergeSets_merges [A, B] out maxHole maxRegs h
  have hne := MergeSets_ne_nil [A, B] out maxHole maxRegs h (by simp)
  have hsat := MergeSets_saturated [A, B] out maxHole maxRegs (by
    intro g hg
    simp only [List.mem_cons, List.mem_singleton, List.not_mem_nil, or_false] at hg
    rcases hg with rfl | rfl
    · exact ⟨hA, hAend⟩
    · exact ⟨hB, hBend⟩) h
  rcases merges_length hm with rfl | hlt
  · exfalso
    simp only [List.pairwise_cons, List.mem_singleton, forall_eq, List.not_mem_nil,
      false_implies, implies_true, List.Pairwise.nil, and_true] at hsat
    rcases hsat with ⟨h1, h2⟩ | h3
    · rcases hnear with h | h
      · exact h1 h
      · omega
    · omega
  · have hlen : out.length < 2 := by simpa using hlt
    cases out with
    | nil => exact absurd rfl hne
    | cons U tl =>
      cases tl with
      | nil =>
        refine ⟨U, rfl, ?_⟩
        intro r
        have := merges_registers hm r
        simpa using this
      | cons V tl' =>
        simp only [List.length_cons] at hlen
        omega

/-! ## Results with the hole as `GetMaxHoleSize` measures it -/

/-- A list of sets that pairwise do not overlap and lie farther than `maxHole` apart, each
with `GetMaxHoleSize` within `maxHole`, is returned by `MergeSets` unchanged: same sets, same
order, no merge, no exception. -/
theorem MergeSets_far_apart_unchanged (registerSets : List RegisterSet) (maxHole maxRegs : Nat)
    (hwf : ∀ g ∈ registerSets, IsRegisterSet g)
    (hfar : registerSets.Pairwise fun g h => ¬ SpansOverlap g h ∧ maxHole < Gap g h)
    (hhole : ∀ g ∈ registerSets, GetMaxHoleSize g ≤ maxHole)
    (_hspan : ∀ g ∈ registerSets, Span g ≤ maxRegs) :
    MergeSets registerSets maxHole maxRegs = Except.ok registerSets := by
  have h1 := runStage_noop EStage.HoleEliminate maxHole maxRegs registerSets.length []
    registerSets (Nat.le_refl _) (by simpa using hwf) (by simpa using hfar) (fun _ => hhole)
  have h2 := runStage_noop EStage.Merge maxHole maxRegs registerSets.length []
    registerSets (Nat.le_refl _) (by simpa using hwf) (by simpa using hfar)
    (fun h => by simp at h)
  simp only [List.nil_append] at h1 h2
  unfold MergeSets
  rw [h1]
  exact h2

theorem MergeSets_far_apart_unchanged_witness :
    MergeSets [[0], [1000]] 5 100 = Except.ok [[0], [1000]] :=
  MergeSets_far_apart_unchanged [[0], [1000]] 5 100 (by decide)
    (by simp [SpansOverlap, Gap, startOf, lastOf]) (by decide) (by decide)

/-- For two sets with every address below `2^32 - 1`, each with `GetMaxHoleSize` within
`maxHole`, that overlap in span or lie at distance at most `maxHole`, and whose combined span
is within `maxRegs`, `MergeSets` succeeds and returns exactly one set, whose registers are
those of the first or of the second set. -/
theorem MergeSets_pair_merged (A B : RegisterSet) (maxHole maxRegs : Nat)
    (hA : IsRegisterSet A) (hB : IsRegisterSet B)
    (hAtop : ∀ a ∈ A, a < u32 - 1) (hBtop : ∀ a ∈ B, a < u32 - 1)
    (hAhole : GetMaxHoleSize A ≤ maxHole) (hBhole : GetMaxHoleSize B ≤ maxHole)
    (hnear : SpansOverlap A B ∨ Gap A B ≤ maxHole) (hspan : CombinedSpan A B ≤ maxRegs) :
    ∃ U, MergeSets [A, B] maxHole maxRegs = Except.ok [U] ∧ ∀ r, r ∈ U ↔ r ∈ A ∨ r ∈ B := by
  have hAend : lastOf A + 1 < u32 := by
    have := hAtop _ (lastOf_mem hA.1)
    unfold u32 at this ⊢
    omega
  have hBend : lastOf B + 1 < u32 := by
    have := hBtop _ (lastOf_mem hB.1)
    unfold u32 at this ⊢
    omega
  refine ⟨insertRange B A,
    MergeSets_pair A B maxHole maxRegs hA hB hAend hBend hAhole hBhole hnear hspan, ?_⟩
  intro r
  rw [mem_insertRange]
  tauto

theorem MergeSets_pair_merged_witness :
    ∃ U, MergeSets [[0, 1, 2], [10, 11]] 20 100 = Except.ok [U] ∧
      ∀ r, r ∈ U ↔ r ∈ [0, 1, 2] ∨ r ∈ [10, 11] :=
  MergeSets_pair_merged [0, 1, 2] [10, 11] 20 100 (by decide) (by decide) (by decide)
    (by decide) (by decide) (by decide) (Or.inr (by decide)) (by decide)

/-- A set wider than `maxRegs` that stage `HoleEliminate` lets through makes stage `Merge`
throw: on the sets {0, 9} and {11} with `maxHole = 10` and `maxRegs = 5` stage `HoleEliminate`
completes and leaves the list as it is, and stage `Merge` then throws "max reg count
exceeded", because {11} lies within `maxHole` of {0, 9}, whose span is 10. -/
theorem stage_merge_throws :
    runStage EStage.HoleEliminate 10 5 [[0, 9], [11]].length [] [[0, 9], [11]] =
        Except.ok [[0, 9], [11]] ∧
      runStage EStage.Merge 10 5 [[0, 9], [11]].length [] [[0, 9], [11]] =
        Except.error MergeError.maxRegCountExceeded ∧
      MergeSets [[0, 9], [11]] 10 5 = Except.error MergeError.maxRegCountExceeded :=
  ⟨rfl, rfl, rfl⟩


/-! ## The claims -/

/-- Claim C1: whenever `MergeSets` succeeds, a register occurs in some output set exactly when
it occurs in some input set: no register is dropped and none is added. -/
theorem MergeSets_preserves_registers (registerSets out : List RegisterSet)
    (maxHole maxRegs : Nat) (h : MergeSets registerSets maxHole maxRegs = Except.ok out)
    (r : Nat) : (∃ g ∈ out, r ∈ g) ↔ (∃ g ∈ registerSets, r ∈ g) :=
  merges_registers (MergeSets_merges registerSets out maxHole maxRegs h) r

theorem MergeSets_preserves_registers_witness :
    MergeSets [[0, 1, 2], [10, 11], [500]] 20 100 = Except.ok [[0, 1, 2, 10, 11], [500]] ∧
      ((∃ g ∈ [[0, 1, 2, 10, 11], [500]], 10 ∈ g) ↔ (∃ g ∈ [[0, 1, 2], [10, 11], [500]], 10 ∈ g)) :=
  ⟨rfl, MergeSets_preserves_registers [[0, 1, 2], [10, 11], [500]] [[0, 1, 2, 10, 11], [500]]
    20 100 rfl 10⟩

/-- Claim C2: whenever `MergeSets` succeeds, the positions of the input list split into
non-empty blocks, each position in exactly one block, such that the output list is, set by
set and in order, the union of the input sets of one block; a block of a single input set
gives that set unmodified; and every input set is wholly contained in some output set. -/
theorem MergeSets_never_splits (registerSets out : List RegisterSet) (maxHole maxRegs : Nat)
    (h : MergeSets registerSets maxHole maxRegs = Except.ok out) :
    (∃ blocks : List (List Nat),
      blocks.flatten.Perm (List.range registerSets.length) ∧
      List.Forall₂ (fun block g =>
        block ≠ [] ∧ (∀ r, r ∈ g ↔ ∃ j ∈ block, r ∈ registerSets.getD j []) ∧
          ∀ j, block = [j] → g = registerSets.getD j []) blocks out) ∧
    ∀ g ∈ registerSets, ∃ o ∈ out, ∀ r ∈ g, r ∈ o :=
  have hp : PartitionedInto registerSets out :=
    merges_partitioned (MergeSets_merges registerSets out maxHole maxRegs h)
  ⟨hp, partitionedInto_contained hp⟩

theorem MergeSets_never_splits_witness :
    MergeSets [[0, 1, 2], [500], [10, 11]] 20 100 = Except.ok [[0, 1, 2, 10, 11], [500]] ∧
    ((∃ blocks : List (List Nat),
      blocks.flatten.Perm (List.range [[0, 1, 2], [500], [10, 11]].length) ∧
      List.Forall₂ (fun block g =>
        block ≠ [] ∧ (∀ r, r ∈ g ↔ ∃ j ∈ block, r ∈ [[0, 1, 2], [500], [10, 11]].getD j []) ∧
          ∀ j, block = [j] → g = [[0, 1, 2], [500], [10, 11]].getD j [])
        blocks [[0, 1, 2, 10, 11], [500]]) ∧
    ∀ g ∈ [[0, 1, 2], [500], [10, 11]], ∃ o ∈ [[0, 1, 2, 10, 11], [500]], ∀ r ∈ g, r ∈ o) :=
  ⟨rfl, MergeSets_never_splits [[0, 1, 2], [500], [10, 11]] [[0, 1, 2, 10, 11], [500]] 20 100
    rfl⟩

/-- Claim C3, evaluated where it fails: the single set {0, 9} with `maxHole = 10` and
`maxRegs = 5` is returned as it is, though its span is 10; the check `size > maxRegs` sits in
the loop over the other sets and is not reached when no other set is scanned. -/
theorem MergeSets_span_cap_exceeded :
    MergeSets [[0, 9]] 10 5 = Except.ok [[0, 9]] ∧ Span [0, 9] = 10 ∧ ¬ Span [0, 9] ≤ 5 := by
  refine ⟨rfl, rfl, by decide⟩

/-- Claim C4, evaluated where it fails: the sets {0} and {6} with `maxHole = 5` lie at
distance `6 - 1 = 5`, so stage `Merge` joins them, and `GetMaxHoleSize` of the result,
which is `6 - 0 = 6`, exceeds `maxHole`. -/
theorem MergeSets_hole_cap_exceeded :
    MergeSets [[0], [6]] 5 100 = Except.ok [[0, 6]] ∧ GetMaxHoleSize [0, 6] = 6 ∧
      ¬ GetMaxHoleSize [0, 6] ≤ 5 := by
  refine ⟨rfl, rfl, by decide⟩

/-- Claim C5, evaluated where it fails: the single set {0, …, 7} has span 8, above
`maxRegs = 4`, and `MergeSets` returns it without an exception; with a second set that
overlaps it the same set does raise "max reg count exceeded". -/
theorem MergeSets_oversize_single_set_accepted :
    MergeSets [[0, 1, 2, 3, 4, 5, 6, 7]] 1 4 = Except.ok [[0, 1, 2, 3, 4, 5, 6, 7]] ∧
      4 < Span [0, 1, 2, 3, 4, 5, 6, 7] ∧
      MergeSets [[0, 1, 2, 3, 4, 5, 6, 7], [3]] 1 4 =
        Except.error MergeError.maxRegCountExceeded := by
  refine ⟨rfl, by decide, rfl⟩

/-- Claim C6: when the input list holds a set whose hole (`GetMaxHoleSize`) exceeds `maxHole`
and whose span no other input set overlaps, `MergeSets` throws one of its two exceptions and
returns no list; when that set is the only one, the exception is "max hole count exceeded",
whatever `maxRegs` is. -/
theorem MergeSets_unmergeable_hole (l₁ : List RegisterSet) (G : RegisterSet)
    (l₂ : List RegisterSet) (maxHole maxRegs : Nat)
    (hwf : ∀ g ∈ l₁ ++ G :: l₂, IsRegisterSet g) (hhole : maxHole < GetMaxHoleSize G)
    (hclear : ∀ h ∈ l₁ ++ l₂, ¬ SpansOverlap h G) :
    (MergeSets (l₁ ++ G :: l₂) maxHole maxRegs = Except.error MergeError.maxRegCountExceeded ∨
      MergeSets (l₁ ++ G :: l₂) maxHole maxRegs = Except.error MergeError.maxHoleCountExceeded) ∧
    ∀ maxRegs', MergeSets [G] maxHole maxRegs' = Except.error MergeError.maxHoleCountExceeded := by
  constructor
  · have hG : IsRegisterSet G := hwf G (by simp)
    obtain ⟨e, he, hne⟩ := runStage_unmergeable maxHole maxRegs G hG hhole
      (l₁ ++ G :: l₂).length [] (l₁ ++ G :: l₂) (Nat.le_refl _) (by simpa using hwf)
      (by
        intro h hm
        simp only [List.nil_append, List.mem_append, List.mem_cons] at hm
        rcases hm with hm | rfl | hm
        · exact Or.inr (hclear h (by simp [hm]))
        · exact Or.inl rfl
        · exact Or.inr (hclear h (by simp [hm])))
      (by simp)
    unfold MergeSets
    rw [he]
    cases e with
    | maxRegCountExceeded => exact Or.inl rfl
    | maxHoleCountExceeded => exact Or.inr rfl
    | fuelExhausted => exact absurd rfl hne
  · intro maxRegs'
    simp [MergeSets, runStage, processSet, collectCandidates, findHoleDecrease, hhole]

theorem MergeSets_unmergeable_hole_witness :
    (MergeSets ([[100, 101]] ++ [0, 1, 2, 3, 4, 50] :: [[200]]) 2 100 =
        Except.error MergeError.maxRegCountExceeded ∨
      MergeSets ([[100, 101]] ++ [0, 1, 2, 3, 4, 50] :: [[200]]) 2 100 =
        Except.error MergeError.maxHoleCountExceeded) ∧
    ∀ maxRegs', MergeSets [[0, 1, 2, 3, 4, 50]] 2 maxRegs' =
      Except.error MergeError.maxHoleCountExceeded :=
  MergeSets_unmergeable_hole [[100, 101]] [0, 1, 2, 3, 4, 50] [[200]] 2 100 (by decide)
    (by decide) (by decide)

/-- Claim C7, evaluated where it fails: the sets {0, 1} and {1000} do not overlap, lie 998
addresses apart, skip no address inside (internal hole 0) and have spans 2 and 1, yet
`MergeSets` with `maxHole = 0` and `maxRegs = 100` throws "max hole count exceeded" instead of
returning them unchanged, because `GetMaxHoleSize` gives 1 for {0, 1}. In the same way {0, 6}
(internal hole 5) and {1000} are rejected with `maxHole = 5`. -/
theorem MergeSets_far_apart_rejected :
    (∀ g ∈ [[0, 1], [1000]], IsRegisterSet g ∧ MaxInternalHole g ≤ 0 ∧ Span g ≤ 100) ∧
      [[0, 1], [1000]].Pairwise (fun g h => ¬ SpansOverlap g h ∧ 0 < Gap g h) ∧
      GetMaxHoleSize [0, 1] = 1 ∧
      MergeSets [[0, 1], [1000]] 0 100 = Except.error MergeError.maxHoleCountExceeded ∧
      (∀ g ∈ [[0, 6], [1000]], IsRegisterSet g ∧ MaxInternalHole g ≤ 5 ∧ Span g ≤ 100) ∧
      [[0, 6], [1000]].Pairwise (fun g h => ¬ SpansOverlap g h ∧ 5 < Gap g h) ∧
      GetMaxHoleSize [0, 6] = 6 ∧
      MergeSets [[0, 6], [1000]] 5 100 = Except.error MergeError.maxHoleCountExceeded :=
  ⟨by decide, by decide, by decide, rfl, by decide, by decide, by decide, rfl⟩

/-- Claim C8, evaluated where it fails: the sets {4294967294} and {4294967295} are adjacent
(distance 0, combined span 2), each has hole 0, yet `MergeSets` with `maxHole = 5` and
`maxRegs = 100` returns both, unmerged: the exclusive end `4294967295 + 1` of the second set
wraps to 0 in `uint32_t`. -/
theorem MergeSets_pair_top_address_unmerged :
    IsRegisterSet [4294967294] ∧ IsRegisterSet [4294967295] ∧
      MaxInternalHole [4294967294] ≤ 5 ∧ MaxInternalHole [4294967295] ≤ 5 ∧
      GetMaxHoleSize [4294967294] ≤ 5 ∧ GetMaxHoleSize [4294967295] ≤ 5 ∧
      Gap [4294967294] [4294967295] ≤ 5 ∧ CombinedSpan [4294967294] [4294967295] ≤ 100 ∧
      MergeSets [[4294967294], [4294967295]] 5 100 =
        Except.ok [[4294967294], [4294967295]] ∧
      MergeSets [[4294967294], [4294967295]] 5 100 ≠
        Except.ok [insertRange [4294967295] [4294967294]] := by
  refine ⟨by decide, by decide, by decide, by decide, by decide, by decide, by decide,
    by decide, rfl, ?_⟩
  intro h
  have h' : MergeSets [[4294967294], [4294967295]] 5 100 =
      Except.ok [[4294967294], [4294967295]] := rfl
  rw [h'] at h
  simp [insertRange, insertReg] at h

/-- Claim C8, amended: for two sets with every address below `2^32 - 1` that overlap in span
or lie at distance at most `maxHole`, and whose combined span is within `maxRegs`: whenever
`MergeSets` succeeds it returns exactly one set, whose registers are those of the first or of
the second set; and it does succeed when each set is a single register or has an internal
hole (addresses skipped between neighbouring registers) below `maxHole`. -/
theorem MergeSets_pair_union (A B : RegisterSet) (maxHole maxRegs : Nat)
    (hA : IsRegisterSet A) (hB : IsRegisterSet B)
    (hAtop : ∀ a ∈ A, a < u32 - 1) (hBtop : ∀ a ∈ B, a < u32 - 1)
    (hnear : SpansOverlap A B ∨ Gap A B ≤ maxHole) (hspan : CombinedSpan A B ≤ maxRegs) :
    (∀ out, MergeSets [A, B] maxHole maxRegs = Except.ok out →
      ∃ U, out = [U] ∧ ∀ r, r ∈ U ↔ r ∈ A ∨ r ∈ B) ∧
    (A.length = 1 ∨ MaxInternalHole A < maxHole →
      B.length = 1 ∨ MaxInternalHole B < maxHole →
      ∃ U, MergeSets [A, B] maxHole maxRegs = Except.ok [U] ∧ ∀ r, r ∈ U ↔ r ∈ A ∨ r ∈ B) := by
  have hAend : lastOf A + 1 < u32 := by
    have := hAtop _ (lastOf_mem hA.1)
    unfold u32 at this ⊢
    omega
  have hBend : lastOf B + 1 < u32 := by
    have := hBtop _ (lastOf_mem hB.1)
    unfold u32 at this ⊢
    omega
  constructor
  · intro out h
    exact MergeSets_pair_ok A B maxHole maxRegs hA hB hAend hBend hnear hspan out h
  · intro hAhole hBhole
    refine ⟨insertRange B A,
      MergeSets_pair A B maxHole maxRegs hA hB hAend hBend
        (GetMaxHoleSize_le_of_internal A hA maxHole hAhole)
        (GetMaxHoleSize_le_of_internal B hB maxHole hBhole) hnear hspan, ?_⟩
    intro r
    rw [mem_insertRange]
    tauto

theorem MergeSets_pair_union_witness :
    ∃ U, MergeSets [[0, 1, 2], [10, 11]] 20 100 = Except.ok [U] ∧
      ∀ r, r ∈ U ↔ r ∈ [0, 1, 2] ∨ r ∈ [10, 11] :=
  (MergeSets_pair_union [0, 1, 2] [10, 11] 20 100 (by decide) (by decide) (by decide)
    (by decide) (Or.inr (by decide)) (by decide)).2 (Or.inr (by decide)) (Or.inr (by decide))

/-- Claim C9: the caps `GenerateQueries` passes to `MergeSets` are the hole cap and the span
cap of the specification, converted to `uint32_t`; they depend on nothing but `enableHoles`,
the operation, the register class, the device config and the protocol limits. The hole cap is
0 when holes are disabled; the span cap never exceeds the protocol's own maximum for the
operation and class, and a device override that is not positive or exceeds the protocol's
maximum is ignored. -/
theorem GenerateQueries_caps (registerSets : List RegisterSet) (singleBitType : Bool)
    (deviceConfig : TDeviceConfig) (protocolInfo : TProtocolInfo) (enableHoles : Bool)
    (operation : EQueryOperation) :
    GenerateQueries registerSets singleBitType deviceConfig protocolInfo enableHoles operation =
      (match MergeSets registerSets (ofInt32 (specMaxHole enableHoles singleBitType deviceConfig))
          (ofInt32 (specMaxSpan operation singleBitType deviceConfig protocolInfo)) with
        | Except.error e => Except.error e
        | Except.ok merged =>
          Except.ok (merged.map fun registerSet =>
            Query.mk (addQuery (IsReadOperation operation) singleBitType) registerSet)) ∧
    maxHoleOf enableHoles singleBitType deviceConfig =
      specMaxHole enableHoles singleBitType deviceConfig ∧
    maxRegsOf (IsReadOperation operation) singleBitType deviceConfig protocolInfo =
      specMaxSpan operation singleBitType deviceConfig protocolInfo ∧
    (enableHoles = false → ofInt32 (maxHoleOf enableHoles singleBitType deviceConfig) = 0) ∧
    maxRegsOf (IsReadOperation operation) singleBitType deviceConfig protocolInfo ≤
      protocolCap operation singleBitType protocolInfo ∧
    (protocolCap operation singleBitType protocolInfo < 2147483648 →
      ofInt32 (maxRegsOf (IsReadOperation operation) singleBitType deviceConfig protocolInfo) ≤
        ofInt32 (protocolCap operation singleBitType protocolInfo)) ∧
    (deviceConfig.MaxReadRegisters ≤ 0 ∨
        protocolCap operation singleBitType protocolInfo < deviceConfig.MaxReadRegisters →
      maxRegsOf (IsReadOperation operation) singleBitType deviceConfig protocolInfo =
        protocolCap operation singleBitType protocolInfo) := by
  have hH : maxHoleOf enableHoles singleBitType deviceConfig =
      specMaxHole enableHoles singleBitType deviceConfig := by
    cases enableHoles <;> cases singleBitType <;> rfl
  have hR : maxRegsOf (IsReadOperation operation) singleBitType deviceConfig protocolInfo =
      specMaxSpan operation singleBitType deviceConfig protocolInfo := by
    cases operation <;> cases singleBitType <;>
      simp [maxRegsOf, specMaxSpan, IsReadOperation, protocolCap]
  refine ⟨?_, hH, hR, ?_, ?_, ?_, ?_⟩
  · unfold GenerateQueries
    simp only [hH, hR]
  · intro h
    subst h
    simp [maxHoleOf, ofInt32]
  · cases operation <;> cases singleBitType
    all_goals
      simp only [maxRegsOf, IsReadOperation, protocolCap, if_true, if_false,
        Bool.false_eq_true]
    all_goals
      first
        | exact Int.le_refl _
        | (split_ifs with h
           · exact h.2
           · exact Int.le_refl _)
  · intro hcap
    cases operation <;> cases singleBitType
    all_goals
      simp only [maxRegsOf, IsReadOperation, protocolCap, if_true, if_false,
        Bool.false_eq_true] at hcap ⊢
    all_goals
      first
        | exact Nat.le_refl _
        | (split_ifs with h
           · unfold ofInt32
             omega
           · exact Nat.le_refl _)
  · intro h
    cases operation <;> cases singleBitType
    all_goals
      simp only [maxRegsOf, IsReadOperation, protocolCap, if_true, if_false,
        Bool.false_eq_true] at h ⊢
    all_goals
      first
        | rfl
        | (split_ifs with h'
           · omega
           · rfl)

theorem GenerateQueries_caps_witness :
    maxRegsOf (IsReadOperation EQueryOperation.Read) false
        { MaxBitHole := 0, MaxRegHole := 20, MaxReadRegisters := 200 }
        { GetMaxReadBits := 2000, GetMaxReadRegisters := 125, GetMaxWriteBits := 1968,
          GetMaxWriteRegisters := 123 } = 125 ∧
      ofInt32 (maxHoleOf false false
        { MaxBitHole := 0, MaxRegHole := 20, MaxReadRegisters := 200 }) = 0 := by
  have h := GenerateQueries_caps [[0]] false
    { MaxBitHole := 0, MaxRegHole := 20, MaxReadRegisters := 200 }
    { GetMaxReadBits := 2000, GetMaxReadRegisters := 125, GetMaxWriteBits := 1968,
      GetMaxWriteRegisters := 123 } false EQueryOperation.Read
  exact ⟨h.2.2.2.2.2.2 (Or.inr (by decide)), h.2.2.2.1 rfl⟩

/-- Claim C10: `GenerateQueries` builds, for each set that `MergeSets` returns and in that
order, one query of the variant that the operation and the register class alone determine:
`TIRDeviceQuery` (the generic read query) for a read of bit or of word registers,
`TIRDeviceSingleBitQuery` for a write of single-bit registers, `TIRDevice64BitQuery` (the block
write query) for a write of word registers. Every query of one call has that same variant, and
no query is built when `MergeSets` throws. -/
theorem GenerateQueries_variant (registerSets : List RegisterSet) (singleBitType : Bool)
    (deviceConfig : TDeviceConfig) (protocolInfo : TProtocolInfo) (enableHoles : Bool)
    (operation : EQueryOperation) :
    GenerateQueries registerSets singleBitType deviceConfig protocolInfo enableHoles operation =
      (match MergeSets registerSets (ofInt32 (maxHoleOf enableHoles singleBitType deviceConfig))
          (ofInt32 (maxRegsOf (IsReadOperation operation) singleBitType deviceConfig
            protocolInfo)) with
        | Except.error e => Except.error e
        | Except.ok merged =>
          Except.ok (merged.map fun registerSet =>
            Query.mk (specVariant operation singleBitType) registerSet)) ∧
    (∀ queries,
      GenerateQueries registerSets singleBitType deviceConfig protocolInfo enableHoles
        operation = Except.ok queries →
      ∀ q ∈ queries, q.variant = specVariant operation singleBitType) ∧
    addQuery (IsReadOperation operation) singleBitType = specVariant operation singleBitType ∧
    specVariant EQueryOperation.Read true = QueryVariant.TIRDeviceQuery ∧
    specVariant EQueryOperation.Read false = QueryVariant.TIRDeviceQuery ∧
    specVariant EQueryOperation.Write true = QueryVariant.TIRDeviceSingleBitQuery ∧
    specVariant EQueryOperation.Write false = QueryVariant.TIRDevice64BitQuery := by
  have hv : addQuery (IsReadOperation operation) singleBitType =
      specVariant operation singleBitType := by
    cases operation <;> cases singleBitType <;> rfl
  have heq : GenerateQueries registerSets singleBitType deviceConfig protocolInfo enableHoles
      operation =
      (match MergeSets registerSets (ofInt32 (maxHoleOf enableHoles singleBitType deviceConfig))
          (ofInt32 (maxRegsOf (IsReadOperation operation) singleBitType deviceConfig
            protocolInfo)) with
        | Except.error e => Except.error e
        | Except.ok merged =>
          Except.ok (merged.map fun registerSet =>
            Query.mk (specVariant operation singleBitType) registerSet)) := by
    unfold GenerateQueries
    simp only [hv]
  refine ⟨heq, ?_, hv, rfl, rfl, rfl, rfl⟩
  intro queries h
  rw [heq] at h
  split at h
  · simp at h
  · simp only [Except.ok.injEq] at h
    subst h
    intro q hq
    obtain ⟨s, _, rfl⟩ := List.mem_map.1 hq
    rfl

theorem GenerateQueries_variant_witness :
    GenerateQueries [[0, 1, 2], [10, 11], [500]] false
        { MaxBitHole := 0, MaxRegHole := 20, MaxReadRegisters := 0 }
        { GetMaxReadBits := 2000, GetMaxReadRegisters := 125, GetMaxWriteBits := 1968,
          GetMaxWriteRegisters := 123 } true EQueryOperation.Write =
        Except.ok [Query.mk QueryVariant.TIRDevice64BitQuery [0, 1, 2, 10, 11],
          Query.mk QueryVariant.TIRDevice64BitQuery [500]] ∧
      GenerateQueries [[0, 1, 2], [10, 11], [500]] false
        { MaxBitHole := 0, MaxRegHole := 20, MaxReadRegisters := 0 }
        { GetMaxReadBits := 2000, GetMaxReadRegisters := 125, GetMaxWriteBits := 1968,
          GetMaxWriteRegisters := 123 } true EQueryOperation.Read =
        Except.ok [Query.mk QueryVariant.TIRDeviceQuery [0, 1, 2, 10, 11],
          Query.mk QueryVariant.TIRDeviceQuery [500]] ∧
      GenerateQueries [[0], [1], [500]] true
        { MaxBitHole := 0, MaxRegHole := 20, MaxReadRegisters := 0 }
        { GetMaxReadBits := 2000, GetMaxReadRegisters := 125, GetMaxWriteBits := 1968,
          GetMaxWriteRegisters := 123 } true EQueryOperation.Write =
        Except.ok [Query.mk QueryVariant.TIRDeviceSingleBitQuery [0, 1],
          Query.mk QueryVariant.TIRDeviceSingleBitQuery [500]] :=
  ⟨(GenerateQueries_variant [[0, 1, 2], [10, 11], [500]] false
      { MaxBitHole := 0, MaxRegHole := 20, MaxReadRegisters := 0 }
      { GetMaxReadBits := 2000, GetMaxReadRegisters := 125, GetMaxWriteBits := 1968,
        GetMaxWriteRegisters := 123 } true EQueryOperation.Write).1.trans rfl,
    (GenerateQueries_variant [[0, 1, 2], [10, 11], [500]] false
      { MaxBitHole := 0, MaxRegHole := 20, MaxReadRegisters := 0 }
      { GetMaxReadBits := 2000, GetMaxReadRegisters := 125, GetMaxWriteBits := 1968,
        GetMaxWriteRegisters := 123 } true EQueryOperation.Read).1.trans rfl,
    (GenerateQueries_variant [[0], [1], [500]] true
      { MaxBitHole := 0, MaxRegHole := 20, MaxReadRegisters := 0 }
      { GetMaxReadBits := 2000, GetMaxReadRegisters := 125, GetMaxWriteBits := 1968,
        GetMaxWriteRegisters := 123 } true EQueryOperation.Write).1.trans rfl⟩

/-- Claim C11: whenever `GenerateQueries` succeeds on a non-empty list of non-empty sets,
`MergeSets` has succeeded on those sets with the caps of the call, the result holds one query
for each set `MergeSets` returned, in order, each carrying that whole set, and the result is
not empty, because `MergeSets` does not return an empty list for a non-empty one. -/
theorem GenerateQueries_one_query_per_set (registerSets : List RegisterSet)
    (singleBitType : Bool) (deviceConfig : TDeviceConfig) (protocolInfo : TProtocolInfo)
    (enableHoles : Bool) (operation : EQueryOperation) (queries : List Query)
    (hne : registerSets ≠ []) (_hsets : ∀ g ∈ registerSets, g ≠ [])
    (h : GenerateQueries registerSets singleBitType deviceConfig protocolInfo enableHoles
      operation = Except.ok queries) :
    ∃ merged,
      MergeSets registerSets (ofInt32 (maxHoleOf enableHoles singleBitType deviceConfig))
        (ofInt32 (maxRegsOf (IsReadOperation operation) singleBitType deviceConfig
          protocolInfo)) = Except.ok merged ∧
      queries.map Query.registerSet = merged ∧ queries.length = merged.length ∧
      queries ≠ [] := by
  unfold GenerateQueries at h
  simp only at h
  split at h
  · simp at h
  · rename_i merged hm
    simp only [Except.ok.injEq] at h
    subst h
    have hmne := MergeSets_ne_nil registerSets merged _ _ hm hne
    refine ⟨merged, hm, ?_, by simp, by simpa using hmne⟩
    simp [List.map_map, Function.comp_def]

theorem GenerateQueries_one_query_per_set_witness :
    ∃ merged,
      MergeSets [[0, 1, 2], [10, 11], [500]]
        (ofInt32 (maxHoleOf true false
          { MaxBitHole := 0, MaxRegHole := 20, MaxReadRegisters := 0 }))
        (ofInt32 (maxRegsOf (IsReadOperation EQueryOperation.Read) false
          { MaxBitHole := 0, MaxRegHole := 20, MaxReadRegisters := 0 }
          { GetMaxReadBits := 2000, GetMaxReadRegisters := 125, GetMaxWriteBits := 1968,
            GetMaxWriteRegisters := 123 })) = Except.ok merged ∧
      [Query.mk QueryVariant.TIRDeviceQuery [0, 1, 2, 10, 11],
        Query.mk QueryVariant.TIRDeviceQuery [500]].map Query.registerSet = merged ∧
      [Query.mk QueryVariant.TIRDeviceQuery [0, 1, 2, 10, 11],
        Query.mk QueryVariant.TIRDeviceQuery [500]].length = merged.length ∧
      [Query.mk QueryVariant.TIRDeviceQuery [0, 1, 2, 10, 11],
        Query.mk QueryVariant.TIRDeviceQuery [500]] ≠ [] :=
  GenerateQueries_one_query_per_set [[0, 1, 2], [10, 11], [500]] false
    { MaxBitHole := 0, MaxRegHole := 20, MaxReadRegisters := 0 }
    { GetMaxReadBits := 2000, GetMaxReadRegisters := 125, GetMaxWriteBits := 1968,
      GetMaxWriteRegisters := 123 } true EQueryOperation.Read
    [Query.mk QueryVariant.TIRDeviceQuery [0, 1, 2, 10, 11],
      Query.mk QueryVariant.TIRDeviceQuery [500]]
    (by decide) (by decide) rfl

/-- Claim C12: whenever stage `HoleEliminate` of `MergeSets` completes without exception,
every set then in the list has a hole (`GetMaxHoleSize`) within `maxHole`. -/
theorem stage_holeEliminate_holes_within_cap (registerSets afterHoles : List RegisterSet)
    (maxHole maxRegs : Nat)
    (h : runStage EStage.HoleEliminate maxHole maxRegs registerSets.length [] registerSets =
      Except.ok afterHoles) :
    ∀ g ∈ afterHoles, GetMaxHoleSize g ≤ maxHole :=
  runStage_holeEliminate_holes maxHole maxRegs registerSets.length [] registerSets afterHoles
    (Nat.le_refl _) (fun _ hg => by simp at hg) h

theorem stage_holeEliminate_holes_within_cap_witness :
    runStage EStage.HoleEliminate 5 100 [[0, 10], [5], [20]].length [] [[0, 10], [5], [20]] =
        Except.ok [[0, 5, 10], [20]] ∧
      ∀ g ∈ [[0, 5, 10], [20]], GetMaxHoleSize g ≤ 5 :=
  ⟨rfl, stage_holeEliminate_holes_within_cap [[0, 10], [5], [20]] [[0, 5, 10], [20]] 5 100 rfl⟩

/-- Claim C13, evaluated where it fails: on the sets {4294967295}, {10} and {20}, each of span
1, with `maxHole = 4294967295` and `maxRegs = 100`, stage `HoleEliminate` completes and leaves
the list as it is, and stage `Merge` then throws "max reg count exceeded": the exclusive end
`4294967295 + 1` wraps to 0 in `uint32_t`, so {4294967295} absorbs {10} with a merged size
computed as 1, and the size of the set {10, 4294967295}, computed as `0 - 10` in `uint32_t`,
is above `maxRegs` in the next pass. -/
theorem stage_merge_throws_at_top_address :
    (∀ g ∈ [[4294967295], [10], [20]], IsRegisterSet g ∧ Span g ≤ 100) ∧
      runStage EStage.HoleEliminate 4294967295 100 [[4294967295], [10], [20]].length []
          [[4294967295], [10], [20]] = Except.ok [[4294967295], [10], [20]] ∧
      runStage EStage.Merge 4294967295 100 [[4294967295], [10], [20]].length []
          [[4294967295], [10], [20]] = Except.error MergeError.maxRegCountExceeded ∧
      MergeSets [[4294967295], [10], [20]] 4294967295 100 =
        Except.error MergeError.maxRegCountExceeded :=
  ⟨by decide, rfl, rfl, rfl⟩

/-- Claim C13, amended: stage `Merge` throws nothing but "max reg count exceeded", and on a
list of well-formed sets with every address below `2^32 - 1` and every span within `maxRegs`
it completes and returns a list. -/
theorem stage_merge_completes (registerSets : List RegisterSet) (maxHole maxRegs : Nat) :
    (∀ e, runStage EStage.Merge maxHole maxRegs registerSets.length [] registerSets =
        Except.error e → e = MergeError.maxRegCountExceeded) ∧
    ((∀ g ∈ registerSets, IsRegisterSet g ∧ (∀ a ∈ g, a < u32 - 1) ∧ Span g ≤ maxRegs) →
      ∃ out, runStage EStage.Merge maxHole maxRegs registerSets.length [] registerSets =
        Except.ok out) := by
  constructor
  · intro e he
    have h1 := runStage_merge_error maxHole maxRegs _ _ _ e he
    have h2 : e ≠ MergeError.fuelExhausted := by
      intro h
      subst h
      exact runStage_ne_fuelExhausted _ _ _ _ _ _ (Nat.le_refl _) he
    cases e with
    | maxRegCountExceeded => rfl
    | maxHoleCountExceeded => exact absurd rfl h1
    | fuelExhausted => exact absurd rfl h2
  · intro hall
    refine runStage_merge_ok maxHole maxRegs registerSets.length [] registerSets
      (Nat.le_refl _) ?_
    intro g hg
    obtain ⟨h1, h2, h3⟩ := hall g (by simpa using hg)
    refine ⟨h1, ?_, h3⟩
    have := h2 _ (lastOf_mem h1.1)
    unfold u32 at this ⊢
    omega

theorem stage_merge_completes_witness :
    ∃ out, runStage EStage.Merge 5 100 [[0, 1, 2], [100], [4]].length [] [[0, 1, 2], [100], [4]] =
      Except.ok out :=
  (stage_merge_completes [[0, 1, 2], [100], [4]] 5 100).2 (by decide)

/-- Claim C14, evaluated where it fails: the sets {4294967295} and {0}, each of span 1, with
`maxHole = 4294967295` and `maxRegs = 100` are merged into {0, 4294967295}, of span `2^32`:
the exclusive end of the first set wraps to 0, and the source then computes a distance of
4294967295 and a merged size of 1. -/
theorem MergeSets_merge_wider_than_cap :
    Span [4294967295] ≤ 100 ∧ Span [0] ≤ 100 ∧
      MergeSets [[4294967295], [0]] 4294967295 100 = Except.ok [[0, 4294967295]] ∧
      Span [0, 4294967295] = 4294967296 ∧ ¬ Span [0, 4294967295] ≤ 100 :=
  ⟨by decide, by decide, rfl, rfl, by decide⟩

/-- Claim C14, amended: if every input set is well-formed, has every address below `2^32 - 1`
and has span within `maxRegs`, then whenever `MergeSets` succeeds every output set has span
within `maxRegs`. -/
theorem MergeSets_span_within_cap (registerSets out : List RegisterSet) (maxHole maxRegs : Nat)
    (hwf : ∀ g ∈ registerSets, IsRegisterSet g ∧ (∀ a ∈ g, a < u32 - 1))
    (hspan : ∀ g ∈ registerSets, Span g ≤ maxRegs)
    (h : MergeSets registerSets maxHole maxRegs = Except.ok out) :
    ∀ o ∈ out, Span o ≤ maxRegs := by
  have hall := MergeSets_forall maxHole maxRegs
    (fun g => IsRegisterSet g ∧ lastOf g + 1 < u32 ∧ Span g ≤ maxRegs)
    (by
      intro stage cur y sf sz hc hy hscan
      have hspec := scanOther_candidate_spec hc.1 hy.1 hc.2.1 hy.2.1 hscan
      have hb := belowTop_insertRange ⟨hc.1, hc.2.1⟩ ⟨hy.1, hy.2.1⟩
      refine ⟨hb.1, hb.2, ?_⟩
      rw [Span_insertRange hc.1 hy.1]
      exact hspec.2.1)
    registerSets out
    (by
      intro g hg
      obtain ⟨h1, h2⟩ := hwf g hg
      refine ⟨h1, ?_, hspan g hg⟩
      have := h2 _ (lastOf_mem h1.1)
      unfold u32 at this ⊢
      omega)
    h
  exact fun o ho => (hall o ho).2.2

theorem MergeSets_span_within_cap_witness :
    MergeSets [[0, 1, 2], [20, 21], [4], [10, 11]] 5 100 =
        Except.ok [[0, 1, 2, 4, 10, 11], [20, 21]] ∧
      ∀ o ∈ [[0, 1, 2, 4, 10, 11], [20, 21]], Span o ≤ 100 :=
  ⟨rfl, MergeSets_span_within_cap [[0, 1, 2], [20, 21], [4], [10, 11]]
    [[0, 1, 2, 4, 10, 11], [20, 21]] 5 100 (by decide) (by decide) rfl⟩

/-- Claim C15, evaluated where it fails: `MergeSets` with `maxHole = 5` and `maxRegs = 100`
returns the sets {4294967293} and {4294967295} unmerged, though they lie at distance 1 and
their combined span is 3: the exclusive end of the second set wraps to 0. -/
theorem MergeSets_output_not_saturated :
    MergeSets [[4294967293], [4294967295]] 5 100 =
        Except.ok [[4294967293], [4294967295]] ∧
      Gap [4294967293] [4294967295] = 1 ∧ CombinedSpan [4294967293] [4294967295] = 3 ∧
      ¬ ((¬ SpansOverlap [4294967293] [4294967295] ∧ 5 < Gap [4294967293] [4294967295]) ∨
        100 < CombinedSpan [4294967293] [4294967295]) :=
  ⟨rfl, rfl, rfl, by decide⟩

/-- Claim C15, amended: when every input set is well-formed with every address below
`2^32 - 1` and `MergeSets` succeeds, any two sets of the output either have spans that do not
overlap and lie farther than `maxHole` apart, or have a combined span above `maxRegs`; two
output sets share a register only if their combined span is above `maxRegs`. -/
theorem MergeSets_output_saturated (registerSets out : List RegisterSet)
    (maxHole maxRegs : Nat)
    (hwf : ∀ g ∈ registerSets, IsRegisterSet g ∧ (∀ a ∈ g, a < u32 - 1))
    (h : MergeSets registerSets maxHole maxRegs = Except.ok out) :
    (out.Pairwise fun a b =>
      (¬ SpansOverlap a b ∧ maxHole < Gap a b) ∨ maxRegs < CombinedSpan a b) ∧
    (out.Pairwise fun a b => ∀ r, r ∈ a → r ∈ b → maxRegs < CombinedSpan a b) := by
  have hwf' : ∀ g ∈ registerSets, IsRegisterSet g ∧ lastOf g + 1 < u32 := by
    intro g hg
    obtain ⟨h1, h2⟩ := hwf g hg
    refine ⟨h1, ?_⟩
    have := h2 _ (lastOf_mem h1.1)
    unfold u32 at this ⊢
    omega
  have hsat := MergeSets_saturated registerSets out maxHole maxRegs hwf' h
  have hout := MergeSets_forall maxHole maxRegs
    (fun g => IsRegisterSet g ∧ lastOf g + 1 < u32)
    (fun _ _ _ _ _ hc hy _ => belowTop_insertRange hc hy) registerSets out hwf' h
  refine ⟨hsat, hsat.imp_of_mem ?_⟩
  intro a b ha hb hab r hra hrb
  rcases hab with ⟨hno, _⟩ | hc
  · exact absurd (spansOverlap_of_common (hout a ha).1 (hout b hb).1 hra hrb) hno
  · exact hc

theorem MergeSets_output_saturated_witness :
    MergeSets [[0, 1, 2], [20, 21], [4], [10, 11]] 5 100 =
        Except.ok [[0, 1, 2, 4, 10, 11], [20, 21]] ∧
      ([[0, 1, 2, 4, 10, 11], [20, 21]].Pairwise fun a b =>
        (¬ SpansOverlap a b ∧ 5 < Gap a b) ∨ 100 < CombinedSpan a b) ∧
      ([[0, 1, 2, 4, 10, 11], [20, 21]].Pairwise fun a b =>
        ∀ r, r ∈ a → r ∈ b → 100 < CombinedSpan a b) :=
  ⟨rfl, MergeSets_output_saturated [[0, 1, 2], [20, 21], [4], [10, 11]]
    [[0, 1, 2, 4, 10, 11], [20, 21]] 5 100 (by decide) rfl⟩

/-- Claim C16, evaluated where it fails. In stage `HoleEliminate` with `maxHole = 10` the
current set {0, 5} has hole 5; the set {3} qualifies and its merge would make the hole 3, yet
the pass absorbs nothing, because candidates are tried only while the hole exceeds `maxHole`.
In stage `Merge` with `maxHole = 5` the set {4294967295} qualifies for the current set
{4294967294}, yet the pass absorbs nothing, because its exclusive end wraps to 0. -/
theorem processSet_qualifying_not_absorbed :
    (Qualifies EStage.HoleEliminate 10 100 [0, 5] [3] ∧
      GetMaxHoleSize (insertRange [3] [0, 5]) < GetMaxHoleSize [0, 5] ∧
      processSet EStage.HoleEliminate 10 100 2 [] [0, 5] [[3]] (GetMaxHoleSize [0, 5]) =
        Except.ok ([], [0, 5], [[3]])) ∧
    (Qualifies EStage.Merge 5 100 [4294967294] [4294967295] ∧
      processSet EStage.Merge 5 100 2 [] [4294967294] [[4294967295]] 0 =
        Except.ok ([], [4294967294], [[4294967295]])) :=
  ⟨⟨by decide, by decide, rfl⟩, by decide, rfl⟩

/-- Claim C16, amended: for well-formed sets with every address below `2^32 - 1`. In a pass of
stage `Merge` in which the other set at position `k` qualifies (it overlaps the current set or
lies within `maxHole` of it, and the combined span is within `maxRegs`) and has the least key
among the qualifying sets (sorting factor = combined span − larger of the two spans, then own
span, then position in the list), that set is absorbed and the loop goes on. In a pass of
stage `HoleEliminate` for a current set whose hole exceeds `maxHole`, the set absorbed is the
one with the least key among the qualifying sets whose merge makes the hole smaller. -/
theorem processSet_absorbs_least (maxHole maxRegs fuel : Nat) (pre : List RegisterSet)
    (cur : RegisterSet) (post : List RegisterSet) (hs k : Nat)
    (hwf : ∀ g ∈ pre ++ cur :: post, IsRegisterSet g ∧ ∀ a ∈ g, a < u32 - 1)
    (hk : k < (pre ++ post).length) :
    (Qualifies EStage.Merge maxHole maxRegs cur ((pre ++ post).getD k []) →
      (∀ j, j < (pre ++ post).length →
        Qualifies EStage.Merge maxHole maxRegs cur ((pre ++ post).getD j []) →
        j = k ∨ CandidateBefore (candidateKey cur (pre ++ post) k)
          (candidateKey cur (pre ++ post) j)) →
      processSet EStage.Merge maxHole maxRegs (fuel + 1) pre cur post hs =
        processSet EStage.Merge maxHole maxRegs fuel (eraseOther pre post k).1
          (insertRange ((pre ++ post).getD k []) cur) (eraseOther pre post k).2 hs) ∧
    (maxHole < hs →
      Qualifies EStage.HoleEliminate maxHole maxRegs cur ((pre ++ post).getD k []) →
      GetMaxHoleSize (insertRange ((pre ++ post).getD k []) cur) < hs →
      (∀ j, j < (pre ++ post).length →
        Qualifies EStage.HoleEliminate maxHole maxRegs cur ((pre ++ post).getD j []) →
        GetMaxHoleSize (insertRange ((pre ++ post).getD j []) cur) < hs →
        j = k ∨ CandidateBefore (candidateKey cur (pre ++ post) k)
          (candidateKey cur (pre ++ post) j)) →
      processSet EStage.HoleEliminate maxHole maxRegs (fuel + 1) pre cur post hs =
        if GetMaxHoleSize (insertRange ((pre ++ post).getD k []) cur) ≤ maxHole then
          Except.ok ((eraseOther pre post k).1, insertRange ((pre ++ post).getD k []) cur,
            (eraseOther pre post k).2)
        else
          processSet EStage.HoleEliminate maxHole maxRegs fuel (eraseOther pre post k).1
            (insertRange ((pre ++ post).getD k []) cur) (eraseOther pre post k).2
            (GetMaxHoleSize (insertRange ((pre ++ post).getD k []) cur))) := by
  have hwf' : ∀ g ∈ pre ++ cur :: post, IsRegisterSet g ∧ lastOf g + 1 < u32 := by
    intro g hg
    obtain ⟨h1, h2⟩ := hwf g hg
    refine ⟨h1, ?_⟩
    have := h2 _ (lastOf_mem h1.1)
    unfold u32 at this ⊢
    omega
  exact ⟨fun hq hleast =>
      processSet_merge_absorbs maxHole maxRegs fuel pre cur post hs k hwf' hk hq hleast,
    fun hgt hq hlow hleast =>
      processSet_holeEliminate_absorbs maxHole maxRegs fuel pre cur post hs k hwf' hgt hk hq
        hlow hleast⟩

theorem processSet_absorbs_least_witness :
    processSet EStage.Merge 3 100 (2 + 1) [] [0, 10] [[2, 8], [5], [4]] 10 =
        processSet EStage.Merge 3 100 2 [] [0, 5, 10] [[2, 8], [4]] 10 ∧
      processSet EStage.HoleEliminate 3 100 (2 + 1) [] [0, 10] [[2, 8], [5], [4]] 10 =
        processSet EStage.HoleEliminate 3 100 2 [] [0, 5, 10] [[2, 8], [4]] 5 :=
  have h := processSet_absorbs_least 3 100 2 [] [0, 10] [[2, 8], [5], [4]] 10 1
    (by decide) (by decide)
  ⟨h.1 (by decide) (by decide), h.2 (by decide) (by decide) (by decide) (by decide)⟩

/-- Claim C17, evaluated where it fails: `GetMaxHoleSize` takes the difference of neighbouring
addresses, not the number of addresses skipped between them. For {0, 1, 2, 10, 11} it gives
`10 - 2 = 8`, not 7; for the consecutive addresses {0, 1, 2} it gives 1, not 0, and so it does
for any two consecutive addresses below `2^31`; for one register it gives 0. -/
theorem GetMaxHoleSize_is_address_difference :
    GetMaxHoleSize [0, 1, 2, 10, 11] = 8 ∧ GetMaxHoleSize [0, 1, 2, 10, 11] ≠ 10 - 2 - 1 ∧
      GetMaxHoleSize [0, 1, 2] = 1 ∧
      (∀ a, a + 1 < 2147483648 → GetMaxHoleSize [a, a + 1] = 1) ∧
      (∀ a, GetMaxHoleSize [a] = 0) := by
  refine ⟨rfl, by decide, rfl, ?_, ?_⟩
  · intro a ha
    have h1 : holeStep (0, -1) a = (0, (a : Int)) := by
      unfold holeStep
      simp [toInt32_of_lt (show a < 2147483648 by omega)]
    unfold GetMaxHoleSize
    simp only [List.foldl_cons, List.foldl_nil, h1]
    unfold holeStep
    simp only [Int.natCast_nonneg, if_true]
    rw [ofInt32_natCast (by omega)]
    unfold subU32 u32
    omega
  · intro a
    unfold GetMaxHoleSize
    simp [holeStep]

/-- Claim C18: `MergeSets` ends on every list and for every `maxHole` and `maxRegs`, either
returning a list or throwing one of its two exceptions; and a pass of the loop for one set
either ends the loop or has merged the current set with another set of the list, which is
erased, before the next pass: in stage `HoleEliminate` that merge has made the tracked hole
size strictly smaller, in stage `Merge` it has made the list one set shorter. -/
theorem MergeSets_terminates (registerSets : List RegisterSet) (maxHole maxRegs : Nat) :
    ((∃ out, MergeSets registerSets maxHole maxRegs = Except.ok out) ∨
      MergeSets registerSets maxHole maxRegs = Except.error MergeError.maxRegCountExceeded ∨
      MergeSets registerSets maxHole maxRegs = Except.error MergeError.maxHoleCountExceeded) ∧
    ∀ (stage : EStage) (pre : List RegisterSet) (cur : RegisterSet) (post : List RegisterSet)
      (hs : Nat),
      (∃ res, ∀ fuel, processSet stage maxHole maxRegs (fuel + 1) pre cur post hs = res) ∨
      (∃ k hs', k < pre.length + post.length ∧
        (eraseOther pre post k).1.length + (eraseOther pre post k).2.length + 1 =
          pre.length + post.length ∧
        (stage = EStage.HoleEliminate →
          hs' = GetMaxHoleSize (insertRange ((pre ++ post).getD k []) cur) ∧ hs' < hs) ∧
        (stage = EStage.Merge → hs' = hs) ∧
        ∀ fuel, processSet stage maxHole maxRegs (fuel + 1) pre cur post hs =
          processSet stage maxHole maxRegs fuel (eraseOther pre post k).1
            (insertRange ((pre ++ post).getD k []) cur) (eraseOther pre post k).2 hs') := by
  constructor
  · have hne := MergeSets_ne_fuelExhausted registerSets maxHole maxRegs
    cases hres : MergeSets registerSets maxHole maxRegs with
    | ok out => exact Or.inl ⟨out, rfl⟩
    | error e =>
      cases e with
      | maxRegCountExceeded => exact Or.inr (Or.inl rfl)
      | maxHoleCountExceeded => exact Or.inr (Or.inr rfl)
      | fuelExhausted => exact absurd hres hne
  · intro stage pre cur post hs
    exact processSet_pass stage maxHole maxRegs pre cur post hs

/-- Claim C19, evaluated where it fails: the set {2147483648, 2147483649} has two registers,
yet `GetMaxHoleSize` gives 0 for it and `MergeSets` with `maxHole = 0` returns it: the
address 2147483648 kept in `int prev` is negative, so the test `prev >= 0` hides the
neighbour. -/
theorem MergeSets_zero_cap_two_registers_accepted :
    IsRegisterSet [2147483648, 2147483649] ∧ GetMaxHoleSize [2147483648, 2147483649] = 0 ∧
      MergeSets [[2147483648, 2147483649]] 0 100 = Except.ok [[2147483648, 2147483649]] :=
  ⟨by decide, rfl, rfl⟩

/-- Claim C19, amended: with `maxHole = 0`, on every list of well-formed sets that holds a set
of two or more registers whose lowest address is below `2^31`, stage `HoleEliminate` throws
one of the two exceptions, and so does `MergeSets`; `GetMaxHoleSize` of that set is at
least 1. -/
theorem MergeSets_zero_cap_fails (registerSets : List RegisterSet) (maxRegs : Nat)
    (g : RegisterSet) (hwf : ∀ s ∈ registerSets, IsRegisterSet s) (hg : g ∈ registerSets)
    (hlen : 2 ≤ g.length) (hstart : startOf g < 2147483648) :
    1 ≤ GetMaxHoleSize g ∧
    (runStage EStage.HoleEliminate 0 maxRegs registerSets.length [] registerSets =
        Except.error MergeError.maxRegCountExceeded ∨
      runStage EStage.HoleEliminate 0 maxRegs registerSets.length [] registerSets =
        Except.error MergeError.maxHoleCountExceeded) ∧
    (MergeSets registerSets 0 maxRegs = Except.error MergeError.maxRegCountExceeded ∨
      MergeSets registerSets 0 maxRegs = Except.error MergeError.maxHoleCountExceeded) := by
  obtain ⟨e, he, hne⟩ := runStage_holeEliminate_zero registerSets maxRegs g hwf hg hlen hstart
  have hgw := hwf g hg
  refine ⟨GetMaxHoleSize_pos g hgw hstart (start_lt_last_of_two g hgw.2.1 hlen), ?_, ?_⟩
  · rw [he]
    cases e with
    | maxRegCountExceeded => exact Or.inl rfl
    | maxHoleCountExceeded => exact Or.inr rfl
    | fuelExhausted => exact absurd rfl hne
  · unfold MergeSets
    rw [he]
    cases e with
    | maxRegCountExceeded => exact Or.inl rfl
    | maxHoleCountExceeded => exact Or.inr rfl
    | fuelExhausted => exact absurd rfl hne

theorem MergeSets_zero_cap_fails_witness :
    1 ≤ GetMaxHoleSize [0, 1] ∧
    (runStage EStage.HoleEliminate 0 100 [[5], [0, 1]].length [] [[5], [0, 1]] =
        Except.error MergeError.maxRegCountExceeded ∨
      runStage EStage.HoleEliminate 0 100 [[5], [0, 1]].length [] [[5], [0, 1]] =
        Except.error MergeError.maxHoleCountExceeded) ∧
    (MergeSets [[5], [0, 1]] 0 100 = Except.error MergeError.maxRegCountExceeded ∨
      MergeSets [[5], [0, 1]] 0 100 = Except.error MergeError.maxHoleCountExceeded) :=
  MergeSets_zero_cap_fails [[5], [0, 1]] 100 [0, 1] (by decide) (by decide) (by decide)
    (by decide)

/-- Claim C20: for a memory block of one of the five parameter types, whatever the raw
memory, the bind info, the offset and the value, `ReadFromMemory` ORs the decoded and masked
bits into `value` and then throws "mercury230 ReadFromMemory: invalid register type", the
exception it throws for an unknown type (for which `value` is left alone); for the two array
types it does what `TSerialDevice::ReadFromMemory` does; so every type other than the two
array types ends in that exception. -/
theorem ReadFromMemory_param_throws (base : ReadOutcome) (typeIndex : Mercury230RegType)
    (size : Nat) (buf : Nat → Nat) (mask bitStart offset value : Nat)
    (hparam : typeIndex = Mercury230RegType.REG_PARAM ∨
      typeIndex = Mercury230RegType.REG_PARAM_BE ∨
      typeIndex = Mercury230RegType.REG_PARAM_SIGN_ACT ∨
      typeIndex = Mercury230RegType.REG_PARAM_SIGN_REACT ∨
      typeIndex = Mercury230RegType.REG_PARAM_SIGN_IGNORE) :
    ReadFromMemory base typeIndex size buf mask bitStart offset value =
      { value := (value ||| (((mask &&& decodeParam typeIndex size buf) >>> bitStart) <<<
          offset)) % 18446744073709551616,
        thrown := some "mercury230 ReadFromMemory: invalid register type" } ∧
    (∀ index, ReadFromMemory base (Mercury230RegType.unknown index) size buf mask bitStart
        offset value =
      { value := value, thrown := some "mercury230 ReadFromMemory: invalid register type" }) ∧
    ReadFromMemory base Mercury230RegType.REG_VALUE_ARRAY size buf mask bitStart offset value =
      base ∧
    ReadFromMemory base Mercury230RegType.REG_VALUE_ARRAY12 size buf mask bitStart offset
      value = base ∧
    (∀ t, t ≠ Mercury230RegType.REG_VALUE_ARRAY → t ≠ Mercury230RegType.REG_VALUE_ARRAY12 →
      (ReadFromMemory base t size buf mask bitStart offset value).thrown =
        some "mercury230 ReadFromMemory: invalid register type") := by
  refine ⟨?_, fun _ => rfl, rfl, rfl, ?_⟩
  · rcases hparam with h | h | h | h | h <;> subst h <;> rfl
  · intro t h1 h2
    cases t <;> first | rfl | exact absurd rfl h1 | exact absurd rfl h2

theorem ReadFromMemory_param_throws_witness :
    ReadFromMemory { value := 7, thrown := none } Mercury230RegType.REG_PARAM 3
        (fun i => [1, 2, 3].getD i 0) 16777215 0 8 1 =
      { value := 16974337, thrown := some "mercury230 ReadFromMemory: invalid register type" } :=
  have h := (ReadFromMemory_param_throws { value := 7, thrown := none }
    Mercury230RegType.REG_PARAM 3 (fun i => [1, 2, 3].getD i 0) 16777215 0 8 1
    (Or.inl rfl)).1
  h.trans (by decide)

/-- Claim C21: `CheckForException` depends on the frame only through the low nibble of its
second byte. It returns `NO_ERROR` if and only if `len ≠ 4` or that nibble is 0, and then
the message is null; otherwise it returns `PERMANENT_ERROR` for code 1, `NO_OPEN_SESSION` for
code 5 and `OTHER_ERROR` for every other code, each time with a message that is not null. -/
theorem CheckForException_classifies (frame : Nat → Nat) (len : Int) :
    (∀ frame' : Nat → Nat, (frame' 1 % 256) &&& 0x0f = (frame 1 % 256) &&& 0x0f →
      CheckForException frame' len = CheckForException frame len) ∧
    ((CheckForException frame len).1 = ErrorType.NO_ERROR ↔
      (len ≠ 4 ∨ (frame 1 % 256) &&& 0x0f = 0)) ∧
    ((len ≠ 4 ∨ (frame 1 % 256) &&& 0x0f = 0) → (CheckForException frame len).2 = none) ∧
    (¬ (len ≠ 4 ∨ (frame 1 % 256) &&& 0x0f = 0) →
      ((frame 1 % 256) &&& 0x0f = 1 →
        (CheckForException frame len).1 = ErrorType.PERMANENT_ERROR) ∧
      ((frame 1 % 256) &&& 0x0f = 5 →
        (CheckForException frame len).1 = ErrorType.NO_OPEN_SESSION) ∧
      ((frame 1 % 256) &&& 0x0f ≠ 1 → (frame 1 % 256) &&& 0x0f ≠ 5 →
        (CheckForException frame len).1 = ErrorType.OTHER_ERROR) ∧
      (CheckForException frame len).2 ≠ none) := by
  refine ⟨?_, ?_⟩
  · intro frame' h
    unfold CheckForException
    rw [h]
  · have hn : (frame 1 % 256) &&& 0x0f ≤ 15 := Nat.and_le_right
    unfold CheckForException
    generalize (frame 1 % 256) &&& 0x0f = n at hn
    by_cases hlen : len = 4
    · subst hlen
      interval_cases n <;> simp [returnOtherError]
    · simp [hlen]

theorem CheckForException_classifies_witness :
    CheckForException (fun i => [128, 5, 0, 0].getD i 0) 4 =
        (ErrorType.NO_OPEN_SESSION, some "Connection closed") ∧
      CheckForException (fun i => [128, 0x37, 0, 0].getD i 0) 4 =
        (ErrorType.OTHER_ERROR, some "Unknown error") ∧
      (CheckForException (fun i => [128, 0x37, 0, 0].getD i 0) 4).2 ≠ none :=
  ⟨by decide, by decide,
    ((CheckForException_classifies (fun i => [128, 0x37, 0, 0].getD i 0) 4).2.2.2
      (by decide)).2.2.2⟩

end WbMqttSerial
